import Mathlib

/-!
# rc-form `createBaseForm`: validation coordinator

A shallow embedding of `src/librararies/read-rc-form/src/createBaseForm.js`.

* JavaScript objects used as maps (`allRules`, `allValues`, `allFields`,
  `nowAllFields`, the store's `fields` and `fieldsMeta`) are association lists
  in insertion order; writing an existing key keeps its position.
* Field values are primitive JavaScript values (`Val`), so `!==` is structural
  disequality.
* The nested error structure handed to callbacks is an `ErrTree`; lodash
  `get`/`set` are `getE`/`setE` over the path `toPath name`.
* Arrays are values.  The `push` of the completion handler changes an array in
  place; it is modelled on the errors structure, where the array was read.  The
  array of a skipped field is also held by that field's record, and is pushed
  on only when the validator reports a field it was not given.
* A `TypeError` raised by the JavaScript is `Fault.typeError`, a
  `throw new Error(message)` of the source is `Fault.thrown message`.  A step
  that leaves the fragment of lodash modelled here (a path that runs through an
  array) is `Fault.unmodelled`.
-/

namespace RcForm

/-! ## Values, records, trees -/

/-- A primitive JavaScript value; `undefined` is what reading an absent key gives. -/
inductive Val where
  | undefined
  | null
  | bool (b : Bool)
  | num (n : Int)
  | str (s : String)
  deriving DecidableEq, Repr

/-- An error record `{message, field}` as produced by the rule validator. -/
structure ErrRec where
  message : String
  field : String
  deriving DecidableEq, Repr

/-- A validation rule; the rule language belongs to the rule validator. -/
structure Rule where
  descr : String
  deriving DecidableEq, Repr

/-- The JavaScript values that occur inside an errors structure: the boolean of
the `expired` marker, an array of error records, a plain object. -/
inductive ErrTree where
  | flag (b : Bool)
  | errs (es : List ErrRec)
  | obj (props : List (String × ErrTree))
  deriving Repr

/-- The own properties of a plain object of an errors structure. -/
abbrev EProps := List (String × ErrTree)

/-- A nested mapping of field values, as returned by `getFieldsValue`. -/
inductive ValTree where
  | leaf (v : Val)
  | obj (props : List (String × ValTree))
  deriving Repr

/-- The own properties of a plain object of a values structure. -/
abbrev VProps := List (String × ValTree)

/-- What can go wrong in a step of the model. -/
inductive Fault where
  | typeError
  | thrown (message : String)
  | unmodelled
  deriving DecidableEq, Repr

/-! ## Objects as association lists -/

/-- Property read `o[k]`; `none` is `undefined`. -/
def objGet {α : Type} (k : String) : List (String × α) → Option α
  | [] => none
  | (k', v) :: rest => if k' = k then some v else objGet k rest

/-- Property write `o[k] = v`: an existing key keeps its place, a new key goes last. -/
def objSet {α : Type} (k : String) (v : α) : List (String × α) → List (String × α)
  | [] => [(k, v)]
  | (k', v') :: rest => if k' = k then (k, v) :: rest else (k', v') :: objSet k v rest

/-- Property removal `delete o[k]`. -/
def objDel {α : Type} (k : String) : List (String × α) → List (String × α)
  | [] => []
  | (k', v') :: rest => if k' = k then objDel k rest else (k', v') :: objDel k rest

/-- The keys `Object.keys(o)`, in insertion order. -/
def objKeys {α : Type} (o : List (String × α)) : List String :=
  o.map Prod.fst

/-- Modelled from the spec: `isEmptyObject(o)` of `utils`, whether the object is
an empty structure (has no own key). -/
def isEmptyObject {α : Type} (o : List (String × α)) : Bool :=
  o.isEmpty

/-- A `forEach` whose body may throw: the bodies run in order on the running
state and the first fault ends the loop. -/
def forEachE {α β : Type} (f : β → α → Except Fault β) : β → List α → Except Fault β
  | b, [] => .ok b
  | b, a :: rest =>
    match f b a with
    | .error e => .error e
    | .ok b' => forEachE f b' rest

/-! ## Paths (PathCodec) -/

/-- Split a list of characters at every dot; `cur` holds the segment being read, reversed. -/
def splitDot : List Char → List Char → List String
  | cur, [] => [String.mk cur.reverse]
  | cur, c :: cs =>
    if c = '.' then String.mk cur.reverse :: splitDot [] cs else splitDot (c :: cur) cs

/-- Modelled from the spec: PathCodec, the conversion of a dotted nested name
(`"a.b"`) to the path of keys it addresses in a hierarchical mapping.  It stands
for lodash's path parsing, which is not part of `src/`; bracket syntax and
lodash's shortcut for a key that is itself an own property are not modelled. -/
def toPath (name : String) : List String :=
  splitDot [] name.data

/-- lodash `get(object, path)` on an errors structure.  Reading a key of
`undefined` or of a boolean gives `undefined`; reading inside an array of
records is outside the model. -/
def getE : EProps → List String → Except Fault (Option ErrTree)
  | o, [] => .ok (some (.obj o))
  | o, [k] => .ok (objGet k o)
  | o, k :: k' :: rest =>
    match objGet k o with
    | some (.obj c) => getE c (k' :: rest)
    | some (.errs _) => .error .unmodelled
    | _ => .ok none

/-- lodash `set(object, path, value)` on an errors structure: every key but the
last is descended into, an existing object being kept and anything that is not
an object being replaced by a fresh `{}`; the last key is assigned.  lodash keeps
an existing array and sets the next key on it, which is outside the model. -/
def setE : EProps → List String → ErrTree → Except Fault EProps
  | o, [], _ => .ok o
  | o, [k], v => .ok (objSet k v o)
  | o, k :: k' :: rest, v =>
    match objGet k o with
    | some (.obj c) => (setE c (k' :: rest) v).map (fun c' => objSet k (.obj c') o)
    | some (.errs _) => .error .unmodelled
    | _ => (setE [] (k' :: rest) v).map (fun c' => objSet k (.obj c') o)

/-- lodash `set(object, path, value)` on a values structure; a leaf on the way
is not an object and is replaced by a fresh `{}`. -/
def setV : VProps → List String → ValTree → VProps
  | o, [], _ => o
  | o, [k], v => objSet k v o
  | o, k :: k' :: rest, v =>
    match objGet k o with
    | some (.obj c) => objSet k (.obj (setV c (k' :: rest) v)) o
    | _ => objSet k (.obj (setV [] (k' :: rest) v)) o

/-! ## Field state and metadata -/

/-- A field record: the state kept per name, and the objects built from it by
the handlers.  An attribute that is `none` is absent (or `undefined`); `extra`
carries every attribute the form logic does not look at.  In a stored record
`name` stands for the key it is kept under: `getField` fills it in on every
read, and a record written without one (`{value}`) is given its key. -/
structure Field where
  name : String
  value : Option Val := none
  dirty : Option Bool := none
  validating : Option Bool := none
  errors : Option ErrTree := none
  touched : Option Bool := none
  extra : List (String × Val) := []
  deriving Repr

/-- One entry of a field's `validate` metadata: a trigger set and a rule list. -/
structure ValidateItem where
  trigger : List String
  rules : List Rule
  deriving DecidableEq, Repr

/-- The `ref` that `getFieldDecorator` copies from the decorated element into the
metadata: a string ref, or a callback of the element's owner. -/
inductive RefVal where
  | named (s : String)
  | callback
  deriving DecidableEq, Repr

/-- Field metadata, which is also the shape of the options of `getFieldProps`;
`none` is an absent key. -/
structure FieldMeta where
  name : Option String := none
  trigger : Option String := none
  valuePropName : Option String := none
  validate : Option (List ValidateItem) := none
  rules : Option (List Rule) := none
  validateTrigger : Option (List String) := none
  initialValue : Option Val := none
  validateFirst : Option Bool := none
  hidden : Option Bool := none
  ref : Option RefVal := none
  deriving DecidableEq, Repr

/-- Reading `field.value`: an absent key reads as `undefined`. -/
def Field.jsValue (f : Field) : Val :=
  f.value.getD Val.undefined

/-! ## FieldsStore -/

/-- Modelled from the spec: FieldsStore (`createFieldsStore.js` is not part of
`src/`), the owner of the map from field name to field state and of the map from
field name to metadata. -/
structure FieldsStore where
  fields : List (String × Field) := []
  fieldsMeta : List (String × FieldMeta) := []
  deriving Repr

namespace FieldsStore

/-- Modelled from the spec: `getFieldMeta(name)`, which lazily creates an empty
meta record on first access (idempotent read-or-create). -/
def getFieldMeta (st : FieldsStore) (name : String) : FieldMeta × FieldsStore :=
  match objGet name st.fieldsMeta with
  | some m => (m, st)
  | none => ({}, { st with fieldsMeta := objSet name {} st.fieldsMeta })

/-- Modelled from the spec: `setFieldMeta(name, meta)`, which overwrites a
field's metadata wholesale. -/
def setFieldMeta (st : FieldsStore) (name : String) (m : FieldMeta) : FieldsStore :=
  { st with fieldsMeta := objSet name m st.fieldsMeta }

/-- Modelled from the spec: `getField(name)`, a copy of the field state held for
`name` with the name filled in (FieldState, "per field name"); the copy is what
lets a run touch the store only at its two commits. -/
def getField (st : FieldsStore) (name : String) : Field :=
  match objGet name st.fields with
  | some f => { f with name := name }
  | none => { name := name }

/-- Modelled from the spec: `getFieldValue(name)`, the field's current value,
falling back to its declared initial value if the field is unset; never fails. -/
def getFieldValue (st : FieldsStore) (name : String) : Val :=
  match (objGet name st.fields).bind Field.value with
  | some v => v
  | none => ((objGet name st.fieldsMeta).bind FieldMeta.initialValue).getD Val.undefined

/-- Modelled from the spec: `setFields(flatMapping)`, a shallow merge of the
updates into the per-name field state, last write winning per key; no metadata
is created. -/
def setFields (st : FieldsStore) (upd : List (String × Field)) : FieldsStore :=
  { st with fields := upd.foldl (fun acc kv => objSet kv.1 kv.2 acc) st.fields }

/-- Modelled from the spec: `flattenRegisteredFields`, restricted to the flat
mappings `{name: field}` that the validation coordinator passes: only the
entries whose name is a registered field name are returned. -/
def flattenRegisteredFields (st : FieldsStore) (upd : List (String × Field)) :
    List (String × Field) :=
  upd.filter (fun kv => (objGet kv.1 st.fieldsMeta).isSome)

/-- Modelled from the spec: `clearField(name)`, which removes the field from
both live maps. -/
def clearField (st : FieldsStore) (name : String) : FieldsStore :=
  { fields := objDel name st.fields, fieldsMeta := objDel name st.fieldsMeta }

/-- Modelled from the spec: the names a call without an explicit list targets,
"all currently registered" names (hidden ones set aside). -/
def getValidFieldsName (st : FieldsStore) : List String :=
  objKeys (st.fieldsMeta.filter (fun kv => kv.2.hidden != some true))

/-- Modelled from the spec: the names an explicit list targets, the registered
names that one of the given names addresses, itself or as a nested part. -/
def getValidFieldsFullName (st : FieldsStore) (names : List String) : List String :=
  st.getValidFieldsName.filter
    (fun full => names.any (fun part => (toPath part).isPrefixOf (toPath full)))

/-- Modelled from the spec: `getFieldsValue(names?)`, which for all fields (or
the given subset) rebuilds a nested value structure from the dotted names; a
name absent from both maps is skipped. -/
def getFieldsValue (st : FieldsStore) (names : Option (List String)) : VProps :=
  (names.getD st.getValidFieldsName).foldl
    (fun acc f =>
      if (objGet f st.fields).isSome || (objGet f st.fieldsMeta).isSome then
        setV acc (toPath f) (.leaf (st.getFieldValue f))
      else acc)
    []

/-- Modelled from the spec: `resetFields(names?)`, the reset payload, a mapping of
name to `{value: initialValue}` for the given names (or all registered names if
omitted); a name that was never registered gets no entry.  The value is unset
when no initial value is declared. -/
def resetFields (st : FieldsStore) (names : Option (List String)) : List (String × Field) :=
  ((names.getD (objKeys st.fieldsMeta)).filter
      (fun name => (objGet name st.fieldsMeta).isSome)).foldl
    (fun acc name =>
      objSet name
        { name := name, value := (objGet name st.fieldsMeta).bind FieldMeta.initialValue } acc)
    []

mutual
/-- Modelled from the spec: the walk of `flattenRegisteredFields` over an
arbitrarily nested value object: a node whose dotted path is a registered field
name is an entry, any other object is walked key by key, anything else is
dropped. -/
def walkValues (st : FieldsStore) : String → ValTree → List (String × ValTree)
  | path, tree =>
    if (objGet path st.fieldsMeta).isSome then [(path, tree)]
    else
      match tree with
      | .leaf _ => []
      | .obj props => walkProps st path props
/-- Modelled from the spec: the walk over the keys of one object, the path of a
key being the object's path, a dot unless that path is empty, and the key. -/
def walkProps (st : FieldsStore) : String → List (String × ValTree) → List (String × ValTree)
  | _, [] => []
  | path, (k, v) :: rest =>
    walkValues st (if path = "" then k else path ++ "." ++ k) v ++ walkProps st path rest
end

/-- Modelled from the spec: `flattenRegisteredFields(nestedMapping)` on a nested
value object: the flat mapping of the entries whose dotted path is a registered
field name. -/
def flattenRegisteredValues (st : FieldsStore) (changedValues : ValTree) :
    List (String × ValTree) :=
  (walkValues st "" changedValues).foldl (fun acc kv => objSet kv.1 kv.2 acc) []

end FieldsStore

/-- Modelled from the spec: `hasRules(validate)` of `utils`, whether the field
carries at least one rule. -/
def hasRules (validate : Option (List ValidateItem)) : Bool :=
  match validate with
  | some items => items.any (fun item => !item.rules.isEmpty)
  | none => false

/-- Modelled from the spec: `flattenArray` of `utils`, the concatenation of a
list of lists. -/
def flattenArray {α : Type} (xs : List (List α)) : List α :=
  xs.foldl (fun acc x => acc ++ x) []

/-! ## The form methods of `createBaseForm` -/

/-- JavaScript `!action`: no action, or the empty string. -/
def actionFalsy (action : Option String) : Bool :=
  match action with
  | none => true
  | some a => a == ""

/-- The method `getRules(fieldMeta, action)`; `fieldMeta.validate.filter` throws when the
record has no `validate`. -/
def getRules (fieldMeta : FieldMeta) (action : Option String) : Except Fault (List Rule) :=
  match fieldMeta.validate with
  | none => .error .typeError
  | some items =>
    let actionRules :=
      (items.filter (fun item =>
        actionFalsy action || (match action with
          | some a => item.trigger.contains a
          | none => false))).map (fun item => item.rules)
    .ok (flattenArray actionRules)

/-- The method `setFields(maybeNestedFields)` of the form, for a flat mapping: the updates
of registered names are written to the store.  The `onFieldsChange` notification
and `forceUpdate` do not touch the store and are left out. -/
def setFields (st : FieldsStore) (upd : List (String × Field)) : FieldsStore :=
  st.setFields (st.flattenRegisteredFields upd)

/-- The `firstFields` option of the rule validator: a boolean, or a list of names. -/
inductive FirstFields where
  | flag (b : Bool)
  | names (l : List String)
  deriving DecidableEq, Repr

/-- The options of a validation run. -/
structure ValidateOptions where
  force : Option Bool := none
  firstFields : Option FirstFields := none
  deriving DecidableEq, Repr

/-- The two arguments of a completion callback; `errors = none` is `null`. -/
structure CallbackArgs where
  errors : Option EProps
  values : VProps
  deriving Repr

/-- The locals of `validateFieldsInternal` while it walks `fields`; the store is
carried along because `getFieldMeta` may create a record. -/
structure Snapshot where
  store : FieldsStore
  allRules : List (String × List Rule) := []
  allValues : List (String × Val) := []
  allFields : List (String × Field) := []
  alreadyErrors : EProps := []
  deriving Repr

/-- What a validation run keeps for its completion handler and hands to the
rule validator. -/
structure Run where
  alreadyErrors : EProps
  allRules : List (String × List Rule)
  allValues : List (String × Val)
  fieldNames : Option (List String)
  options : ValidateOptions
  hasCallback : Bool
  deriving Repr

/-- How a call ends: it returned without starting the rule validator (`cb` is
the callback invocation it made, if any), or it started the rule validator. -/
inductive Outcome where
  | done (cb : Option CallbackArgs)
  | pending (run : Run)
  deriving Repr

/-- The body of `fields.forEach` in `validateFieldsInternal`. -/
def snapshotField (force : Option Bool) (action : Option String) (acc : Snapshot)
    (field : Field) : Except Fault Snapshot :=
  let name := field.name
  if force ≠ some true ∧ field.dirty = some false then
    match field.errors with
    | some e =>
      (setE acc.alreadyErrors (toPath name) (.obj [("errors", e)])).map
        (fun a => { acc with alreadyErrors := a })
    | none => .ok acc
  else
    let fieldMeta := (acc.store.getFieldMeta name).1
    let newField : Field :=
      { field with errors := none, validating := some true, dirty := some true }
    (getRules fieldMeta action).map (fun rules =>
      { store := (acc.store.getFieldMeta name).2
        allRules := objSet name rules acc.allRules
        allValues := objSet name newField.jsValue acc.allValues
        allFields := objSet name newField acc.allFields
        alreadyErrors := acc.alreadyErrors })

/-- The first argument of a callback: `null` for an empty errors object. -/
def errorsOrNull (g : EProps) : Option EProps :=
  if isEmptyObject g then none else some g

/-- The method `validateFieldsInternal(fields, {fieldNames, action, options}, callback)` up
to the call of the rule validator. -/
def validateFieldsInternal (st : FieldsStore) (fields : List Field)
    (fieldNames : Option (List String)) (action : Option String)
    (options : ValidateOptions) (hasCallback : Bool) : Except Fault (FieldsStore × Outcome) :=
  match forEachE (snapshotField options.force action) { store := st } fields with
  | .error e => .error e
  | .ok snap =>
    let st1 := setFields snap.store snap.allFields
    let allValues := snap.allValues.map (fun kv => (kv.1, st1.getFieldValue kv.1))
    if hasCallback ∧ isEmptyObject snap.allFields then
      .ok (st1, .done (some
        { errors := errorsOrNull snap.alreadyErrors
          values := st1.getFieldsValue fieldNames }))
    else
      .ok (st1, .pending
        { alreadyErrors := snap.alreadyErrors
          allRules := snap.allRules
          allValues := allValues
          fieldNames := fieldNames
          options := options
          hasCallback := hasCallback })

/-- The first half of the body of `errors.forEach` in the completion handler:
unless a plain object already stands at the record's field, `{errors: []}` is
set there. -/
def placeNode (g : EProps) (e : ErrRec) : Except Fault EProps :=
  match getE g (toPath e.field) with
  | .error f => .error f
  | .ok (some (.obj _)) => .ok g
  | .ok _ => setE g (toPath e.field) (.obj [("errors", .errs [])])

/-- The second half: `get(errorsGroup, fieldName.concat('.errors')).push(e)`.
The array is changed in place, which on a tree is a write at the path it was
read from; `push` on anything but an array throws. -/
def pushRecord (g : EProps) (e : ErrRec) : Except Fault EProps :=
  match getE g (toPath (e.field ++ ".errors")) with
  | .error f => .error f
  | .ok (some (.errs es)) => setE g (toPath (e.field ++ ".errors")) (.errs (es ++ [e]))
  | .ok _ => .error .typeError

/-- The body of `errors.forEach` in the completion handler. -/
def groupError (g : EProps) (e : ErrRec) : Except Fault EProps :=
  match placeNode g e with
  | .error f => .error f
  | .ok g1 => pushRecord g1 e

/-- The locals `expired` and `nowAllFields` of the completion handler. -/
structure Reconciled where
  expired : List String := []
  nowAllFields : List (String × Field) := []
  deriving Repr

/-- JavaScript `fieldErrors && fieldErrors.errors`. -/
def errorsOf (fieldErrors : Option ErrTree) : Option ErrTree :=
  match fieldErrors with
  | some (.obj props) => objGet "errors" props
  | _ => none

/-- The body of `Object.keys(allRules).forEach` in the completion handler. -/
def reconcileField (st : FieldsStore) (allValues : List (String × Val)) (g : EProps)
    (acc : Reconciled) (name : String) : Except Fault Reconciled :=
  match getE g (toPath name) with
  | .error f => .error f
  | .ok fieldErrors =>
    let nowField := st.getField name
    let validated := (objGet name allValues).getD Val.undefined
    if nowField.jsValue ≠ validated then
      .ok { acc with expired := acc.expired ++ [name] }
    else
      let committed : Field :=
        { nowField with
          errors := errorsOf fieldErrors
          value := some validated
          validating := some false
          dirty := some false }
      .ok { acc with nowAllFields := objSet name committed acc.nowAllFields }

/-- The node written for an expired field. -/
def expiredNode (name : String) : ErrTree :=
  .obj [("expired", .flag true),
        ("errors", .errs [{ message := name ++ " need to revalidate", field := name }])]

/-- The body of `expired.forEach` in the completion handler. -/
def expireField (g : EProps) (name : String) : Except Fault EProps :=
  setE g (toPath name) (expiredNode name)

/-- The errors structure after `errors.forEach`. -/
def groupErrors (run : Run) (errors : Option (List ErrRec)) : Except Fault EProps :=
  forEachE groupError run.alreadyErrors (errors.getD [])

/-- The `expired` list and the mapping `nowAllFields` that the completion
handler passes to `setFields`: the reconciliation write. -/
def reconcile (st : FieldsStore) (run : Run) (errors : Option (List ErrRec)) :
    Except Fault Reconciled :=
  match groupErrors run errors with
  | .error f => .error f
  | .ok g => forEachE (reconcileField st run.allValues g) {} (objKeys run.allRules)

/-- The completion handler given to `validator.validate`, run on the store as it
is when the rule validator completes with `errors` (`none` is `null`). -/
def complete (st : FieldsStore) (run : Run) (errors : Option (List ErrRec)) :
    Except Fault (FieldsStore × Option CallbackArgs) :=
  match groupErrors run errors with
  | .error f => .error f
  | .ok g =>
    match forEachE (reconcileField st run.allValues g) {} (objKeys run.allRules) with
    | .error f => .error f
    | .ok r =>
      let st1 := setFields st r.nowAllFields
      if run.hasCallback then
        match forEachE expireField g r.expired with
        | .error f => .error f
        | .ok g2 =>
          .ok (st1, some { errors := errorsOrNull g2, values := st1.getFieldsValue run.fieldNames })
      else
        .ok (st1, none)

/-- The target names of `validateFields`: `getValidFieldsFullName(names)` for an
explicit list, `getValidFieldsName()` without one. -/
def targetNames (st : FieldsStore) (names : Option (List String)) : List String :=
  match names with
  | some ns => st.getValidFieldsFullName ns
  | none => st.getValidFieldsName

/-- The `filter` of `validateFields`: the target names that carry rules, the
store being carried along because `getFieldMeta` may create a record. -/
def ruledNames (st : FieldsStore) (fieldNames : List String) : FieldsStore × List String :=
  fieldNames.foldl
    (fun acc name =>
      ((acc.1.getFieldMeta name).2,
        if hasRules (acc.1.getFieldMeta name).1.validate then acc.2 ++ [name] else acc.2))
    (st, [])

/-- The method `validateFields(ns, opt, cb)` after `getParams` has sorted its arguments
into names, options and callback. -/
def validateFields (st : FieldsStore) (names : Option (List String))
    (options : ValidateOptions) (hasCallback : Bool) : Except Fault (FieldsStore × Outcome) :=
  let fieldNames := targetNames st names
  let st1 := (ruledNames st fieldNames).1
  let fields : List Field := (ruledNames st fieldNames).2.map
    (fun name => { st1.getField name with value := some (st1.getFieldValue name) })
  if fields.isEmpty then
    if hasCallback then
      .ok (st1, .done (some { errors := none, values := st1.getFieldsValue (some fieldNames) }))
    else
      .ok (st1, .done none)
  else
    let options1 : ValidateOptions :=
      match options.firstFields with
      | some _ => options
      | none =>
        { options with
          firstFields := some (.names (fieldNames.filter (fun name =>
            (st1.getFieldMeta name).1.validateFirst == some true))) }
    validateFieldsInternal st1 fields (some fieldNames) none options1 hasCallback

/-! ## Registration and handlers -/

/-- The three methods that `getCacheBind` binds. -/
inductive HandlerFn where
  | saveRef
  | onCollect
  | onCollectValidate
  deriving DecidableEq, Repr

/-- A bound handler `fn.bind(this, name, action)`.  Every `bind` makes a new
function; `id` is the identity of that function, the number of bindings the form
had made before it. -/
structure Handler where
  fn : HandlerFn
  name : String
  action : String
  id : Nat := 0
  deriving DecidableEq, Repr

/-- The state of a form instance: the store, the mounted instances, the handler
cache and the cleared-field cache; `bindCount` counts the functions bound so far. -/
structure Form where
  fieldsStore : FieldsStore := {}
  instances : List (String × String) := []
  cachedBind : List (String × List (String × Handler)) := []
  clearedFieldMetaCache : List (String × (Field × FieldMeta)) := []
  bindCount : Nat := 0
  deriving Repr

/-- The options of `createBaseForm` that `getFieldProps` reads. -/
structure CreateOption where
  fieldNameProp : Option String := none
  fieldMetaProp : Option String := none
  fieldDataProp : Option String := none
  deriving Repr

/-- A value of the props object returned by `getFieldProps`. -/
inductive PropVal where
  | value (v : Val)
  | handler (h : Handler)
  | name (s : String)
  | meta (m : FieldMeta)
  | field (f : Field)
  deriving Repr

/-- JavaScript truthiness of a primitive value. -/
def Val.truthy : Val → Bool
  | .undefined => false
  | .null => false
  | .bool b => b
  | .num n => n != 0
  | .str s => s != ""

/-- JavaScript truthiness of `inputProps[action]`. -/
def propTruthy : Option PropVal → Bool
  | none => false
  | some (.value v) => v.truthy
  | some (.name s) => s != ""
  | some _ => true

/-- The object spread `{...a, ...b}` of two metadata records: a key of `b` wins. -/
def overlay (a b : FieldMeta) : FieldMeta :=
  { name := b.name.orElse (fun _ => a.name)
    trigger := b.trigger.orElse (fun _ => a.trigger)
    valuePropName := b.valuePropName.orElse (fun _ => a.valuePropName)
    validate := b.validate.orElse (fun _ => a.validate)
    rules := b.rules.orElse (fun _ => a.rules)
    validateTrigger := b.validateTrigger.orElse (fun _ => a.validateTrigger)
    initialValue := b.initialValue.orElse (fun _ => a.initialValue)
    validateFirst := b.validateFirst.orElse (fun _ => a.validateFirst)
    hidden := b.hidden.orElse (fun _ => a.hidden)
    ref := b.ref.orElse (fun _ => a.ref) }

/-- Modelled from the spec: `normalizeValidateRules(validate, rules, validateTrigger)`
of `utils`, the rule list of a registration: the entries of `validate`, followed,
when `rules` is given, by one entry holding `rules` under the validate triggers. -/
def normalizeValidateRules (validate : List ValidateItem) (rules : Option (List Rule))
    (validateTrigger : List String) : List ValidateItem :=
  match rules with
  | some rs => validate ++ [{ trigger := validateTrigger, rules := rs }]
  | none => validate

/-- Modelled from the spec: `getValidateTriggers(validateRules)` of `utils`, the
trigger actions of the entries that carry at least one rule. -/
def getValidateTriggers (validateRules : List ValidateItem) : List String :=
  flattenArray ((validateRules.filter (fun item => !item.rules.isEmpty)).map
    (fun item => item.trigger))

/-- The method `getCacheBind(name, action, fn)`: the handler cached for `(name, action)`,
bound on first use. -/
def getCacheBind (form : Form) (name action : String) (fn : HandlerFn) : Handler × Form :=
  let cachedBind1 :=
    match objGet name form.cachedBind with
    | some _ => form.cachedBind
    | none => objSet name [] form.cachedBind
  let cache := (objGet name cachedBind1).getD []
  match objGet action cache with
  | some h => (h, { form with cachedBind := cachedBind1 })
  | none =>
    let h : Handler := { fn := fn, name := name, action := action, id := form.bindCount }
    (h, { form with
          cachedBind := objSet name (objSet action h cache) cachedBind1
          bindCount := form.bindCount + 1 })

/-- The loop `validateTriggers.forEach` of `getFieldProps`: an action whose prop
is already set is left alone, any other is bound to `onCollectValidate`. -/
def bindValidateTriggers (name : String) :
    List String → List (String × PropVal) × Form → List (String × PropVal) × Form
  | [], acc => acc
  | action :: rest, (inputProps, form) =>
    if propTruthy (objGet action inputProps) then
      bindValidateTriggers name rest (inputProps, form)
    else
      let bound := getCacheBind form name action .onCollectValidate
      bindValidateTriggers name rest (objSet action (.handler bound.1) inputProps, bound.2)

/-- The method `getFieldProps(name, usersFieldOption)`.  The value prop is the field's
current value (`getFieldValuePropValue` is modelled from the spec: "current
value"); the warnings are left out. -/
def getFieldProps (opt : CreateOption) (form : Form) (name : String)
    (usersFieldOption : FieldMeta) : Except Fault (List (String × PropVal) × Form) :=
  if name = "" then
    .error (.thrown "Must call `getFieldProps` with valid name string!")
  else
    let form1 : Form :=
      { form with clearedFieldMetaCache := objDel name form.clearedFieldMetaCache }
    let fieldOption : FieldMeta :=
      overlay
        { name := some name, trigger := some "onChange", valuePropName := some "value"
          validate := some [] }
        usersFieldOption
    let rules := fieldOption.rules
    let trigger := fieldOption.trigger
    let validateTrigger : List String :=
      match fieldOption.validateTrigger with
      | some l => l
      | none =>
        match trigger with
        | some t => if t = "" then [] else [t]
        | none => []
    let validate := fieldOption.validate.getD []
    let fieldMeta0 := (form1.fieldsStore.getFieldMeta name).1
    let store1 := (form1.fieldsStore.getFieldMeta name).2
    let fieldMeta : FieldMeta :=
      match fieldOption.initialValue with
      | some v => { fieldMeta0 with initialValue := some v }
      | none => fieldMeta0
    let store2 : FieldsStore :=
      match fieldOption.initialValue with
      | some _ => store1.setFieldMeta name fieldMeta
      | none => store1
    let fieldValue : Val :=
      match (store2.getField name).value with
      | some v => v
      | none => fieldOption.initialValue.getD Val.undefined
    let refBound := getCacheBind { form1 with fieldsStore := store2 } name (name ++ "__ref") .saveRef
    let inputProps0 : List (String × PropVal) :=
      objSet "ref" (.handler refBound.1)
        (objSet (fieldOption.valuePropName.getD "value") (.value fieldValue) [])
    let inputProps1 :=
      match opt.fieldNameProp with
      | some p => objSet p (.name name) inputProps0
      | none => inputProps0
    let validateRules := normalizeValidateRules validate rules validateTrigger
    let validateTriggers := getValidateTriggers validateRules
    let bound := bindValidateTriggers name validateTriggers (inputProps1, refBound.2)
    let collected : List (String × PropVal) × Form :=
      match trigger with
      | some t =>
        if t ≠ "" ∧ ¬ t ∈ validateTriggers then
          let b := getCacheBind bound.2 name t .onCollect
          (objSet t (.handler b.1) bound.1, b.2)
        else bound
      | none => bound
    let metaNew : FieldMeta :=
      { overlay fieldMeta fieldOption with validate := some validateRules }
    let store3 := collected.2.fieldsStore.setFieldMeta name metaNew
    let inputProps2 :=
      match opt.fieldMetaProp with
      | some p => objSet p (.meta metaNew) collected.1
      | none => collected.1
    let inputProps3 :=
      match opt.fieldDataProp with
      | some p => objSet p (.field (store3.getField name)) inputProps2
      | none => inputProps2
    .ok (inputProps3, { collected.2 with fieldsStore := store3 })

/-- The method `onCollectCommon(name, action, args)` with the value already extracted from
the event; the user callbacks and `onValuesChange` do not touch the form. -/
def onCollectCommon (form : Form) (name : String) (value : Val) : Field × FieldMeta × Form :=
  let fieldMeta := (form.fieldsStore.getFieldMeta name).1
  let store1 := (form.fieldsStore.getFieldMeta name).2
  let field := store1.getField name
  ({ field with value := some value, touched := some true }, fieldMeta,
    { form with fieldsStore := store1 })

/-- The method `onCollect(name, action, ...args)`: the plain collecting handler. -/
def onCollect (form : Form) (name : String) (value : Val) : Form :=
  let r := onCollectCommon form name value
  let newField : Field := { r.1 with dirty := some (hasRules r.2.1.validate) }
  { r.2.2 with fieldsStore := setFields r.2.2.fieldsStore [(name, newField)] }

/-- The method `onCollectValidate(name, action, ...args)`: the validating handler, up to
the call of the rule validator. -/
def onCollectValidate (form : Form) (name action : String) (value : Val) :
    Except Fault (Form × Outcome) :=
  let r := onCollectCommon form name value
  let newField : Field := { r.1 with dirty := some true }
  (validateFieldsInternal r.2.2.fieldsStore [newField] none (some action)
    { firstFields := some (.flag (r.2.1.validateFirst == some true)) } false).map
    (fun res => ({ r.2.2 with fieldsStore := res.1 }, res.2))

/-- The method `getFieldProps` as it is called: JavaScript `!name` holds for a
missing name as it does for the empty string. -/
def getFieldPropsArg (opt : CreateOption) (form : Form) (name : Option String)
    (usersFieldOption : FieldMeta) : Except Fault (List (String × PropVal) × Form) :=
  getFieldProps opt form (name.getD "") usersFieldOption

/-- The form after a call of `getFieldProps`: the form it returns, and the form
it was called on when it throws, the `throw` being its first statement. -/
def formAfterGetFieldProps (opt : CreateOption) (form : Form) (name : Option String)
    (usersFieldOption : FieldMeta) : Form :=
  match getFieldPropsArg opt form name usersFieldOption with
  | .ok r => r.2
  | .error _ => form

/-- The method `recoverClearedField(name)`. -/
def recoverClearedField (form : Form) (name : String) : Form :=
  match objGet name form.clearedFieldMetaCache with
  | some cached =>
    { form with
      fieldsStore := (form.fieldsStore.setFields [(name, cached.1)]).setFieldMeta name cached.2
      clearedFieldMetaCache := objDel name form.clearedFieldMetaCache }
  | none => form

/-- The method `saveRef(name, _, component)`; `component = none` is `null`.  A
callback `ref` of the metadata is the owner's function and does not touch the
form; a string `ref` makes the method throw. -/
def saveRef (form : Form) (name : String) (component : Option String) : Except Fault Form :=
  match component with
  | none =>
    .ok { form with
          clearedFieldMetaCache :=
            objSet name (form.fieldsStore.getField name, (form.fieldsStore.getFieldMeta name).1)
              form.clearedFieldMetaCache
          fieldsStore := (form.fieldsStore.getFieldMeta name).2.clearField name
          instances := objDel name form.instances
          cachedBind := objDel name form.cachedBind }
  | some c =>
    let form1 := recoverClearedField form name
    let fieldMeta := (form1.fieldsStore.getFieldMeta name).1
    let store1 := (form1.fieldsStore.getFieldMeta name).2
    match fieldMeta.ref with
    | some (.named _) => .error (.thrown ("can not set ref string for " ++ name))
    | _ => .ok { form1 with fieldsStore := store1, instances := objSet name c form1.instances }

/-- The method `resetFields(ns)`; `ns` is a name or a list of names, and `none`
when it is absent. -/
def resetFields (form : Form) (ns : Option (List String)) : Form :=
  let newFields := form.fieldsStore.resetFields ns
  let store1 :=
    if newFields.length > 0 then setFields form.fieldsStore newFields else form.fieldsStore
  { form with
    fieldsStore := store1
    clearedFieldMetaCache :=
      match ns with
      | some names => names.foldl (fun cache name => objDel name cache) form.clearedFieldMetaCache
      | none => [] }

/-- The mapping `newFields` that `setFieldsValue` builds and hands to `setFields`:
for each flattened name that is registered, a record holding the value only.
A value that is itself an object is kept as the stand-in `box` gives it, the
values of the model being primitive. -/
def valueUpdate (box : VProps → Val) (st : FieldsStore) (changedValues : ValTree) :
    List (String × Field) :=
  (st.flattenRegisteredValues changedValues).foldl
    (fun acc kv =>
      if (objGet kv.1 st.fieldsMeta).isSome then
        objSet kv.1
          { name := kv.1
            value := some (match kv.2 with
              | .leaf v => v
              | .obj props => box props) } acc
      else acc)
    []

/-- The method `setFieldsValue(changedValues)`; the `onValuesChange` notification
does not touch the form. -/
def setFieldsValue (box : VProps → Val) (form : Form) (changedValues : ValTree) : Form :=
  { form with
    fieldsStore := setFields form.fieldsStore (valueUpdate box form.fieldsStore changedValues) }

/-- The handler that the handler cache holds for `(name, action)`. -/
def cachedHandler (form : Form) (name action : String) : Option Handler :=
  (objGet name form.cachedBind).bind (objGet action)

/-- Calling a value-change handler returned by `getFieldProps` with an event
whose value is `value`.  A `ref` handler is not a value-change handler. -/
def invokeHandler (form : Form) (h : Handler) (value : Val) : Except Fault (Form × Outcome) :=
  match h.fn with
  | .onCollect => .ok (onCollect form h.name value, .done none)
  | .onCollectValidate => onCollectValidate form h.name h.action value
  | .saveRef => .error .unmodelled

/-! ## Vocabulary of the statements -/

/-- Two paths are apart when neither is a prefix of the other. -/
def Apart (p q : List String) : Prop :=
  ¬ p <+: q ∧ ¬ q <+: p

instance (p q : List String) : Decidable (Apart p q) := by
  unfold Apart; exact inferInstance

/-- The name space invariant: the names are prefix-free, no name's path is a
prefix of another's (so the names are also pairwise distinct). -/
def PrefixFree (names : List String) : Prop :=
  names.Pairwise (fun a b => Apart (toPath a) (toPath b))

instance (names : List String) : Decidable (PrefixFree names) := by
  unfold PrefixFree; exact inferInstance

/-- The guard of `validateFieldsInternal`: the field is skipped when the run is
not forced and its dirty flag is `false`. -/
def skipped (force : Option Bool) (field : Field) : Prop :=
  force ≠ some true ∧ field.dirty = some false

instance (force : Option Bool) (field : Field) : Decidable (skipped force field) := by
  unfold skipped; exact inferInstance

/-- The records of a validator result that name a given field, in order. -/
def recordsFor (name : String) (records : List ErrRec) : List ErrRec :=
  records.filter (fun e => e.field = name)

/-- The node `{errors: es}`. -/
def errorsNode (es : ErrTree) : ErrTree :=
  .obj [("errors", es)]

/-- The node that error aggregation builds from the records gathered for one
field: none for no record, else `{errors: records}`. -/
def groupNode (l : List ErrRec) : Option ErrTree :=
  if l = [] then none else some (errorsNode (.errs l))

/-- The record that reconciliation commits for a field whose value still is the
validated one: the live record with the errors of its node `fieldErrors`, the
validated value, and `validating` and `dirty` lowered. -/
def committedField (st : FieldsStore) (name : String) (validated : Val)
    (fieldErrors : Option ErrTree) : Field :=
  { st.getField name with
    errors := errorsOf fieldErrors
    value := some validated
    validating := some false
    dirty := some false }

/-- The value a run validated for a name: `allValues[name]`. -/
def Run.validated (run : Run) (name : String) : Val :=
  (objGet name run.allValues).getD Val.undefined

/-- The record that the snapshot commits for a field entering validation: the
field as passed in, with `validating` and `dirty` raised and no errors. -/
def snapshotOf (field : Field) : Field :=
  { field with errors := none, validating := some true, dirty := some true }

/-- Every handler that the props hold under a key other than `ref` is the
handler that the cache holds for the field and that key. -/
def HandlersCached (name : String) (props : List (String × PropVal)) (form : Form) : Prop :=
  ∀ k h, k ≠ "ref" → objGet k props = some (.handler h) → cachedHandler form name k = some h

/-- The options of a registration: the defaults `name`, `trigger = 'onChange'`,
`valuePropName = 'value'`, `validate = []`, overlaid with the caller's options. -/
def registrationOption (name : String) (usersFieldOption : FieldMeta) : FieldMeta :=
  overlay
    { name := some name, trigger := some "onChange", valuePropName := some "value"
      validate := some [] }
    usersFieldOption

/-- The validate triggers that a registration's `rules` are put under:
`validateTrigger`, which defaults to `trigger`. -/
def registrationTrigger (fieldOption : FieldMeta) : List String :=
  match fieldOption.validateTrigger with
  | some l => l
  | none =>
    match fieldOption.trigger with
    | some t => if t = "" then [] else [t]
    | none => []

/-- The rule list normalized from the options of one registration. -/
def registrationRules (name : String) (usersFieldOption : FieldMeta) : List ValidateItem :=
  normalizeValidateRules ((registrationOption name usersFieldOption).validate.getD [])
    (registrationOption name usersFieldOption).rules
    (registrationTrigger (registrationOption name usersFieldOption))

/-- The metadata that `getFieldProps` reads for the name, after it has copied a
given `initialValue` into it. -/
def regPrevMeta (form : Form) (name : String) (usersFieldOption : FieldMeta) : FieldMeta :=
  match (registrationOption name usersFieldOption).initialValue with
  | some v => { (form.fieldsStore.getFieldMeta name).1 with initialValue := some v }
  | none => (form.fieldsStore.getFieldMeta name).1

/-- The store of `getFieldProps` after that read. -/
def regStore (form : Form) (name : String) (usersFieldOption : FieldMeta) : FieldsStore :=
  match (registrationOption name usersFieldOption).initialValue with
  | some _ =>
    (form.fieldsStore.getFieldMeta name).2.setFieldMeta name
      (regPrevMeta form name usersFieldOption)
  | none => (form.fieldsStore.getFieldMeta name).2

/-- The `ref` handler of `getFieldProps` and the form after it is bound. -/
def regRefBound (form : Form) (name : String) (usersFieldOption : FieldMeta) : Handler × Form :=
  getCacheBind
    { form with
      clearedFieldMetaCache := objDel name form.clearedFieldMetaCache
      fieldsStore := regStore form name usersFieldOption }
    name (name ++ "__ref") .saveRef

/-- The props of `getFieldProps` before any trigger is bound: the value prop,
`ref`, and the name prop when the form is created with one. -/
def regInitialProps (opt : CreateOption) (form : Form) (name : String)
    (usersFieldOption : FieldMeta) : List (String × PropVal) :=
  let fieldValue : Val :=
    match ((regStore form name usersFieldOption).getField name).value with
    | some v => v
    | none => (registrationOption name usersFieldOption).initialValue.getD Val.undefined
  let inputProps0 : List (String × PropVal) :=
    objSet "ref" (.handler (regRefBound form name usersFieldOption).1)
      (objSet ((registrationOption name usersFieldOption).valuePropName.getD "value")
        (.value fieldValue) [])
  match opt.fieldNameProp with
  | some p => objSet p (.name name) inputProps0
  | none => inputProps0

/-- The props and the form of `getFieldProps` after `validateTriggers.forEach`. -/
def regBound (opt : CreateOption) (form : Form) (name : String)
    (usersFieldOption : FieldMeta) : List (String × PropVal) × Form :=
  bindValidateTriggers name (getValidateTriggers (registrationRules name usersFieldOption))
    (regInitialProps opt form name usersFieldOption, (regRefBound form name usersFieldOption).2)

/-- The props and the form of `getFieldProps` after the value-collection
trigger is bound. -/
def regCollected (opt : CreateOption) (form : Form) (name : String)
    (usersFieldOption : FieldMeta) : List (String × PropVal) × Form :=
  match (registrationOption name usersFieldOption).trigger with
  | some t =>
    if t ≠ "" ∧ ¬ t ∈ getValidateTriggers (registrationRules name usersFieldOption) then
      (objSet t
        (.handler (getCacheBind (regBound opt form name usersFieldOption).2 name t .onCollect).1)
        (regBound opt form name usersFieldOption).1,
       (getCacheBind (regBound opt form name usersFieldOption).2 name t .onCollect).2)
    else regBound opt form name usersFieldOption
  | none => regBound opt form name usersFieldOption

/-- The metadata that `getFieldProps` stores. -/
def regMeta (form : Form) (name : String) (usersFieldOption : FieldMeta) : FieldMeta :=
  { overlay (regPrevMeta form name usersFieldOption) (registrationOption name usersFieldOption) with
    validate := some (registrationRules name usersFieldOption) }

/-- The props that `getFieldProps` returns: the collected props with the meta
prop and the data prop when the form is created with them. -/
def regProps (opt : CreateOption) (form : Form) (name : String)
    (usersFieldOption : FieldMeta) : List (String × PropVal) :=
  let inputProps2 :=
    match opt.fieldMetaProp with
    | some p =>
      objSet p (.meta (regMeta form name usersFieldOption))
        (regCollected opt form name usersFieldOption).1
    | none => (regCollected opt form name usersFieldOption).1
  match opt.fieldDataProp with
  | some p =>
    objSet p
      (.field (((regCollected opt form name usersFieldOption).2.fieldsStore.setFieldMeta name
        (regMeta form name usersFieldOption)).getField name)) inputProps2
  | none => inputProps2

/-! ## A worked run

Two registered fields `x` and `y`, both dirty, are validated on `onChange`;
while the rule validator runs `x` is edited from `1` to `2`; the validator
reports one error, for `y`. -/

/-- Metadata with one rule on `onChange`. -/
def exMeta : FieldMeta :=
  { validate := some [{ trigger := ["onChange"], rules := [{ descr := "required" }] }] }

/-- The field `x` as passed to the run. -/
def exFieldX : Field := { name := "x", value := some (.num 1), dirty := some true }

/-- The field `y` as passed to the run. -/
def exFieldY : Field := { name := "y", value := some (.str "b"), dirty := some true }

/-- The store before the run. -/
def exStore : FieldsStore :=
  { fields := [("x", exFieldX), ("y", exFieldY)], fieldsMeta := [("x", exMeta), ("y", exMeta)] }

/-- The store after the snapshot commit. -/
def exSnapshotStore : FieldsStore :=
  { fields := [("x", snapshotOf exFieldX), ("y", snapshotOf exFieldY)]
    fieldsMeta := [("x", exMeta), ("y", exMeta)] }

/-- The run started by the call. -/
def exRun : Run :=
  { alreadyErrors := []
    allRules := [("x", [{ descr := "required" }]), ("y", [{ descr := "required" }])]
    allValues := [("x", .num 1), ("y", .str "b")]
    fieldNames := none
    options := {}
    hasCallback := true }

/-- The store when the rule validator completes: `x` has been edited to `2`. -/
def exEdited : FieldsStore :=
  { fields := [("x", { snapshotOf exFieldX with value := some (.num 2), touched := some true }),
               ("y", snapshotOf exFieldY)]
    fieldsMeta := [("x", exMeta), ("y", exMeta)] }

/-- The validator's result. -/
def exErrors : Option (List ErrRec) :=
  some [{ message := "y is required", field := "y" }]

/-- The store after the completion handler. -/
def exDone : FieldsStore :=
  { fields := [("x", { snapshotOf exFieldX with value := some (.num 2), touched := some true }),
               ("y", { name := "y", value := some (.str "b"), dirty := some false,
                       validating := some false,
                       errors := some (.errs [{ message := "y is required", field := "y" }]) })]
    fieldsMeta := [("x", exMeta), ("y", exMeta)] }

/-- The arguments the completion handler gives to the callback. -/
def exCallback : CallbackArgs :=
  { errors := some
      [("y", .obj [("errors", .errs [{ message := "y is required", field := "y" }])]),
       ("x", .obj [("expired", .flag true),
                   ("errors", .errs [{ message := "x need to revalidate", field := "x" }])])]
    values := [("x", .leaf (.num 2)), ("y", .leaf (.str "b"))] }

/-! ## A second worked run

The field `x` is dirty and enters validation; the nested field `z.w` is not
dirty, is skipped, and carries an error from an earlier validation. -/

/-- The field `z.w` as passed to the run: not dirty, with a recorded error. -/
def exFieldZ : Field :=
  { name := "z.w", value := some (.str "c"), dirty := some false
    errors := some (.errs [{ message := "old", field := "z.w" }]) }

/-- The store before the second run. -/
def exStore2 : FieldsStore :=
  { fields := [("x", exFieldX), ("z.w", exFieldZ)]
    fieldsMeta := [("x", exMeta), ("z.w", exMeta)] }

/-- The store after the snapshot commit of the second run. -/
def exSnapshotStore2 : FieldsStore :=
  { fields := [("x", snapshotOf exFieldX), ("z.w", exFieldZ)]
    fieldsMeta := [("x", exMeta), ("z.w", exMeta)] }

/-- The second run. -/
def exRun2 : Run :=
  { alreadyErrors := [("z", .obj [("w", .obj [("errors", .errs [{ message := "old", field := "z.w" }])])])]
    allRules := [("x", [{ descr := "required" }])]
    allValues := [("x", .num 1)]
    fieldNames := none
    options := {}
    hasCallback := true }

/-- The validator's result in the second run. -/
def exErrors2 : Option (List ErrRec) :=
  some [{ message := "x is required", field := "x" }, { message := "x is too short", field := "x" }]

/-- The store after the completion handler of the second run. -/
def exDone2 : FieldsStore :=
  { fields := [("x", { name := "x", value := some (.num 1), dirty := some false,
                       validating := some false,
                       errors := some (.errs [{ message := "x is required", field := "x" },
                                              { message := "x is too short", field := "x" }]) }),
               ("z.w", exFieldZ)]
    fieldsMeta := [("x", exMeta), ("z.w", exMeta)] }

/-- The arguments the completion handler of the second run gives to the callback. -/
def exCallback2 : CallbackArgs :=
  { errors := some
      [("z", .obj [("w", .obj [("errors", .errs [{ message := "old", field := "z.w" }])])]),
       ("x", .obj [("errors", .errs [{ message := "x is required", field := "x" },
                                     { message := "x is too short", field := "x" }])])]
    values := [("x", .leaf (.num 1)), ("z", .obj [("w", .leaf (.str "c"))])] }

/-- A field `x` that was never touched: its dirty flag is absent. -/
def exUntouched : Field := { name := "x", value := some (.num 1) }

/-- A form over the store of the second worked run, with `z.w` mounted. -/
def exForm : Form :=
  { fieldsStore := exStore2, instances := [("z.w", "input-1")] }

/-- The form `exForm` after `z.w` is detached. -/
def exDetached : Form :=
  { fieldsStore := { fields := [("x", exFieldX)], fieldsMeta := [("x", exMeta)] }
    clearedFieldMetaCache := [("z.w", (exFieldZ, exMeta))] }

/-- The form `exDetached` after `z.w` is attached again. -/
def exReattached : Form :=
  { fieldsStore := exStore2, instances := [("z.w", "input-2")] }

/-- The options of a registration with one rule, `required`, and default triggers. -/
def exRequired : FieldMeta := { rules := some [{ descr := "required" }] }

/-- The form after `getFieldProps('a', {})` on a new form: `a` is registered
without rules, its `ref` and `onChange` handlers are cached. -/
def exRegistered : Form :=
  formAfterGetFieldProps {} {} (some "a") {}

/-- The props that this first registration returns. -/
def exRegisteredProps : List (String × PropVal) :=
  regProps {} {} "a" {}

/-- The form after a second registration `getFieldProps('a', {rules: [required]})`. -/
def exRegisteredAgain : Form :=
  formAfterGetFieldProps {} exRegistered (some "a") exRequired

/-- The props that the second registration returns. -/
def exRegisteredAgainProps : List (String × PropVal) :=
  regProps {} exRegistered "a" exRequired

/-- The store of the first worked run, with `validateFirst` set for `x`. -/
def exStoreFirst : FieldsStore :=
  { fields := [("x", exFieldX), ("y", exFieldY)]
    fieldsMeta := [("x", { exMeta with validateFirst := some true }), ("y", exMeta)] }

/-- The run that `validateFields()` starts on `exStoreFirst`. -/
def exRunFirst : Run :=
  { alreadyErrors := []
    allRules := [("x", [{ descr := "required" }]), ("y", [{ descr := "required" }])]
    allValues := [("x", .num 1), ("y", .str "b")]
    fieldNames := some ["x", "y"]
    options := { firstFields := some (.names ["x"]) }
    hasCallback := true }

/-- The run that the `onChange` validating handler of `x` starts on
`exStoreFirst` for the value `3`. -/
def exRunCollect : Run :=
  { alreadyErrors := []
    allRules := [("x", [{ descr := "required" }])]
    allValues := [("x", .num 3)]
    fieldNames := none
    options := { firstFields := some (.flag true) }
    hasCallback := false }

/-- A store with one registered field `a` that has a value and no rule. -/
def exPlain : FieldsStore :=
  { fields := [("a", { name := "a", value := some (.num 1) })], fieldsMeta := [("a", {})] }

/-- The rule lists of the entries of `validate` that an action selects, read off
the specification of `getRules`: in metadata order, the rules of the entries
whose trigger set contains the action, and of all entries when no action is
given. -/
def rulesOfEntries (action : Option String) : List ValidateItem → List Rule
  | [] => []
  | item :: rest =>
    match action with
    | none => item.rules ++ rulesOfEntries action rest
    | some a =>
      if a ∈ item.trigger then item.rules ++ rulesOfEntries action rest
      else rulesOfEntries action rest

/-! ## Runs over colliding names

The names `a.b` and `a` are not prefix-free: the path of `a` is a prefix of the
path of `a.b`.  `getFieldProps` registers such names with a warning. -/

/-- The field `a.b` as passed to the run. -/
def exFieldAB : Field := { name := "a.b", value := some (.num 2), dirty := some true }

/-- The field `a` as passed to the run. -/
def exFieldA : Field := { name := "a", value := some (.num 1), dirty := some true }

/-- The store before the run. -/
def exStoreNested : FieldsStore :=
  { fields := [("a.b", exFieldAB), ("a", exFieldA)]
    fieldsMeta := [("a.b", exMeta), ("a", exMeta)] }

/-- The store after the snapshot commit. -/
def exSnapshotNested : FieldsStore :=
  { fields := [("a.b", snapshotOf exFieldAB), ("a", snapshotOf exFieldA)]
    fieldsMeta := [("a.b", exMeta), ("a", exMeta)] }

/-- The run started by the call. -/
def exRunNested : Run :=
  { alreadyErrors := []
    allRules := [("a.b", [{ descr := "required" }]), ("a", [{ descr := "required" }])]
    allValues := [("a.b", .num 2), ("a", .num 1)]
    fieldNames := none
    options := {}
    hasCallback := true }

/-- The store when the rule validator completes, both fields edited. -/
def exEditedNested : FieldsStore :=
  { fields := [("a.b", { snapshotOf exFieldAB with value := some (.num 3), touched := some true }),
               ("a", { snapshotOf exFieldA with value := some (.num 4), touched := some true })]
    fieldsMeta := [("a.b", exMeta), ("a", exMeta)] }

/-- A validator result with one record for each of the two fields. -/
def exErrorsNested : Option (List ErrRec) :=
  some [{ message := "a.b is required", field := "a.b" },
        { message := "a is required", field := "a" }]

/-- The field `a.b`, not dirty, with an error of an earlier validation. -/
def exSkippedAB : Field :=
  { name := "a.b", value := some (.num 2), dirty := some false
    errors := some (.errs [{ message := "a.b is required", field := "a.b" }]) }

/-- The store before a run in which `a.b` is skipped. -/
def exStoreSkipped : FieldsStore :=
  { fields := [("a.b", exSkippedAB), ("a", exFieldA)]
    fieldsMeta := [("a.b", exMeta), ("a", exMeta)] }

/-- The store when the rule validator of that run completes, `a` edited. -/
def exEditedSkipped : FieldsStore :=
  { fields := [("a.b", exSkippedAB),
               ("a", { snapshotOf exFieldA with value := some (.num 4), touched := some true })]
    fieldsMeta := [("a.b", exMeta), ("a", exMeta)] }

/-- Registration options with one rule that is validated on `onBlur`; the value
is collected on `onChange`. -/
def exBlur : FieldMeta :=
  { rules := some [{ descr := "required" }], validateTrigger := some ["onBlur"] }

end RcForm

/-! # react-side-effect `withSideEffect`

A shallow embedding of
`src/librararies/read-react-helmet/react-side-effect/src/index.js`.

* A component instance (`this`) is a number, its identity; the props of the
  instances are kept by React and are read by `emitChange` as they are at that
  moment.
* The two variables that `wrap` closes over, `mountedInstances` and `state`, and
  the static `canUseDOM` are the fields of `Closure`; `state = none` is
  `undefined`.
* `reducePropsToState` and `mapStateOnServer` are functions;
  `handleStateChangeOnClient` is called for its effect, and its calls are
  recorded.
-/

namespace SideEffect

/-- The arguments of `withSideEffect` that compute a state;
`mapStateOnServer = none` is an argument that was not given. -/
structure Args (P S : Type) where
  reducePropsToState : List P → S
  mapStateOnServer : Option (S → S) := none

/-- The variables `mountedInstances` and `state` of `wrap`, the static
`canUseDOM`, and the states that `handleStateChangeOnClient` was called with,
in call order. -/
structure Closure (S : Type) where
  mountedInstances : List Nat := []
  state : Option S := none
  canUseDOM : Bool := true
  handled : List S := []

/-- The search of `Array.prototype.indexOf` from position `i` on. -/
def indexOfFrom (x : Nat) : List Nat → Nat → Int
  | [], _ => -1
  | y :: ys, i => if y = x then (i : Int) else indexOfFrom x ys (i + 1)

/-- JavaScript `xs.indexOf(x)`: the first index of `x`, or `-1`. -/
def indexOf (xs : List Nat) (x : Nat) : Int :=
  indexOfFrom x xs 0

/-- JavaScript `xs.splice(start, deleteCount)`, the array it leaves: a negative
`start` counts from the end, and a position beyond the end is the end. -/
def splice {α : Type} (xs : List α) (start : Int) (deleteCount : Nat) : List α :=
  let actualStart : Nat :=
    if start < 0 then ((xs.length : Int) + start).toNat else min start.toNat xs.length
  xs.take actualStart ++ xs.drop (actualStart + deleteCount)

/-- The function `emitChange()`, with the props of the instances as they are when it
runs. -/
def emitChange {P S : Type} (args : Args P S) (props : Nat → P) (c : Closure S) : Closure S :=
  let state := args.reducePropsToState (c.mountedInstances.map props)
  if c.canUseDOM then
    { c with state := some state, handled := c.handled ++ [state] }
  else
    match args.mapStateOnServer with
    | some mapStateOnServer => { c with state := some (mapStateOnServer state) }
    | none => { c with state := some state }

/-- The static `peek()`. -/
def peek {S : Type} (c : Closure S) : Option S :=
  c.state

/-- The static `rewind()`: the recorded state and the closure it leaves. -/
def rewind {S : Type} (c : Closure S) : Except String (Option S × Closure S) :=
  if c.canUseDOM then
    .error "You may only call rewind() on the server. Call peek() to read the current state."
  else
    .ok (c.state, { c with state := none, mountedInstances := [] })

/-- The method `componentWillMount()` of the instance `inst`. -/
def componentWillMount {P S : Type} (args : Args P S) (props : Nat → P) (c : Closure S)
    (inst : Nat) : Closure S :=
  emitChange args props { c with mountedInstances := c.mountedInstances ++ [inst] }

/-- The method `componentDidUpdate()`. -/
def componentDidUpdate {P S : Type} (args : Args P S) (props : Nat → P) (c : Closure S) :
    Closure S :=
  emitChange args props c

/-- The method `componentWillUnmount()` of the instance `inst`. -/
def componentWillUnmount {P S : Type} (args : Args P S) (props : Nat → P) (c : Closure S)
    (inst : Nat) : Closure S :=
  let index := indexOf c.mountedInstances inst
  emitChange args props { c with mountedInstances := splice c.mountedInstances index 1 }

/-- The closure together with the props that React holds for each instance. -/
structure World (P S : Type) where
  closure : Closure S := {}
  props : Nat → P

/-- What happens to the wrapped component class: an instance is mounted with
props, an instance is re-rendered with props that are not shallowly equal to
its old ones, an instance is unmounted, `rewind()` is called. -/
inductive Event (P : Type) where
  | mount (inst : Nat) (props : P)
  | update (inst : Nat) (props : P)
  | unmount (inst : Nat)
  | rewind

/-- One event; a `rewind()` that throws leaves everything as it was. -/
def step {P S : Type} (args : Args P S) (w : World P S) : Event P → World P S
  | .mount inst p =>
    { closure := componentWillMount args (Function.update w.props inst p) w.closure inst
      props := Function.update w.props inst p }
  | .update inst p =>
    { closure := componentDidUpdate args (Function.update w.props inst p) w.closure
      props := Function.update w.props inst p }
  | .unmount inst =>
    { w with closure := componentWillUnmount args w.props w.closure inst }
  | .rewind =>
    match rewind w.closure with
    | .ok r => { w with closure := r.2 }
    | .error _ => w

/-- A sequence of events, in order. -/
def run {P S : Type} (args : Args P S) (w : World P S) (events : List (Event P)) : World P S :=
  events.foldl (step args) w

/-! ## Vocabulary of the statements -/

/-- Read off the claim, one event on the server: a mounted instance comes last,
an unmounted instance is removed and no other, a rewind forgets every instance. -/
def liveStep {P : Type} (live : List Nat) : Event P → List Nat
  | .mount inst _ => live ++ [inst]
  | .update _ _ => live
  | .unmount inst => live.erase inst
  | .rewind => []

/-- Read off the claim: the instances mounted and not yet unmounted since the
last rewind, in mount order, for events that happen on the server. -/
def mountedSinceRewind {P : Type} (events : List (Event P)) : List Nat :=
  events.foldl liveStep []

/-- Every instance is unmounted while it is live: none is unmounted that was
mounted before the last rewind, or never. -/
def UnmountsLive {P : Type} : List Nat → List (Event P) → Prop
  | _, [] => True
  | live, e :: es =>
    (match e with
      | .unmount inst => inst ∈ live
      | _ => True) ∧ UnmountsLive (liveStep live e) es

/-- Read off the claim: `reducePropsToState` applied to the props of the given
instances, mapped by `mapStateOnServer` when not on the client. -/
def stateOf {P S : Type} (args : Args P S) (canUseDOM : Bool) (props : Nat → P)
    (instances : List Nat) : S :=
  let state := args.reducePropsToState (instances.map props)
  if canUseDOM then state
  else
    match args.mapStateOnServer with
    | some mapStateOnServer => mapStateOnServer state
    | none => state

/-! ## A worked run

On the server, an instance is mounted, the state is rewound, a second instance
is mounted, and the first instance is unmounted. -/

/-- The state is the list of the props. -/
def exArgs : Args String (List String) :=
  { reducePropsToState := fun propsList => propsList }

/-- The server before anything is mounted. -/
def exServer : World String (List String) :=
  { closure := { canUseDOM := false }, props := fun _ => "" }

/-- The events of the run. -/
def exEvents : List (Event String) :=
  [.mount 1 "a", .rewind, .mount 2 "b", .unmount 1]

end SideEffect

namespace RcForm

/-! ## Objects -/

theorem objGet_objSet_self {α : Type} (k : String) (v : α) (o : List (String × α)) :
    objGet k (objSet k v o) = some v := by
  induction o with
  | nil => simp [objSet, objGet]
  | cons kv rest ih =>
    obtain ⟨k', v'⟩ := kv
    by_cases h : k' = k
    · simp [objSet, objGet, h]
    · simp [objSet, objGet, h, ih]

theorem objGet_objSet_ne {α : Type} {k k' : String} (h : k' ≠ k) (v : α)
    (o : List (String × α)) : objGet k' (objSet k v o) = objGet k' o := by
  induction o with
  | nil => simp [objSet, objGet, Ne.symm h]
  | cons kv rest ih =>
    obtain ⟨k2, v2⟩ := kv
    by_cases h2 : k2 = k
    · subst h2
      simp [objSet, objGet, Ne.symm h]
    · by_cases h3 : k2 = k'
      · subst h3
        simp [objSet, objGet, h2]
      · simp [objSet, objGet, h2, h3, ih]

theorem objSet_ne_nil {α : Type} (k : String) (v : α) (o : List (String × α)) :
    objSet k v o ≠ [] := by
  cases o with
  | nil => simp [objSet]
  | cons kv rest =>
    obtain ⟨k', v'⟩ := kv
    by_cases h : k' = k <;> simp [objSet, h]

theorem objGet_eq_none_iff {α : Type} (k : String) (o : List (String × α)) :
    objGet k o = none ↔ k ∉ objKeys o := by
  induction o with
  | nil => simp [objGet, objKeys]
  | cons kv rest ih =>
    obtain ⟨k', v'⟩ := kv
    by_cases h : k' = k
    · simp [objGet, objKeys, h]
    · simp only [objKeys] at ih
      simp [objGet, objKeys, h, ih, Ne.symm h]

theorem objKeys_objSet_of_mem {α : Type} {k : String} (v : α) {o : List (String × α)}
    (h : k ∈ objKeys o) : objKeys (objSet k v o) = objKeys o := by
  induction o with
  | nil => simp [objKeys] at h
  | cons kv rest ih =>
    obtain ⟨k', v'⟩ := kv
    by_cases h2 : k' = k
    · simp [objSet, objKeys, h2]
    · have : k ∈ objKeys rest := by
        simp only [objKeys, List.map_cons, List.mem_cons] at h
        rcases h with h | h
        · exact absurd h.symm h2
        · exact h
      have ih2 := ih this
      simp only [objKeys] at ih2
      simp [objSet, objKeys, h2, ih2]

theorem objKeys_objSet_of_not_mem {α : Type} {k : String} (v : α) {o : List (String × α)}
    (h : k ∉ objKeys o) : objKeys (objSet k v o) = objKeys o ++ [k] := by
  induction o with
  | nil => simp [objSet, objKeys]
  | cons kv rest ih =>
    obtain ⟨k', v'⟩ := kv
    simp only [objKeys, List.map_cons, List.mem_cons, not_or] at h
    have h2 : ¬ k' = k := fun e => h.1 e.symm
    have ih2 := ih h.2
    simp only [objKeys] at ih2
    simp [objSet, objKeys, h2, ih2]

theorem mem_objKeys_objSet {α : Type} (k k' : String) (v : α) (o : List (String × α)) :
    k' ∈ objKeys (objSet k v o) ↔ k' = k ∨ k' ∈ objKeys o := by
  by_cases h : k ∈ objKeys o
  · rw [objKeys_objSet_of_mem v h]
    constructor
    · exact Or.inr
    · rintro (e | e)
      · exact e ▸ h
      · exact e
  · rw [objKeys_objSet_of_not_mem v h]
    simp [or_comm]

/-! ## Paths and trees -/

theorem splitDot_ne_nil (cs cur : List Char) : splitDot cur cs ≠ [] := by
  induction cs generalizing cur with
  | nil => simp [splitDot]
  | cons c cs ih =>
    by_cases h : c = '.'
    · simp [splitDot, h]
    · simp [splitDot, h, ih]

theorem toPath_ne_nil (name : String) : toPath name ≠ [] :=
  splitDot_ne_nil _ _

theorem splitDot_dot (cur cs : List Char) :
    splitDot cur ('.' :: cs) = String.mk cur.reverse :: splitDot [] cs := by
  rw [splitDot]; simp

theorem splitDot_other {c : Char} (h : c ≠ '.') (cur cs : List Char) :
    splitDot cur (c :: cs) = splitDot (c :: cur) cs := by
  rw [splitDot]; simp [h]

theorem splitDot_append_errors (xs cur : List Char) :
    splitDot cur (xs ++ ['.', 'e', 'r', 'r', 'o', 'r', 's']) = splitDot cur xs ++ ["errors"] := by
  induction xs generalizing cur with
  | nil =>
    have h2 : splitDot [] ['e', 'r', 'r', 'o', 'r', 's'] = ["errors"] := by decide
    rw [List.nil_append, splitDot_dot, h2]
    rfl
  | cons c cs ih =>
    by_cases h : c = '.'
    · subst h
      rw [List.cons_append, splitDot_dot, splitDot_dot, ih, List.cons_append]
    · rw [List.cons_append, splitDot_other h, splitDot_other h, ih]

theorem toPath_append_errors (name : String) :
    toPath (name ++ ".errors") = toPath name ++ ["errors"] := by
  unfold toPath
  rw [String.data_append]
  exact splitDot_append_errors _ _

theorem getE_cons_congr {o o' : EProps} {k : String} (h : objGet k o' = objGet k o)
    (rest : List String) : getE o' (k :: rest) = getE o (k :: rest) := by
  cases rest with
  | nil => simp [getE, h]
  | cons k' rest => simp only [getE, h]

theorem getE_nil_cons (k : String) (rest : List String) : getE [] (k :: rest) = .ok none := by
  cases rest <;> simp [getE, objGet]

theorem setE_ok_of_getE_ok (p : List String) (v : ErrTree) :
    ∀ (o : EProps) (r : Option ErrTree), getE o p = .ok r → ∃ o', setE o p v = .ok o' := by
  induction p with
  | nil => intro o r _; exact ⟨o, rfl⟩
  | cons k t ih =>
    intro o r h
    cases t with
    | nil => exact ⟨_, rfl⟩
    | cons k' rest =>
      simp only [getE] at h
      simp only [setE]
      cases hk : objGet k o with
      | none =>
        obtain ⟨c', hc⟩ := ih [] none (getE_nil_cons k' rest)
        simp [hc, Except.map]
      | some x =>
        cases x with
        | flag b =>
          obtain ⟨c', hc⟩ := ih [] none (getE_nil_cons k' rest)
          simp [hc, Except.map]
        | errs es => rw [hk] at h; simp at h
        | obj c =>
          rw [hk] at h
          obtain ⟨c', hc⟩ := ih c r h
          simp [hc, Except.map]

theorem getE_setE_self (p : List String) (v : ErrTree) :
    ∀ (o o' : EProps), p ≠ [] → setE o p v = .ok o' → getE o' p = .ok (some v) := by
  induction p with
  | nil => intro o o' h; exact absurd rfl h
  | cons k t ih =>
    intro o o' _ h
    cases t with
    | nil =>
      simp only [setE, Except.ok.injEq] at h
      subst h
      simp [getE, objGet_objSet_self]
    | cons k' rest =>
      simp only [setE] at h
      have key : ∀ c : EProps, (setE c (k' :: rest) v).map (fun c' => objSet k (.obj c') o) = .ok o' →
          getE o' (k :: k' :: rest) = .ok (some v) := by
        intro c hc
        cases hs : setE c (k' :: rest) v with
        | error e => rw [hs] at hc; simp [Except.map] at hc
        | ok c' =>
          rw [hs] at hc
          simp only [Except.map, Except.ok.injEq] at hc
          subst hc
          simp only [getE, objGet_objSet_self]
          exact ih c c' (by simp) hs
      cases hk : objGet k o with
      | none => rw [hk] at h; exact key [] h
      | some x =>
        cases x with
        | flag b => rw [hk] at h; exact key [] h
        | errs es => rw [hk] at h; simp at h
        | obj c => rw [hk] at h; exact key c h

theorem setE_cons_cons_shape {o o' : EProps} {k k' : String} {rest : List String} {v : ErrTree}
    (h : setE o (k :: k' :: rest) v = .ok o') :
    ∃ c c', setE c (k' :: rest) v = .ok c' ∧ o' = objSet k (.obj c') o ∧
      (∀ q : List String, q ≠ [] → getE o (k :: q) = getE c q) := by
  simp only [setE] at h
  have key : ∀ c : EProps,
      (setE c (k' :: rest) v).map (fun c' => objSet k (.obj c') o) = .ok o' →
      ∃ c', setE c (k' :: rest) v = .ok c' ∧ o' = objSet k (.obj c') o := by
    intro c hc
    cases hs : setE c (k' :: rest) v with
    | error e => rw [hs] at hc; simp [Except.map] at hc
    | ok c' =>
      rw [hs] at hc
      simp only [Except.map, Except.ok.injEq] at hc
      exact ⟨c', rfl, hc.symm⟩
  have nilcase : ∀ (x : Option ErrTree), objGet k o = x → (∀ c, x ≠ some (.obj c)) →
      (∀ es, x ≠ some (.errs es)) →
      ∀ q : List String, q ≠ [] → getE o (k :: q) = getE [] q := by
    intro x hx h1 h2 q hq
    cases q with
    | nil => exact absurd rfl hq
    | cons k2 q2 =>
      rw [getE_nil_cons]
      simp only [getE]
      rw [hx]
      cases x with
      | none => rfl
      | some y =>
        cases y with
        | flag b => rfl
        | errs es => exact absurd rfl (h2 es)
        | obj c => exact absurd rfl (h1 c)
  cases hk : objGet k o with
  | none =>
    rw [hk] at h
    obtain ⟨c', h1, h2⟩ := key [] h
    exact ⟨[], c', h1, h2, nilcase none hk (by simp) (by simp)⟩
  | some x =>
    cases x with
    | flag b =>
      rw [hk] at h
      obtain ⟨c', h1, h2⟩ := key [] h
      exact ⟨[], c', h1, h2, nilcase _ hk (by simp) (by simp)⟩
    | errs es => rw [hk] at h; simp at h
    | obj c =>
      rw [hk] at h
      obtain ⟨c', h1, h2⟩ := key c h
      refine ⟨c, c', h1, h2, ?_⟩
      intro q hq
      cases q with
      | nil => exact absurd rfl hq
      | cons k2 q2 => simp only [getE, hk]

theorem getE_setE_apart (p : List String) (v : ErrTree) :
    ∀ (o o' : EProps) (q : List String), setE o p v = .ok o' → Apart p q →
      getE o' q = getE o q := by
  induction p with
  | nil => intro o o' q _ h; exact absurd List.nil_prefix h.1
  | cons k t ih =>
    intro o o' q h hap
    cases q with
    | nil => exact absurd List.nil_prefix hap.2
    | cons k2 qs =>
      by_cases hkk : k2 = k
      · subst hkk
        cases t with
        | nil => exact absurd (by simp) hap.1
        | cons k' rest =>
          obtain ⟨c, c', h1, h2, h3⟩ := setE_cons_cons_shape h
          have hap2 : Apart (k' :: rest) qs := by
            constructor
            · intro hp; exact hap.1 (by simp [hp])
            · intro hp; exact hap.2 (by simp [hp])
          have hqs : qs ≠ [] := by
            intro e; subst e; exact hap2.2 List.nil_prefix
          rw [h3 qs hqs, ← ih c c' qs h1 hap2, h2]
          cases qs with
          | nil => exact absurd rfl hqs
          | cons k3 q3 => simp only [getE, objGet_objSet_self]
      · apply getE_cons_congr
        cases t with
        | nil =>
          simp only [setE, Except.ok.injEq] at h
          subst h
          exact objGet_objSet_ne hkk _ _
        | cons k' rest =>
          obtain ⟨c, c', _, h2, _⟩ := setE_cons_cons_shape h
          subst h2
          exact objGet_objSet_ne hkk _ _

theorem getE_concat (p : List String) (k : String) :
    ∀ (o c : EProps), getE o p = .ok (some (.obj c)) → getE o (p ++ [k]) = .ok (objGet k c) := by
  induction p with
  | nil =>
    intro o c h
    simp only [getE, Except.ok.injEq, Option.some.injEq, ErrTree.obj.injEq] at h
    subst h
    rfl
  | cons k1 t ih =>
    intro o c h
    cases t with
    | nil =>
      simp only [getE, Except.ok.injEq] at h
      simp only [List.cons_append, List.nil_append, getE, h]
    | cons k2 rest =>
      simp only [getE] at h
      simp only [List.cons_append, getE]
      cases hk : objGet k1 o with
      | none => rw [hk] at h; simp at h
      | some x =>
        cases x with
        | flag b => rw [hk] at h; simp at h
        | errs es => rw [hk] at h; simp at h
        | obj c1 =>
          rw [hk] at h
          exact ih c1 c h

theorem getE_setE_concat (p : List String) (k : String) (v : ErrTree) :
    ∀ (o o' c : EProps), getE o p = .ok (some (.obj c)) → setE o (p ++ [k]) v = .ok o' →
      getE o' p = .ok (some (.obj (objSet k v c))) := by
  induction p with
  | nil =>
    intro o o' c h hs
    simp only [getE, Except.ok.injEq, Option.some.injEq, ErrTree.obj.injEq] at h
    subst h
    simp only [List.nil_append, setE, Except.ok.injEq] at hs
    subst hs
    rfl
  | cons k1 t ih =>
    intro o o' c h hs
    cases t with
    | nil =>
      simp only [getE, Except.ok.injEq] at h
      simp only [List.cons_append, List.nil_append, setE, h, Except.map, Except.ok.injEq] at hs
      subst hs
      simp [getE, objGet_objSet_self]
    | cons k2 rest =>
      simp only [getE] at h
      simp only [List.cons_append] at hs
      cases hk : objGet k1 o with
      | none => rw [hk] at h; simp at h
      | some x =>
        cases x with
        | flag b => rw [hk] at h; simp at h
        | errs es => rw [hk] at h; simp at h
        | obj c1 =>
          rw [hk] at h
          simp only [setE, hk] at hs
          cases hs2 : setE c1 (k2 :: (rest ++ [k])) v with
          | error e => rw [hs2] at hs; simp [Except.map] at hs
          | ok c1' =>
            rw [hs2] at hs
            simp only [Except.map, Except.ok.injEq] at hs
            subst hs
            simp only [getE, objGet_objSet_self]
            exact ih c1 c1' c h hs2

theorem setE_ne_nil {p : List String} {o o' : EProps} {v : ErrTree}
    (h : setE o p v = .ok o') (hp : p ≠ []) : o' ≠ [] := by
  cases p with
  | nil => exact absurd rfl hp
  | cons k t =>
    cases t with
    | nil =>
      simp only [setE, Except.ok.injEq] at h
      subst h
      exact objSet_ne_nil _ _ _
    | cons k' rest =>
      obtain ⟨c, c', _, h2, _⟩ := setE_cons_cons_shape h
      subst h2
      exact objSet_ne_nil _ _ _

theorem apart_symm {p q : List String} (h : Apart p q) : Apart q p :=
  ⟨h.2, h.1⟩

theorem apart_concat {p q : List String} (k : String) (h : Apart p q) : Apart (p ++ [k]) q := by
  constructor
  · intro hp
    exact h.1 ((List.prefix_append p [k]).trans hp)
  · intro hq
    rcases List.prefix_concat_iff.1 hq with e | e
    · exact h.1 (e ▸ List.prefix_append p [k])
    · exact h.2 e

/-! ## Loops of `set` -/

theorem forEachE_cons_ok {α β : Type} {f : β → α → Except Fault β} {b b' : β} {a : α}
    {rest : List α} (h : forEachE f b (a :: rest) = .ok b') :
    ∃ b1, f b a = .ok b1 ∧ forEachE f b1 rest = .ok b' := by
  simp only [forEachE] at h
  cases hf : f b a with
  | error e => rw [hf] at h; simp at h
  | ok b1 => rw [hf] at h; exact ⟨b1, rfl, h⟩

theorem setEach_apart {α : Type} (key : α → String) (val : α → ErrTree) (xs : List α) :
    ∀ (g g' : EProps) (q : List String),
      forEachE (fun g x => setE g (toPath (key x)) (val x)) g xs = .ok g' →
      (∀ x ∈ xs, Apart (toPath (key x)) q) → getE g' q = getE g q := by
  induction xs with
  | nil =>
    intro g g' q h _
    simp only [forEachE, Except.ok.injEq] at h
    rw [h]
  | cons x rest ih =>
    intro g g' q h hap
    obtain ⟨g1, h1, h2⟩ := forEachE_cons_ok h
    rw [ih g1 g' q h2 (fun y hy => hap y (List.mem_cons_of_mem _ hy))]
    exact getE_setE_apart _ _ _ _ _ h1 (hap x (List.mem_cons_self _ _))

theorem setEach_self {α : Type} (key : α → String) (val : α → ErrTree) (xs : List α) :
    ∀ (g g' : EProps) (x : α),
      forEachE (fun g x => setE g (toPath (key x)) (val x)) g xs = .ok g' →
      xs.Pairwise (fun a b => Apart (toPath (key a)) (toPath (key b))) → x ∈ xs →
      getE g' (toPath (key x)) = .ok (some (val x)) := by
  induction xs with
  | nil => intro g g' x _ _ hx; simp at hx
  | cons y rest ih =>
    intro g g' x h hpw hx
    obtain ⟨g1, h1, h2⟩ := forEachE_cons_ok h
    rw [List.pairwise_cons] at hpw
    rcases List.mem_cons.1 hx with e | e
    · subst e
      rw [setEach_apart key val rest g1 g' _ h2 (fun z hz => apart_symm (hpw.1 z hz))]
      exact getE_setE_self _ _ _ _ (toPath_ne_nil _) h1
    · exact ih g1 g' x h2 hpw.2 e

theorem setEach_ok {α : Type} (key : α → String) (val : α → ErrTree) (xs : List α) :
    ∀ (g : EProps), (∀ x ∈ xs, ∃ r, getE g (toPath (key x)) = .ok r) →
      xs.Pairwise (fun a b => Apart (toPath (key a)) (toPath (key b))) →
      ∃ g', forEachE (fun g x => setE g (toPath (key x)) (val x)) g xs = .ok g' := by
  induction xs with
  | nil => intro g _ _; exact ⟨g, rfl⟩
  | cons y rest ih =>
    intro g hok hpw
    rw [List.pairwise_cons] at hpw
    obtain ⟨r, hr⟩ := hok y (List.mem_cons_self _ _)
    obtain ⟨g1, h1⟩ := setE_ok_of_getE_ok (toPath (key y)) (val y) g r hr
    have hok1 : ∀ x ∈ rest, ∃ r, getE g1 (toPath (key x)) = .ok r := by
      intro x hx
      obtain ⟨r2, hr2⟩ := hok x (List.mem_cons_of_mem _ hx)
      exact ⟨r2, by rw [getE_setE_apart _ _ _ _ _ h1 (hpw.1 x hx), hr2]⟩
    obtain ⟨g', h2⟩ := ih g1 hok1 hpw.2
    exact ⟨g', by simp only [forEachE, h1, h2]⟩

theorem setEach_eq_nil {α : Type} (key : α → String) (val : α → ErrTree) (xs : List α) :
    ∀ (g g' : EProps),
      forEachE (fun g x => setE g (toPath (key x)) (val x)) g xs = .ok g' →
      (g' = [] ↔ g = [] ∧ xs = []) := by
  induction xs with
  | nil =>
    intro g g' h
    simp only [forEachE, Except.ok.injEq] at h
    simp [h]
  | cons y rest ih =>
    intro g g' h
    obtain ⟨g1, h1, h2⟩ := forEachE_cons_ok h
    have hne : g1 ≠ [] := setE_ne_nil h1 (toPath_ne_nil _)
    have := ih g1 g' h2
    simp [this, hne]

/-! ## Error aggregation -/

theorem groupError_step (g : EProps) (e : ErrRec) (l : List ErrRec)
    (h : getE g (toPath e.field) = .ok (groupNode l)) :
    ∃ g', groupError g e = .ok g' ∧
      getE g' (toPath e.field) = .ok (groupNode (l ++ [e])) ∧
      ∀ q, Apart (toPath e.field) q → getE g' q = getE g q := by
  have placed : ∃ g1, placeNode g e = .ok g1 ∧
      getE g1 (toPath e.field) = .ok (some (.obj [("errors", .errs l)])) ∧
      ∀ q, Apart (toPath e.field) q → getE g1 q = getE g q := by
    by_cases hl : l = []
    · subst hl
      obtain ⟨g1, h1⟩ := setE_ok_of_getE_ok (toPath e.field)
        (.obj [("errors", .errs [])]) g _ h
      refine ⟨g1, ?_, getE_setE_self _ _ _ _ (toPath_ne_nil _) h1, ?_⟩
      · simp only [placeNode, h, groupNode, if_true]
        exact h1
      · intro q hq
        exact getE_setE_apart _ _ _ _ _ h1 hq
    · refine ⟨g, ?_, ?_, fun _ _ => rfl⟩
      · simp only [placeNode, h, groupNode, hl, if_false, errorsNode]
      · rw [h]
        simp only [groupNode, hl, if_false, errorsNode]
  obtain ⟨g1, hp1, hp2, hp3⟩ := placed
  have hget : getE g1 (toPath (e.field ++ ".errors")) = .ok (some (.errs l)) := by
    rw [toPath_append_errors, getE_concat _ _ _ _ hp2]
    simp [objGet]
  obtain ⟨g2, h2⟩ := setE_ok_of_getE_ok (toPath (e.field ++ ".errors"))
    (.errs (l ++ [e])) g1 _ hget
  refine ⟨g2, ?_, ?_, ?_⟩
  · simp only [groupError, hp1, pushRecord, hget, h2]
  · have h3 := h2
    rw [toPath_append_errors] at h3
    rw [getE_setE_concat _ _ _ _ _ _ hp2 h3]
    simp [groupNode, errorsNode, objSet]
  · intro q hq
    have h3 := h2
    rw [toPath_append_errors] at h3
    rw [getE_setE_apart _ _ _ _ _ h3 (apart_concat _ hq)]
    exact hp3 q hq

theorem pushRecord_ne_nil {g g' : EProps} {e : ErrRec} (h : pushRecord g e = .ok g') :
    g' ≠ [] := by
  unfold pushRecord at h
  split at h
  · simp at h
  · exact setE_ne_nil h (toPath_ne_nil _)
  · simp at h

theorem groupError_ne_nil {g g' : EProps} {e : ErrRec} (h : groupError g e = .ok g') :
    g' ≠ [] := by
  unfold groupError at h
  split at h
  · simp at h
  · exact pushRecord_ne_nil h

theorem groupErrors_eq_nil (records : List ErrRec) :
    ∀ (g g' : EProps), forEachE groupError g records = .ok g' →
      (g' = [] ↔ g = [] ∧ records = []) := by
  induction records with
  | nil =>
    intro g g' h
    simp only [forEachE, Except.ok.injEq] at h
    simp [h]
  | cons e rest ih =>
    intro g g' h
    obtain ⟨g1, h1, h2⟩ := forEachE_cons_ok h
    have := ih g1 g' h2
    simp [this, groupError_ne_nil h1]

/-- Error aggregation over prefix-free names: when every record names a field
of `names` and the structure holds, at each of these names, the node of the
records gathered so far, the loop ends and each name holds the node of all its
records; paths apart from every record's field are untouched. -/
theorem groupErrors_spec (names : List String) (hpf : PrefixFree names)
    (records : List ErrRec) :
    ∀ (g : EProps) (acc : String → List ErrRec),
      (∀ e ∈ records, e.field ∈ names) →
      (∀ f ∈ names, getE g (toPath f) = .ok (groupNode (acc f))) →
      ∃ g', forEachE groupError g records = .ok g' ∧
        (∀ f ∈ names, getE g' (toPath f) = .ok (groupNode (acc f ++ recordsFor f records))) ∧
        (∀ q, (∀ e ∈ records, Apart (toPath e.field) q) → getE g' q = getE g q) := by
  induction records with
  | nil =>
    intro g acc _ hinv
    refine ⟨g, rfl, ?_, fun _ _ => rfl⟩
    intro f hf
    simpa [recordsFor] using hinv f hf
  | cons e rest ih =>
    intro g acc hmem hinv
    have he : e.field ∈ names := hmem e (List.mem_cons_self _ _)
    obtain ⟨g1, h1, h2, h3⟩ := groupError_step g e (acc e.field) (hinv _ he)
    have hsym : Symmetric (fun a b : String => Apart (toPath a) (toPath b)) :=
      fun _ _ h => apart_symm h
    have hinv1 : ∀ f ∈ names, getE g1 (toPath f) =
        .ok (groupNode ((fun f => if f = e.field then acc f ++ [e] else acc f) f)) := by
      intro f hf
      by_cases hfe : f = e.field
      · subst hfe
        simpa using h2
      · simp only [hfe, if_false]
        rw [h3 _ (hpf.forall hsym he hf (Ne.symm hfe))]
        exact hinv f hf
    obtain ⟨g', h4, h5, h6⟩ := ih g1 _ (fun e' he' => hmem e' (List.mem_cons_of_mem _ he')) hinv1
    refine ⟨g', by simp only [forEachE, h1, h4], ?_, ?_⟩
    · intro f hf
      rw [h5 f hf]
      by_cases hfe : f = e.field
      · subst hfe
        simp [recordsFor, List.filter_cons]
      · have : ¬ e.field = f := fun x => hfe x.symm
        simp [recordsFor, List.filter_cons, hfe, this]
    · intro q hq
      rw [h6 q (fun e' he' => hq e' (List.mem_cons_of_mem _ he'))]
      exact h3 q (hq e (List.mem_cons_self _ _))

/-! ## Writes to the store -/

theorem objGet_filter_key {α : Type} (q : String → Bool) (name : String)
    (o : List (String × α)) :
    objGet name (o.filter (fun kv => q kv.1)) = if q name then objGet name o else none := by
  induction o with
  | nil => simp [objGet]
  | cons kv rest ih =>
    obtain ⟨k, v⟩ := kv
    by_cases hk : k = name
    · subst hk
      by_cases hq : q k
      · simp [List.filter_cons, hq, objGet]
      · simp only [List.filter_cons, hq, Bool.false_eq_true, if_false, ih]
    · by_cases hq : q k
      · simp [List.filter_cons, hq, objGet, hk, ih]
      · simp only [List.filter_cons, hq, Bool.false_eq_true, if_false, ih, objGet, hk]

theorem objKeys_filter_key {α : Type} (q : String → Bool) (o : List (String × α)) :
    objKeys (o.filter (fun kv => q kv.1)) = (objKeys o).filter q := by
  induction o with
  | nil => rfl
  | cons kv rest ih =>
    obtain ⟨k, v⟩ := kv
    simp only [objKeys] at ih
    by_cases hq : q k <;> simp [objKeys, List.filter_cons, hq, ih]

theorem objGet_foldl_objSet {α : Type} (name : String) (upd : List (String × α)) :
    ∀ (base : List (String × α)), (objKeys upd).Nodup →
      objGet name (upd.foldl (fun acc kv => objSet kv.1 kv.2 acc) base) =
        (objGet name upd).orElse (fun _ => objGet name base) := by
  induction upd with
  | nil => intro base _; simp [objGet]
  | cons kv rest ih =>
    intro base hnd
    obtain ⟨k, v⟩ := kv
    simp only [objKeys, List.map_cons, List.nodup_cons] at hnd
    have ih2 := ih (objSet k v base) hnd.2
    simp only [List.foldl_cons]
    rw [ih2]
    by_cases hk : k = name
    · subst hk
      have : objGet k rest = none := (objGet_eq_none_iff _ _).2 hnd.1
      simp [this, objGet, objGet_objSet_self]
    · have hk2 : name ≠ k := fun e => hk e.symm
      simp [objGet, hk, objGet_objSet_ne hk2]

theorem setFields_fieldsMeta (st : FieldsStore) (upd : List (String × Field)) :
    (setFields st upd).fieldsMeta = st.fieldsMeta := rfl

theorem setFields_objGet (st : FieldsStore) (upd : List (String × Field)) (name : String)
    (hnd : (objKeys upd).Nodup) :
    objGet name (setFields st upd).fields =
      if (objGet name st.fieldsMeta).isSome then
        (objGet name upd).orElse (fun _ => objGet name st.fields)
      else objGet name st.fields := by
  simp only [setFields, FieldsStore.setFields, FieldsStore.flattenRegisteredFields]
  rw [objGet_foldl_objSet]
  · rw [objGet_filter_key (fun k => (objGet k st.fieldsMeta).isSome)]
    by_cases h : (objGet name st.fieldsMeta).isSome <;> simp [h]
  · rw [objKeys_filter_key (fun k => (objGet k st.fieldsMeta).isSome)]
    exact hnd.filter _

theorem objKeys_objSet_nodup {α : Type} (k : String) (v : α) {o : List (String × α)}
    (h : (objKeys o).Nodup) : (objKeys (objSet k v o)).Nodup := by
  by_cases hk : k ∈ objKeys o
  · rw [objKeys_objSet_of_mem v hk]; exact h
  · rw [objKeys_objSet_of_not_mem v hk]
    exact List.Nodup.append h (List.nodup_singleton k) (by simpa using hk)

/-! ## Reconciliation -/

theorem reconcileField_ok (st : FieldsStore) (allValues : List (String × Val)) (g : EProps)
    (acc : Reconciled) (name : String) (fe : Option ErrTree)
    (h : getE g (toPath name) = .ok fe) :
    reconcileField st allValues g acc name =
      if (st.getField name).jsValue ≠ (objGet name allValues).getD Val.undefined then
        .ok { acc with expired := acc.expired ++ [name] }
      else
        .ok { acc with
              nowAllFields := objSet name (committedField st name
                ((objGet name allValues).getD Val.undefined) fe) acc.nowAllFields } := by
  simp only [reconcileField, h, committedField]

theorem reconcileField_inv {st : FieldsStore} {allValues : List (String × Val)} {g : EProps}
    {acc r : Reconciled} {name : String} (h : reconcileField st allValues g acc name = .ok r) :
    ∃ fe, getE g (toPath name) = .ok fe := by
  cases hg : getE g (toPath name) with
  | error f => simp [reconcileField, hg] at h
  | ok fe => exact ⟨fe, rfl⟩

theorem reconcile_loop_ok (st : FieldsStore) (allValues : List (String × Val)) (g : EProps)
    (keys : List String) :
    ∀ (acc : Reconciled), (∀ name ∈ keys, ∃ fe, getE g (toPath name) = .ok fe) →
      ∃ r, forEachE (reconcileField st allValues g) acc keys = .ok r := by
  induction keys with
  | nil => intro acc _; exact ⟨acc, rfl⟩
  | cons k rest ih =>
    intro acc hok
    obtain ⟨fe, hfe⟩ := hok k (List.mem_cons_self _ _)
    have hstep := reconcileField_ok st allValues g acc k fe hfe
    by_cases hd : (st.getField k).jsValue ≠ (objGet k allValues).getD Val.undefined
    · rw [if_pos hd] at hstep
      obtain ⟨r, hr⟩ := ih { acc with expired := acc.expired ++ [k] }
        (fun n hn => hok n (List.mem_cons_of_mem _ hn))
      exact ⟨r, by simp only [forEachE, hstep, hr]⟩
    · rw [if_neg hd] at hstep
      obtain ⟨r, hr⟩ := ih { acc with
          nowAllFields := objSet k (committedField st k
            ((objGet k allValues).getD Val.undefined) fe) acc.nowAllFields }
        (fun n hn => hok n (List.mem_cons_of_mem _ hn))
      exact ⟨r, by simp only [forEachE, hstep, hr]⟩

theorem reconcile_loop_spec (st : FieldsStore) (allValues : List (String × Val)) (g : EProps)
    (keys : List String) :
    ∀ (acc r : Reconciled), forEachE (reconcileField st allValues g) acc keys = .ok r →
      r.expired = acc.expired ++ keys.filter (fun n =>
        decide ((st.getField n).jsValue ≠ (objGet n allValues).getD Val.undefined)) ∧
      (∀ name, (name ∉ keys ∨
          (st.getField name).jsValue ≠ (objGet name allValues).getD Val.undefined) →
        objGet name r.nowAllFields = objGet name acc.nowAllFields) ∧
      (∀ name ∈ keys, (st.getField name).jsValue = (objGet name allValues).getD Val.undefined →
        ∃ fe, getE g (toPath name) = .ok fe ∧ objGet name r.nowAllFields =
          some (committedField st name ((objGet name allValues).getD Val.undefined) fe)) ∧
      ((objKeys acc.nowAllFields).Nodup → (objKeys r.nowAllFields).Nodup) := by
  induction keys with
  | nil =>
    intro acc r h
    simp only [forEachE, Except.ok.injEq] at h
    subst h
    simp
  | cons k rest ih =>
    intro acc r h
    obtain ⟨acc1, h1, h2⟩ := forEachE_cons_ok h
    obtain ⟨fe, hfe⟩ := reconcileField_inv h1
    rw [reconcileField_ok st allValues g acc k fe hfe] at h1
    obtain ⟨e1, e2, e3, e4⟩ := ih acc1 r h2
    by_cases hd : (st.getField k).jsValue ≠ (objGet k allValues).getD Val.undefined
    · rw [if_pos hd] at h1
      simp only [Except.ok.injEq] at h1
      subst h1
      refine ⟨?_, ?_, ?_, e4⟩
      · rw [e1]
        simp [List.filter_cons, hd]
      · intro name hn
        apply e2 name
        rcases hn with hn | hn
        · exact Or.inl (fun hm => hn (List.mem_cons_of_mem _ hm))
        · exact Or.inr hn
      · intro name hn hs
        rcases List.mem_cons.1 hn with e | e
        · subst e; exact absurd hs hd
        · exact e3 name e hs
    · rw [if_neg hd] at h1
      simp only [Except.ok.injEq] at h1
      subst h1
      have hd2 : (st.getField k).jsValue = (objGet k allValues).getD Val.undefined :=
        not_not.1 hd
      refine ⟨?_, ?_, ?_, ?_⟩
      · rw [e1]
        simp [List.filter_cons, hd2]
      · intro name hn
        have hne : name ≠ k := by
          rcases hn with hn | hn
          · exact fun e => hn (e ▸ List.mem_cons_self _ _)
          · exact fun e => hn (e ▸ hd2)
        rw [e2 name (by
          rcases hn with hn | hn
          · exact Or.inl (fun hm => hn (List.mem_cons_of_mem _ hm))
          · exact Or.inr hn)]
        exact objGet_objSet_ne hne _ _
      · intro name hn hs
        by_cases hm : name ∈ rest
        · exact e3 name hm hs
        · rcases List.mem_cons.1 hn with e | e
          · subst e
            refine ⟨fe, hfe, ?_⟩
            rw [e2 name (Or.inl hm)]
            exact objGet_objSet_self _ _ _
          · exact absurd e hm
      · intro hnd
        exact e4 (objKeys_objSet_nodup _ _ hnd)

/-! ## The snapshot loop -/

theorem snapshotField_of_skipped {force : Option Bool} (action : Option String)
    (acc : Snapshot) {field : Field} (h : skipped force field) :
    snapshotField force action acc field =
      match field.errors with
      | some e =>
        (setE acc.alreadyErrors (toPath field.name) (.obj [("errors", e)])).map
          (fun a => { acc with alreadyErrors := a })
      | none => .ok acc := by
  have h2 : force ≠ some true ∧ field.dirty = some false := h
  unfold snapshotField
  simp only [if_pos h2]

theorem snapshotField_of_entering {force : Option Bool} (action : Option String)
    (acc : Snapshot) {field : Field} (h : ¬ skipped force field) :
    snapshotField force action acc field =
      (getRules (acc.store.getFieldMeta field.name).1 action).map (fun rules =>
        { store := (acc.store.getFieldMeta field.name).2
          allRules := objSet field.name rules acc.allRules
          allValues := objSet field.name field.jsValue acc.allValues
          allFields := objSet field.name (snapshotOf field) acc.allFields
          alreadyErrors := acc.alreadyErrors }) := by
  have h2 : ¬ (force ≠ some true ∧ field.dirty = some false) := h
  unfold snapshotField
  simp only [if_neg h2]
  rfl

theorem snapshotField_inv {force : Option Bool} {action : Option String} {acc acc1 : Snapshot}
    {field : Field} (h : snapshotField force action acc field = .ok acc1) :
    (skipped force field ∧ acc1.store = acc.store ∧ acc1.allRules = acc.allRules ∧
        acc1.allValues = acc.allValues ∧ acc1.allFields = acc.allFields ∧
        ((field.errors = none ∧ acc1.alreadyErrors = acc.alreadyErrors) ∨
          ∃ e, field.errors = some e ∧
            setE acc.alreadyErrors (toPath field.name) (errorsNode e) = .ok acc1.alreadyErrors)) ∨
    (¬ skipped force field ∧
        ∃ rules, getRules (acc.store.getFieldMeta field.name).1 action = .ok rules ∧
          acc1.store = (acc.store.getFieldMeta field.name).2 ∧
          acc1.allRules = objSet field.name rules acc.allRules ∧
          acc1.allValues = objSet field.name field.jsValue acc.allValues ∧
          acc1.allFields = objSet field.name (snapshotOf field) acc.allFields ∧
          acc1.alreadyErrors = acc.alreadyErrors) := by
  by_cases hs : skipped force field
  · left
    refine ⟨hs, ?_⟩
    rw [snapshotField_of_skipped action acc hs] at h
    cases he : field.errors with
    | none =>
      rw [he] at h
      simp only [Except.ok.injEq] at h
      subst h
      simp
    | some e =>
      rw [he] at h
      simp only at h
      cases hse : setE acc.alreadyErrors (toPath field.name) (.obj [("errors", e)]) with
      | error f => rw [hse] at h; simp [Except.map] at h
      | ok a =>
        rw [hse] at h
        simp only [Except.map, Except.ok.injEq] at h
        subst h
        simp [errorsNode, hse]
  · right
    refine ⟨hs, ?_⟩
    rw [snapshotField_of_entering action acc hs] at h
    cases hr : getRules (acc.store.getFieldMeta field.name).1 action with
    | error f => rw [hr] at h; simp [Except.map] at h
    | ok rules =>
      rw [hr] at h
      simp only [Except.map, Except.ok.injEq] at h
      subst h
      exact ⟨rules, rfl, rfl, rfl, rfl, rfl, rfl⟩

theorem getFieldMeta_fields (st : FieldsStore) (name : String) :
    (st.getFieldMeta name).2.fields = st.fields := by
  unfold FieldsStore.getFieldMeta
  cases objGet name st.fieldsMeta <;> rfl

theorem getFieldMeta_registers (st : FieldsStore) (name : String) :
    (objGet name (st.getFieldMeta name).2.fieldsMeta).isSome := by
  unfold FieldsStore.getFieldMeta
  cases h : objGet name st.fieldsMeta with
  | none => simp [objGet_objSet_self]
  | some m => simp [h]

theorem getFieldMeta_keeps (st : FieldsStore) (name k : String) (m : FieldMeta)
    (h : objGet k st.fieldsMeta = some m) :
    objGet k (st.getFieldMeta name).2.fieldsMeta = some m := by
  unfold FieldsStore.getFieldMeta
  cases hn : objGet name st.fieldsMeta with
  | none =>
    have hne : k ≠ name := by
      intro e; subst e; rw [hn] at h; simp at h
    simp only
    rw [objGet_objSet_ne hne]
    exact h
  | some m2 => exact h

theorem getFieldMeta_of_registered (st : FieldsStore) (name : String) (m : FieldMeta)
    (h : objGet name st.fieldsMeta = some m) : st.getFieldMeta name = (m, st) := by
  simp [FieldsStore.getFieldMeta, h]

/-- What the snapshot loop leaves of the store and of its four maps. -/
theorem snapshot_loop_maps (force : Option Bool) (action : Option String)
    (fields : List Field) :
    ∀ (acc snap : Snapshot), forEachE (snapshotField force action) acc fields = .ok snap →
      snap.store.fields = acc.store.fields ∧
      (∀ k m, objGet k acc.store.fieldsMeta = some m →
        objGet k snap.store.fieldsMeta = some m) ∧
      (objKeys acc.allRules = objKeys acc.allFields →
        objKeys snap.allRules = objKeys snap.allFields) ∧
      (objKeys acc.allValues = objKeys acc.allFields →
        objKeys snap.allValues = objKeys snap.allFields) ∧
      ((∀ k ∈ objKeys acc.allFields, (objGet k acc.store.fieldsMeta).isSome) →
        ∀ k ∈ objKeys snap.allFields, (objGet k snap.store.fieldsMeta).isSome) ∧
      ((objKeys acc.allFields).Nodup → (objKeys snap.allFields).Nodup) ∧
      (∀ k, k ∈ objKeys snap.allFields ↔
        k ∈ objKeys acc.allFields ∨ ∃ f ∈ fields, f.name = k ∧ ¬ skipped force f) := by
  induction fields with
  | nil =>
    intro acc snap h
    simp only [forEachE, Except.ok.injEq] at h
    subst h
    simp
  | cons f rest ih =>
    intro acc snap h
    obtain ⟨acc1, h1, h2⟩ := forEachE_cons_ok h
    obtain ⟨i1, i2, i3, i4, i5, i6, i7⟩ := ih acc1 snap h2
    rcases snapshotField_inv h1 with ⟨hs, e1, e2, e3, e4, _⟩ | ⟨hs, rules, _, e1, e2, e3, e4, _⟩
    · rw [e1] at i1 i2 i5
      rw [e2, e4] at i3
      rw [e3, e4] at i4
      rw [e4] at i5 i6 i7
      refine ⟨i1, i2, i3, i4, i5, i6, ?_⟩
      intro k
      rw [i7 k]
      constructor
      · rintro (hk | ⟨f', hf', hn, hns⟩)
        · exact Or.inl hk
        · exact Or.inr ⟨f', List.mem_cons_of_mem _ hf', hn, hns⟩
      · rintro (hk | ⟨f', hf', hn, hns⟩)
        · exact Or.inl hk
        · rcases List.mem_cons.1 hf' with e | e
          · subst e; exact absurd hs hns
          · exact Or.inr ⟨f', e, hn, hns⟩
    · have keyshape : ∀ {α β : Type} (a : List (String × α)) (b : List (String × β)) (x : α)
          (y : β), objKeys a = objKeys b →
          objKeys (objSet f.name x a) = objKeys (objSet f.name y b) := by
        intro α β a b x y hab
        by_cases hm : f.name ∈ objKeys a
        · rw [objKeys_objSet_of_mem x hm, objKeys_objSet_of_mem y (hab ▸ hm), hab]
        · rw [objKeys_objSet_of_not_mem x hm, objKeys_objSet_of_not_mem y (hab ▸ hm), hab]
      refine ⟨?_, ?_, ?_, ?_, ?_, ?_, ?_⟩
      · rw [i1, e1, getFieldMeta_fields]
      · intro k m hk
        apply i2
        rw [e1]
        exact getFieldMeta_keeps _ _ _ _ hk
      · intro hk
        apply i3
        rw [e2, e4]
        exact keyshape _ _ _ _ hk
      · intro hk
        apply i4
        rw [e3, e4]
        exact keyshape _ _ _ _ hk
      · intro hk
        apply i5
        intro k hkm
        rw [e4, mem_objKeys_objSet] at hkm
        rw [e1]
        rcases hkm with e | e
        · subst e; exact getFieldMeta_registers _ _
        · have := hk k e
          obtain ⟨m, hm⟩ := Option.isSome_iff_exists.1 this
          rw [getFieldMeta_keeps _ _ _ _ hm]
          rfl
      · intro hnd
        apply i6
        rw [e4]
        exact objKeys_objSet_nodup _ _ hnd
      · intro k
        rw [i7 k, e4, mem_objKeys_objSet]
        constructor
        · rintro ((hk | hk) | ⟨f', hf', hn, hns⟩)
          · exact Or.inr ⟨f, List.mem_cons_self _ _, hk.symm, hs⟩
          · exact Or.inl hk
          · exact Or.inr ⟨f', List.mem_cons_of_mem _ hf', hn, hns⟩
        · rintro (hk | ⟨f', hf', hn, hns⟩)
          · exact Or.inl (Or.inr hk)
          · rcases List.mem_cons.1 hf' with e | e
            · subst e; exact Or.inl (Or.inl hn.symm)
            · exact Or.inr ⟨f', e, hn, hns⟩

theorem snapshot_loop_untouched (force : Option Bool) (action : Option String)
    (fields : List Field) (k : String) :
    ∀ (acc snap : Snapshot), forEachE (snapshotField force action) acc fields = .ok snap →
      (∀ f ∈ fields, f.name = k → skipped force f) →
      objGet k snap.allFields = objGet k acc.allFields ∧
      objGet k snap.allValues = objGet k acc.allValues ∧
      objGet k snap.allRules = objGet k acc.allRules := by
  induction fields with
  | nil =>
    intro acc snap h _
    simp only [forEachE, Except.ok.injEq] at h
    subst h
    simp
  | cons f rest ih =>
    intro acc snap h hk
    obtain ⟨acc1, h1, h2⟩ := forEachE_cons_ok h
    obtain ⟨i1, i2, i3⟩ := ih acc1 snap h2 (fun f' hf' => hk f' (List.mem_cons_of_mem _ hf'))
    rcases snapshotField_inv h1 with ⟨_, _, e2, e3, e4, _⟩ | ⟨hs, rules, _, _, e2, e3, e4, _⟩
    · rw [i1, i2, i3, e2, e3, e4]
      exact ⟨rfl, rfl, rfl⟩
    · have hne : k ≠ f.name := fun e => hs (hk f (List.mem_cons_self _ _) e.symm)
      rw [i1, i2, i3, e2, e3, e4]
      exact ⟨objGet_objSet_ne hne _ _, objGet_objSet_ne hne _ _, objGet_objSet_ne hne _ _⟩

theorem snapshot_loop_entry (force : Option Bool) (action : Option String)
    (fields : List Field) :
    ∀ (acc snap : Snapshot) (f : Field),
      forEachE (snapshotField force action) acc fields = .ok snap →
      (fields.map Field.name).Nodup → f ∈ fields → ¬ skipped force f →
      objGet f.name snap.allFields = some (snapshotOf f) ∧
      objGet f.name snap.allValues = some f.jsValue := by
  induction fields with
  | nil => intro acc snap f _ _ hf; simp at hf
  | cons f0 rest ih =>
    intro acc snap f h hnd hf hns
    obtain ⟨acc1, h1, h2⟩ := forEachE_cons_ok h
    simp only [List.map_cons, List.nodup_cons] at hnd
    rcases List.mem_cons.1 hf with e | e
    · subst e
      have hun := snapshot_loop_untouched force action rest f.name acc1 snap h2
        (fun f' hf' hn => absurd (hn ▸ List.mem_map_of_mem Field.name hf') hnd.1)
      rcases snapshotField_inv h1 with ⟨hs, _⟩ | ⟨_, rules, _, _, _, e3, e4, _⟩
      · exact absurd hs hns
      · rw [hun.1, hun.2.1, e3, e4]
        exact ⟨objGet_objSet_self _ _ _, objGet_objSet_self _ _ _⟩
    · exact ih acc1 snap f h2 hnd.2 e hns

theorem snapshot_loop_errors_apart (force : Option Bool) (action : Option String)
    (fields : List Field) (q : List String) :
    ∀ (acc snap : Snapshot), forEachE (snapshotField force action) acc fields = .ok snap →
      (∀ f ∈ fields, skipped force f → f.errors ≠ none → Apart (toPath f.name) q) →
      getE snap.alreadyErrors q = getE acc.alreadyErrors q := by
  induction fields with
  | nil =>
    intro acc snap h _
    simp only [forEachE, Except.ok.injEq] at h
    subst h
    rfl
  | cons f rest ih =>
    intro acc snap h hap
    obtain ⟨acc1, h1, h2⟩ := forEachE_cons_ok h
    rw [ih acc1 snap h2 (fun f' hf' => hap f' (List.mem_cons_of_mem _ hf'))]
    rcases snapshotField_inv h1 with ⟨hs, _, _, _, _, he⟩ | ⟨_, rules, _, _, _, _, _, e5⟩
    · rcases he with ⟨_, e5⟩ | ⟨e, he1, he2⟩
      · rw [e5]
      · exact getE_setE_apart _ _ _ _ _ he2
          (hap f (List.mem_cons_self _ _) hs (by rw [he1]; simp))
    · rw [e5]

theorem snapshot_loop_errors_self (force : Option Bool) (action : Option String)
    (fields : List Field) :
    ∀ (acc snap : Snapshot) (f : Field) (e : ErrTree),
      forEachE (snapshotField force action) acc fields = .ok snap →
      PrefixFree (fields.map Field.name) → f ∈ fields → skipped force f →
      f.errors = some e →
      getE snap.alreadyErrors (toPath f.name) = .ok (some (errorsNode e)) := by
  induction fields with
  | nil => intro acc snap f e _ _ hf; simp at hf
  | cons f0 rest ih =>
    intro acc snap f e h hpf hf hs he
    obtain ⟨acc1, h1, h2⟩ := forEachE_cons_ok h
    simp only [PrefixFree, List.map_cons, List.pairwise_cons] at hpf
    rcases List.mem_cons.1 hf with e0 | e0
    · subst e0
      rw [snapshot_loop_errors_apart force action rest _ acc1 snap h2
        (fun f' hf' _ _ => apart_symm (hpf.1 _ (List.mem_map_of_mem Field.name hf')))]
      rcases snapshotField_inv h1 with ⟨_, _, _, _, _, he2⟩ | ⟨hns, _⟩
      · rcases he2 with ⟨e5, _⟩ | ⟨e', he1, he3⟩
        · rw [he] at e5; simp at e5
        · rw [he] at he1
          simp only [Option.some.injEq] at he1
          subst he1
          exact getE_setE_self _ _ _ _ (toPath_ne_nil _) he3
      · exact absurd hs hns
    · exact ih acc1 snap f e h2 hpf.2 e0 hs he

theorem snapshot_loop_errors_nil (force : Option Bool) (action : Option String)
    (fields : List Field) :
    ∀ (acc snap : Snapshot), forEachE (snapshotField force action) acc fields = .ok snap →
      (snap.alreadyErrors = [] ↔
        acc.alreadyErrors = [] ∧ ∀ f ∈ fields, skipped force f → f.errors = none) := by
  induction fields with
  | nil =>
    intro acc snap h
    simp only [forEachE, Except.ok.injEq] at h
    subst h
    simp
  | cons f rest ih =>
    intro acc snap h
    obtain ⟨acc1, h1, h2⟩ := forEachE_cons_ok h
    rw [ih acc1 snap h2]
    rcases snapshotField_inv h1 with ⟨hs, _, _, _, _, he⟩ | ⟨hns, rules, _, _, _, _, _, e5⟩
    · rcases he with ⟨e4, e5⟩ | ⟨e, he1, he2⟩
      · rw [e5]
        constructor
        · rintro ⟨a, b⟩
          refine ⟨a, ?_⟩
          intro f' hf' hs'
          rcases List.mem_cons.1 hf' with e | e
          · subst e; exact e4
          · exact b f' e hs'
        · rintro ⟨a, b⟩
          exact ⟨a, fun f' hf' hs' => b f' (List.mem_cons_of_mem _ hf') hs'⟩
      · have hne : acc1.alreadyErrors ≠ [] := setE_ne_nil he2 (toPath_ne_nil _)
        constructor
        · rintro ⟨a, _⟩; exact absurd a hne
        · rintro ⟨_, b⟩
          have := b f (List.mem_cons_self _ _) hs
          rw [he1] at this
          simp at this
    · rw [e5]
      constructor
      · rintro ⟨a, b⟩
        refine ⟨a, ?_⟩
        intro f' hf' hs'
        rcases List.mem_cons.1 hf' with e | e
        · subst e; exact absurd hs' hns
        · exact b f' e hs'
      · rintro ⟨a, b⟩
        exact ⟨a, fun f' hf' hs' => b f' (List.mem_cons_of_mem _ hf') hs'⟩

/-! ## The two phases as a whole -/

theorem validateFieldsInternal_inv {st st1 : FieldsStore} {fields : List Field}
    {fieldNames : Option (List String)} {action : Option String} {options : ValidateOptions}
    {hasCallback : Bool} {out : Outcome}
    (h : validateFieldsInternal st fields fieldNames action options hasCallback = .ok (st1, out)) :
    ∃ snap, forEachE (snapshotField options.force action) { store := st } fields = .ok snap ∧
      st1 = setFields snap.store snap.allFields ∧
      ((hasCallback = true ∧ snap.allFields = [] ∧
          out = .done (some { errors := errorsOrNull snap.alreadyErrors
                              values := st1.getFieldsValue fieldNames })) ∨
        (¬ (hasCallback = true ∧ snap.allFields = []) ∧
          out = .pending
            { alreadyErrors := snap.alreadyErrors
              allRules := snap.allRules
              allValues := snap.allValues.map (fun kv => (kv.1, st1.getFieldValue kv.1))
              fieldNames := fieldNames
              options := options
              hasCallback := hasCallback })) := by
  unfold validateFieldsInternal at h
  cases hs : forEachE (snapshotField options.force action) { store := st } fields with
  | error e => rw [hs] at h; simp at h
  | ok snap =>
    rw [hs] at h
    refine ⟨snap, rfl, ?_⟩
    by_cases hc : hasCallback = true ∧ snap.allFields = []
    · have hc2 : hasCallback = true ∧ isEmptyObject snap.allFields = true := by
        simpa [isEmptyObject] using hc
      simp only [if_pos hc2, Except.ok.injEq, Prod.mk.injEq] at h
      exact ⟨h.1.symm, Or.inl ⟨hc.1, hc.2, by rw [← h.2, ← h.1]⟩⟩
    · have hc2 : ¬ (hasCallback = true ∧ isEmptyObject snap.allFields = true) := by
        simpa [isEmptyObject] using hc
      simp only [if_neg hc2, Except.ok.injEq, Prod.mk.injEq] at h
      exact ⟨h.1.symm, Or.inr ⟨hc, by rw [← h.2, ← h.1]⟩⟩

theorem complete_inv {st st' : FieldsStore} {run : Run} {errors : Option (List ErrRec)}
    {cb : Option CallbackArgs} (h : complete st run errors = .ok (st', cb)) :
    ∃ g r, groupErrors run errors = .ok g ∧
      forEachE (reconcileField st run.allValues g) {} (objKeys run.allRules) = .ok r ∧
      st' = setFields st r.nowAllFields ∧
      (run.hasCallback = true →
        ∃ g2, forEachE expireField g r.expired = .ok g2 ∧
          cb = some { errors := errorsOrNull g2, values := st'.getFieldsValue run.fieldNames }) ∧
      (run.hasCallback = false → cb = none) := by
  unfold complete at h
  cases hg : groupErrors run errors with
  | error f => rw [hg] at h; simp at h
  | ok g =>
    rw [hg] at h
    simp only at h
    cases hr : forEachE (reconcileField st run.allValues g) {} (objKeys run.allRules) with
    | error f => rw [hr] at h; simp at h
    | ok r =>
      rw [hr] at h
      simp only at h
      refine ⟨g, r, rfl, hr, ?_⟩
      cases hcb : run.hasCallback with
      | false =>
        rw [hcb] at h
        simp only [Bool.false_eq_true, if_false, Except.ok.injEq, Prod.mk.injEq] at h
        exact ⟨h.1.symm, by simp, fun _ => h.2.symm⟩
      | true =>
        rw [hcb] at h
        simp only [if_true] at h
        cases hx : forEachE expireField g r.expired with
        | error f => rw [hx] at h; simp at h
        | ok g2 =>
          rw [hx] at h
          simp only [Except.ok.injEq, Prod.mk.injEq] at h
          refine ⟨h.1.symm, fun _ => ⟨g2, rfl, ?_⟩, by simp⟩
          rw [← h.2, ← h.1]

theorem prefixFree_nodup {names : List String} (h : PrefixFree names) : names.Nodup := by
  unfold PrefixFree at h
  refine List.Pairwise.imp ?_ h
  intro a b hab e
  subst e
  exact hab.1 (List.prefix_refl _)

theorem prefixFree_apart {names : List String} (h : PrefixFree names) {a b : String}
    (ha : a ∈ names) (hb : b ∈ names) (hab : a ≠ b) : Apart (toPath a) (toPath b) :=
  List.Pairwise.forall (fun _ _ h => apart_symm h) h ha hb hab

theorem prefixFree_of_subset {names keys : List String} (h : PrefixFree names)
    (hnd : keys.Nodup) (hsub : ∀ k ∈ keys, k ∈ names) : PrefixFree keys :=
  hnd.pairwise_of_forall_ne
    (fun a ha b hb hab => prefixFree_apart h (hsub a ha) (hsub b hb) hab)

theorem expireField_eq :
    expireField = fun (g : EProps) (x : String) => setE g (toPath (id x)) (expiredNode x) := rfl

theorem expire_spec (g : EProps) (expired : List String) (hpf : PrefixFree expired)
    (hok : ∀ x ∈ expired, ∃ r, getE g (toPath x) = .ok r) :
    ∃ g2, forEachE expireField g expired = .ok g2 ∧
      (∀ x ∈ expired, getE g2 (toPath x) = .ok (some (expiredNode x))) ∧
      (∀ q, (∀ x ∈ expired, Apart (toPath x) q) → getE g2 q = getE g q) := by
  rw [expireField_eq]
  obtain ⟨g2, h2⟩ := setEach_ok id expiredNode expired g hok hpf
  refine ⟨g2, h2, ?_, ?_⟩
  · intro x hx
    exact setEach_self id expiredNode expired g g2 x h2 hpf hx
  · intro q hq
    exact setEach_apart id expiredNode expired g g2 q h2 hq

theorem expire_eq_nil {g g2 : EProps} {expired : List String}
    (h : forEachE expireField g expired = .ok g2) : g2 = [] ↔ g = [] ∧ expired = [] := by
  rw [expireField_eq] at h
  exact setEach_eq_nil id expiredNode expired g g2 h

/-- The run that a call of `validateFieldsInternal` hands to the rule validator,
in terms of the snapshot loop. -/
theorem pending_run {st st1 : FieldsStore} {fields : List Field}
    {fieldNames : Option (List String)} {action : Option String} {options : ValidateOptions}
    {hasCallback : Bool} {run : Run}
    (h : validateFieldsInternal st fields fieldNames action options hasCallback =
      .ok (st1, .pending run)) :
    ∃ snap, forEachE (snapshotField options.force action) { store := st } fields = .ok snap ∧
      st1 = setFields snap.store snap.allFields ∧
      run.alreadyErrors = snap.alreadyErrors ∧ run.allRules = snap.allRules ∧
      run.allValues = snap.allValues.map (fun kv => (kv.1, st1.getFieldValue kv.1)) ∧
      run.hasCallback = hasCallback ∧ run.fieldNames = fieldNames ∧ run.options = options ∧
      objKeys run.allRules = objKeys snap.allFields ∧
      (∀ k, k ∈ objKeys run.allRules ↔ ∃ f ∈ fields, f.name = k ∧ ¬ skipped options.force f) := by
  obtain ⟨snap, h1, h2, h3⟩ := validateFieldsInternal_inv h
  obtain ⟨_, _, i3, _, _, _, i7⟩ := snapshot_loop_maps _ _ _ _ _ h1
  rcases h3 with ⟨_, _, h4⟩ | ⟨_, h4⟩
  · simp at h4
  · simp only [Outcome.pending.injEq] at h4
    subst h4
    refine ⟨snap, h1, h2, rfl, rfl, rfl, rfl, rfl, rfl, i3 rfl, ?_⟩
    intro k
    show k ∈ objKeys snap.allRules ↔ _
    rw [i3 rfl, i7 k]
    simp [objKeys]

/-- Error aggregation of a run over prefix-free names, when the rule validator
reports only fields it was given: the loop ends, every validated name holds the
node of its records, every skipped field holds its prior errors. -/
theorem aggregate_spec {st st1 : FieldsStore} {fields : List Field}
    {fieldNames : Option (List String)} {action : Option String} {options : ValidateOptions}
    {hasCallback : Bool} {run : Run}
    (hv : validateFieldsInternal st fields fieldNames action options hasCallback =
      .ok (st1, .pending run))
    (hpf : PrefixFree (fields.map Field.name)) (errors : Option (List ErrRec))
    (hrec : ∀ e ∈ errors.getD [], e.field ∈ objKeys run.allRules) :
    PrefixFree (objKeys run.allRules) ∧
    ∃ g, groupErrors run errors = .ok g ∧
      (∀ x ∈ objKeys run.allRules,
        getE g (toPath x) = .ok (groupNode (recordsFor x (errors.getD [])))) ∧
      (∀ f ∈ fields, skipped options.force f →
        getE g (toPath f.name) = .ok (f.errors.map errorsNode)) := by
  obtain ⟨snap, h1, _, e1, e2, _, _, _, _, e7, e8⟩ := pending_run hv
  obtain ⟨_, _, _, _, _, i6, _⟩ := snapshot_loop_maps _ _ _ _ _ h1
  have hnd : (fields.map Field.name).Nodup := prefixFree_nodup hpf
  have hkeys : ∀ k ∈ objKeys run.allRules, k ∈ fields.map Field.name := by
    intro k hk
    obtain ⟨f, hf, hn, _⟩ := (e8 k).1 hk
    exact hn ▸ List.mem_map_of_mem Field.name hf
  have hpk : PrefixFree (objKeys run.allRules) := by
    apply prefixFree_of_subset hpf _ hkeys
    rw [e7]
    exact i6 (by simp [objKeys])
  have hdisj : ∀ f ∈ fields, skipped options.force f → ∀ k ∈ objKeys run.allRules,
      Apart (toPath k) (toPath f.name) := by
    intro f hf hs k hk
    obtain ⟨f2, hf2, hn, hns⟩ := (e8 k).1 hk
    apply prefixFree_apart hpf (hkeys k hk) (List.mem_map_of_mem Field.name hf)
    intro e
    have : f2 = f := List.inj_on_of_nodup_map hnd hf2 hf (hn.trans e)
    exact hns (this ▸ hs)
  have hinit : ∀ x ∈ objKeys run.allRules,
      getE run.alreadyErrors (toPath x) = .ok (groupNode ((fun _ => []) x)) := by
    intro x hx
    rw [e1, snapshot_loop_errors_apart _ _ _ _ _ _ h1
      (fun f hf hs _ => apart_symm (hdisj f hf hs x hx))]
    cases hp : toPath x with
    | nil => exact absurd hp (toPath_ne_nil _)
    | cons k rest => simp [getE_nil_cons, groupNode]
  obtain ⟨g, hg1, hg2, hg3⟩ := groupErrors_spec (objKeys run.allRules) hpk (errors.getD [])
    run.alreadyErrors (fun _ => []) hrec hinit
  refine ⟨hpk, g, hg1, ?_, ?_⟩
  · intro x hx
    simpa using hg2 x hx
  · intro f hf hs
    rw [hg3 _ (fun e he => hdisj f hf hs _ (hrec e he)), e1]
    cases he : f.errors with
    | none =>
      rw [snapshot_loop_errors_apart _ _ _ _ _ _ h1]
      · cases hp : toPath f.name with
        | nil => exact absurd hp (toPath_ne_nil _)
        | cons k rest => simp [getE_nil_cons]
      · intro f2 hf2 _ hne
        apply prefixFree_apart hpf (List.mem_map_of_mem Field.name hf2)
          (List.mem_map_of_mem Field.name hf)
        intro e
        have : f2 = f := List.inj_on_of_nodup_map hnd hf2 hf e
        exact hne (this ▸ he)
    | some e =>
      exact snapshot_loop_errors_self _ _ _ _ _ f e h1 hpf hf hs he

theorem complete_eq {st : FieldsStore} {run : Run} {errors : Option (List ErrRec)}
    {g g2 : EProps} {r : Reconciled} (hg : groupErrors run errors = .ok g)
    (hr : forEachE (reconcileField st run.allValues g) {} (objKeys run.allRules) = .ok r)
    (hx : forEachE expireField g r.expired = .ok g2) :
    complete st run errors = .ok (setFields st r.nowAllFields,
      if run.hasCallback then
        some { errors := errorsOrNull g2
               values := (setFields st r.nowAllFields).getFieldsValue run.fieldNames }
      else none) := by
  unfold complete
  rw [hg]
  simp only
  rw [hr]
  simp only
  cases run.hasCallback with
  | false => simp
  | true => simp [hx]

theorem reconcile_eq {st : FieldsStore} {run : Run} {errors : Option (List ErrRec)}
    {g : EProps} (hg : groupErrors run errors = .ok g) :
    reconcile st run errors =
      forEachE (reconcileField st run.allValues g) {} (objKeys run.allRules) := by
  unfold reconcile
  rw [hg]

theorem errorsOf_groupNode (l : List ErrRec) :
    errorsOf (groupNode l) = if l = [] then none else some (.errs l) := by
  by_cases h : l = []
  · simp [groupNode, h, errorsOf]
  · simp [groupNode, h, errorsOf, errorsNode, objGet]

/-- The completion handler of a run over prefix-free names, on any store and for
any validator result that reports only fields it was given: every loop ends, and
the final errors structure holds the expired node at each expired name, the
aggregated node at each other validated name, the prior errors at each skipped
field. -/
theorem complete_spec {st0 st1 : FieldsStore} {fields : List Field}
    {fieldNames : Option (List String)} {action : Option String} {options : ValidateOptions}
    {hasCallback : Bool} {run : Run}
    (hv : validateFieldsInternal st0 fields fieldNames action options hasCallback =
      .ok (st1, .pending run))
    (hpf : PrefixFree (fields.map Field.name)) (st : FieldsStore)
    (errors : Option (List ErrRec))
    (hrec : ∀ e ∈ errors.getD [], e.field ∈ objKeys run.allRules) :
    ∃ g r g2, groupErrors run errors = .ok g ∧
      forEachE (reconcileField st run.allValues g) {} (objKeys run.allRules) = .ok r ∧
      forEachE expireField g r.expired = .ok g2 ∧
      (∀ x ∈ objKeys run.allRules,
        getE g (toPath x) = .ok (groupNode (recordsFor x (errors.getD [])))) ∧
      (∀ x ∈ objKeys run.allRules, (st.getField x).jsValue ≠ run.validated x →
        getE g2 (toPath x) = .ok (some (expiredNode x))) ∧
      (∀ x ∈ objKeys run.allRules, (st.getField x).jsValue = run.validated x →
        getE g2 (toPath x) = .ok (groupNode (recordsFor x (errors.getD [])))) ∧
      (∀ f ∈ fields, skipped options.force f →
        getE g2 (toPath f.name) = .ok (f.errors.map errorsNode)) := by
  obtain ⟨hpk, g, hg1, hg2, hg3⟩ := aggregate_spec hv hpf errors hrec
  obtain ⟨r, hr⟩ := reconcile_loop_ok st run.allValues g (objKeys run.allRules) {}
    (fun x hx => ⟨_, hg2 x hx⟩)
  obtain ⟨hexp, _, _, _⟩ := reconcile_loop_spec st run.allValues g _ _ _ hr
  simp only [List.nil_append] at hexp
  have hsub : ∀ x ∈ r.expired, x ∈ objKeys run.allRules := by
    intro x hx
    rw [hexp] at hx
    exact (List.mem_filter.1 hx).1
  have hpe : PrefixFree r.expired := by
    rw [hexp]
    exact List.Pairwise.filter _ hpk
  obtain ⟨g2, hx1, hx2, hx3⟩ := expire_spec g r.expired hpe (fun x hx => ⟨_, hg2 x (hsub x hx)⟩)
  obtain ⟨snap, _, _, _, _, _, _, _, _, _, e8⟩ := pending_run hv
  refine ⟨g, r, g2, hg1, hr, hx1, hg2, ?_, ?_, ?_⟩
  · intro x hx hd
    apply hx2
    rw [hexp]
    exact List.mem_filter.2 ⟨hx, by simpa [Run.validated] using hd⟩
  · intro x hx hs
    rw [hx3, hg2 x hx]
    intro y hy
    apply prefixFree_apart hpk (hsub y hy) hx
    intro e
    subst e
    rw [hexp] at hy
    have := (List.mem_filter.1 hy).2
    simp [Run.validated] at hs
    simp [hs] at this
  · intro f hf hs
    rw [hx3, hg3 f hf hs]
    intro y hy
    obtain ⟨f2, hf2, hn, hns⟩ := (e8 y).1 (hsub y hy)
    rw [← hn]
    apply prefixFree_apart hpf (List.mem_map_of_mem Field.name hf2)
      (List.mem_map_of_mem Field.name hf)
    intro e
    have : f2 = f := List.inj_on_of_nodup_map (prefixFree_nodup hpf) hf2 hf e
    exact hns (this ▸ hs)

theorem pending_keys_prefixFree {st0 st1 : FieldsStore} {fields : List Field}
    {fieldNames : Option (List String)} {action : Option String} {options : ValidateOptions}
    {hasCallback : Bool} {run : Run}
    (hv : validateFieldsInternal st0 fields fieldNames action options hasCallback =
      .ok (st1, .pending run))
    (hpf : PrefixFree (fields.map Field.name)) : PrefixFree (objKeys run.allRules) := by
  obtain ⟨snap, h1, _, _, _, _, _, _, _, e7, e8⟩ := pending_run hv
  obtain ⟨_, _, _, _, _, i6, _⟩ := snapshot_loop_maps _ _ _ _ _ h1
  apply prefixFree_of_subset hpf
  · rw [e7]
    exact i6 (by simp [objKeys])
  · intro k hk
    obtain ⟨f, hf, hn, _⟩ := (e8 k).1 hk
    exact hn ▸ List.mem_map_of_mem Field.name hf

theorem errorsOrNull_eq_some {g g2 : EProps} (h : errorsOrNull g = some g2) : g2 = g := by
  unfold errorsOrNull at h
  by_cases he : isEmptyObject g = true
  · simp [he] at h
  · simp [he] at h
    exact h.symm

theorem errorsOrNull_of_ne_nil {g : EProps} (h : g ≠ []) : errorsOrNull g = some g := by
  cases g with
  | nil => exact absurd rfl h
  | cons a b => rfl

theorem objGet_map_key {α β : Type} (name : String) (f : String → α → β)
    (o : List (String × α)) :
    objGet name (o.map (fun kv => (kv.1, f kv.1 kv.2))) = (objGet name o).map (f name) := by
  induction o with
  | nil => rfl
  | cons kv rest ih =>
    obtain ⟨k, v⟩ := kv
    by_cases hk : k = name
    · subst hk; simp [objGet]
    · simp [objGet, hk, ih]

/-! ## The claims -/

/-- C1. Stale results are not written: when the rule validator completes and a
name's current value in the store differs from the value the run validated, the
reconciliation write (`nowAllFields`) has no entry for that name, and the record
stored for the name (value, dirty flag, validating flag, errors) is exactly the
one stored just before completion. -/
theorem complete_leaves_changed_field (st st' : FieldsStore) (run : Run)
    (errors : Option (List ErrRec)) (cb : Option CallbackArgs) (name : String)
    (hc : complete st run errors = .ok (st', cb))
    (hd : (st.getField name).jsValue ≠ run.validated name) :
    (∃ r, reconcile st run errors = .ok r ∧ st' = setFields st r.nowAllFields ∧
      objGet name r.nowAllFields = none) ∧
    objGet name st'.fields = objGet name st.fields := by
  obtain ⟨g, r, hg, hr, hst, _, _⟩ := complete_inv hc
  obtain ⟨_, h2, _, h4⟩ := reconcile_loop_spec st run.allValues g _ _ _ hr
  have hnone : objGet name r.nowAllFields = none := by
    rw [h2 name (Or.inr hd)]
    rfl
  refine ⟨⟨r, by rw [reconcile_eq hg, hr], hst, hnone⟩, ?_⟩
  rw [hst, setFields_objGet st r.nowAllFields name (h4 (by simp [objKeys])), hnone]
  by_cases hreg : (objGet name st.fieldsMeta).isSome <;> simp [hreg]

/-- Witness of C1 on the worked run: `x` was edited from `1` to `2`. -/
theorem complete_leaves_changed_field_witness :
    (∃ r, reconcile exEdited exRun exErrors = .ok r ∧
      exDone = setFields exEdited r.nowAllFields ∧ objGet "x" r.nowAllFields = none) ∧
    objGet "x" exDone.fields = objGet "x" exEdited.fields :=
  complete_leaves_changed_field exEdited exDone exRun exErrors (some exCallback) "x"
    (by rfl) (by decide)

/-- C2 as stated fails: `a.b` and `a` are validated in one run with a callback,
and both are edited while the rule validator runs.  The completion handler
writes the expired node of `a.b` and then that of `a`; `set(errorsGroup, 'a', ...)`
replaces the object that held the node of `a.b`, so the errors structure given
to the callback has nothing at the path of `a.b`. -/
theorem expired_marker_lost_under_prefix :
    validateFieldsInternal exStoreNested [exFieldAB, exFieldA] none (some "onChange") {} true =
      .ok (exSnapshotNested, .pending exRunNested) ∧
    (exEditedNested.getField "a.b").jsValue ≠ exRunNested.validated "a.b" ∧
    ∃ st' cb g2, complete exEditedNested exRunNested none = .ok (st', some cb) ∧
      cb.errors = some g2 ∧
      getE g2 (toPath "a.b") = .ok none ∧
      getE g2 (toPath "a") = .ok (some (expiredNode "a")) :=
  ⟨rfl, by decide, _, _, _, rfl, rfl, rfl, rfl⟩

/-- C2, amended. For a run with a completion callback over prefix-free names
whose completion handler reaches the callback, a validated name whose value in
the store at completion differs from the validated value has, at its dotted
path in the errors structure given to the callback, the node
`{expired: true, errors: [{message: "<x> need to revalidate", field: x}]}`; when
the validator reports only fields it was given, a validated name whose value is
still the validated one has there the node built from the validator's records
for it (none without a record), which carries no `expired` key. -/
theorem complete_marks_expired {st0 st1 : FieldsStore} {fields : List Field}
    {fieldNames : Option (List String)} {action : Option String} {options : ValidateOptions}
    {run : Run}
    (hv : validateFieldsInternal st0 fields fieldNames action options true =
      .ok (st1, .pending run))
    (hpf : PrefixFree (fields.map Field.name))
    (st st' : FieldsStore) (errors : Option (List ErrRec)) (cbArgs : CallbackArgs)
    (hc : complete st run errors = .ok (st', some cbArgs))
    (x : String) (hx : x ∈ objKeys run.allRules) :
    ((st.getField x).jsValue ≠ run.validated x →
      ∃ g2, cbArgs.errors = some g2 ∧
        getE g2 (toPath x) = .ok (some (.obj
          [("expired", .flag true),
           ("errors", .errs [{ message := x ++ " need to revalidate", field := x }])]))) ∧
    ((st.getField x).jsValue = run.validated x →
      (∀ e ∈ errors.getD [], e.field ∈ objKeys run.allRules) →
      ∀ g2, cbArgs.errors = some g2 →
        getE g2 (toPath x) = .ok (groupNode (recordsFor x (errors.getD []))) ∧
        ∀ props, getE g2 (toPath x) = .ok (some (.obj props)) →
          objGet "expired" props = none) := by
  have hpk := pending_keys_prefixFree hv hpf
  obtain ⟨_, _, _, _, _, _, ecb, _, _, _, _⟩ := pending_run hv
  constructor
  · intro hd
    obtain ⟨g, r, hg, hr, hst, hcb, _⟩ := complete_inv hc
    obtain ⟨g2, hx2, hcb2⟩ := hcb ecb
    obtain ⟨hexp, _, _, _⟩ := reconcile_loop_spec st run.allValues g _ _ _ hr
    simp only [List.nil_append] at hexp
    have hmem : x ∈ r.expired := by
      rw [hexp]
      exact List.mem_filter.2 ⟨hx, by simpa [Run.validated] using hd⟩
    have hpe : PrefixFree r.expired := by
      rw [hexp]
      exact List.Pairwise.filter _ hpk
    have hne : g2 ≠ [] := by
      intro e
      have := (expire_eq_nil hx2).1 e
      rw [this.2] at hmem
      simp at hmem
    simp only [Option.some.injEq] at hcb2
    refine ⟨g2, by rw [hcb2]; exact errorsOrNull_of_ne_nil hne, ?_⟩
    rw [expireField_eq] at hx2
    exact setEach_self id expiredNode r.expired g g2 x hx2 hpe hmem
  · intro hs hrec g2 hg2
    obtain ⟨g, r, g2', hg, hr, hx2, _, _, h6, _⟩ := complete_spec hv hpf st errors hrec
    have heq := complete_eq hg hr hx2
    rw [hc, ecb] at heq
    simp only [if_true, Except.ok.injEq, Prod.mk.injEq, Option.some.injEq] at heq
    have : g2 = g2' := by
      apply errorsOrNull_eq_some
      rw [← hg2, heq.2]
    subst this
    have hnode := h6 x hx hs
    refine ⟨hnode, ?_⟩
    intro props hp
    rw [hnode] at hp
    unfold groupNode at hp
    by_cases hl : recordsFor x (errors.getD []) = []
    · simp [hl] at hp
    · simp only [hl, if_false, errorsNode, Except.ok.injEq, Option.some.injEq,
        ErrTree.obj.injEq] at hp
      subst hp
      simp [objGet]

/-- Witness of C2 on the worked run: `x` expired, `y` did not. -/
theorem complete_marks_expired_witness :
    ((exEdited.getField "x").jsValue ≠ exRun.validated "x" →
      ∃ g2, exCallback.errors = some g2 ∧
        getE g2 (toPath "x") = .ok (some (.obj
          [("expired", .flag true),
           ("errors", .errs [{ message := "x" ++ " need to revalidate", field := "x" }])]))) ∧
    ((exEdited.getField "x").jsValue = exRun.validated "x" →
      (∀ e ∈ exErrors.getD [], e.field ∈ objKeys exRun.allRules) →
      ∀ g2, exCallback.errors = some g2 →
        getE g2 (toPath "x") = .ok (groupNode (recordsFor "x" (exErrors.getD []))) ∧
        ∀ props, getE g2 (toPath "x") = .ok (some (.obj props)) →
          objGet "expired" props = none) :=
  complete_marks_expired
    (show validateFieldsInternal exStore [exFieldX, exFieldY] none (some "onChange") {} true =
      .ok (exSnapshotStore, .pending exRun) from by rfl)
    (show PrefixFree ([exFieldX, exFieldY].map Field.name) from by decide)
    exEdited exDone exErrors exCallback (by rfl) "x" (by decide)

/-- C3 as stated fails: `a.b` and `a` are validated in one run and both still
hold the validated value when the validator completes with one record for
`a.b` and one for `a`, in that order.  Grouping the record of `a` finds the
object made for `a.b` at the path of `a`, reads `a.errors`, which is undefined,
and `push` throws: the completion handler ends before the reconciliation write. -/
theorem colliding_records_stop_reconciliation :
    validateFieldsInternal exStoreNested [exFieldAB, exFieldA] none (some "onChange") {} true =
      .ok (exSnapshotNested, .pending exRunNested) ∧
    (exSnapshotNested.getField "a.b").jsValue = exRunNested.validated "a.b" ∧
    (exSnapshotNested.getField "a").jsValue = exRunNested.validated "a" ∧
    (∀ e ∈ exErrorsNested.getD [], e.field ∈ objKeys exRunNested.allRules) ∧
    reconcile exSnapshotNested exRunNested exErrorsNested = .error .typeError ∧
    complete exSnapshotNested exRunNested exErrorsNested = .error .typeError :=
  ⟨rfl, by decide, by decide, by decide, rfl, rfl⟩

/-- C3, amended. For a run over prefix-free names whose validator reports only
fields it was given, a validated name whose value in the store at completion equals the
validated value gets, in the reconciliation write, the live record with errors
set to the list of the validator's records for it (absent when there is none),
`validating = false`, `dirty = false` and the validated value; the completion
handler ends, and writes that record to the store when the name is registered. -/
theorem reconcile_commits_unchanged_field {st0 st1 : FieldsStore} {fields : List Field}
    {fieldNames : Option (List String)} {action : Option String} {options : ValidateOptions}
    {hasCallback : Bool} {run : Run}
    (hv : validateFieldsInternal st0 fields fieldNames action options hasCallback =
      .ok (st1, .pending run))
    (hpf : PrefixFree (fields.map Field.name)) (st : FieldsStore)
    (errors : Option (List ErrRec))
    (hrec : ∀ e ∈ errors.getD [], e.field ∈ objKeys run.allRules)
    (x : String) (hx : x ∈ objKeys run.allRules)
    (hs : (st.getField x).jsValue = run.validated x) :
    ∃ r st' cb, reconcile st run errors = .ok r ∧ complete st run errors = .ok (st', cb) ∧
      objGet x r.nowAllFields = some
        { st.getField x with
          errors := if recordsFor x (errors.getD []) = [] then none
                    else some (.errs (recordsFor x (errors.getD [])))
          value := some (run.validated x)
          validating := some false
          dirty := some false } ∧
      ((objGet x st.fieldsMeta).isSome → objGet x st'.fields = objGet x r.nowAllFields) := by
  obtain ⟨g, r, g2, hg, hr, hx2, h4, _, _, _⟩ := complete_spec hv hpf st errors hrec
  obtain ⟨_, _, h3, hnd⟩ := reconcile_loop_spec st run.allValues g _ _ _ hr
  obtain ⟨fe, hfe, hget⟩ := h3 x hx hs
  rw [h4 x hx] at hfe
  simp only [Except.ok.injEq] at hfe
  subst hfe
  refine ⟨r, _, _, by rw [reconcile_eq hg, hr], complete_eq hg hr hx2, ?_, ?_⟩
  · rw [hget]
    simp only [committedField, errorsOf_groupNode]
    rfl
  · intro hreg
    rw [setFields_objGet st r.nowAllFields x (hnd (by simp [objKeys])), if_pos hreg, hget]
    rfl

/-- Witness of C3 on the worked run: `y` still holds the validated value. -/
theorem reconcile_commits_unchanged_field_witness :
    ∃ r st' cb, reconcile exEdited exRun exErrors = .ok r ∧
      complete exEdited exRun exErrors = .ok (st', cb) ∧
      objGet "y" r.nowAllFields = some
        { exEdited.getField "y" with
          errors := if recordsFor "y" (exErrors.getD []) = [] then none
                    else some (.errs (recordsFor "y" (exErrors.getD [])))
          value := some (exRun.validated "y")
          validating := some false
          dirty := some false } ∧
      ((objGet "y" exEdited.fieldsMeta).isSome →
        objGet "y" st'.fields = objGet "y" r.nowAllFields) :=
  reconcile_commits_unchanged_field
    (show validateFieldsInternal exStore [exFieldX, exFieldY] none (some "onChange") {} true =
      .ok (exSnapshotStore, .pending exRun) from by rfl)
    (show PrefixFree ([exFieldX, exFieldY].map Field.name) from by decide)
    exEdited exErrors (by decide) "y" (by decide) (by decide)

/-- C5. When `validateFieldsInternal` starts the rule validator on fields of
distinct names, every field entering validation is, in the store at that moment
(committed through `setFields`), the field as passed in with `validating = true`,
`dirty = true` and no errors; and the value handed to the validator for it is the
value read back from that store. -/
theorem snapshot_commits_entering_fields {st0 st1 : FieldsStore} {fields : List Field}
    {fieldNames : Option (List String)} {action : Option String} {options : ValidateOptions}
    {hasCallback : Bool} {run : Run}
    (hv : validateFieldsInternal st0 fields fieldNames action options hasCallback =
      .ok (st1, .pending run))
    (hnd : (fields.map Field.name).Nodup)
    (f : Field) (hf : f ∈ fields) (hns : ¬ skipped options.force f) :
    (∃ snap, forEachE (snapshotField options.force action) { store := st0 } fields = .ok snap ∧
      st1 = setFields snap.store snap.allFields ∧
      objGet f.name snap.allFields = some
        { f with errors := none, validating := some true, dirty := some true }) ∧
    objGet f.name st1.fields = some
      { f with errors := none, validating := some true, dirty := some true } ∧
    objGet f.name run.allValues = some (st1.getFieldValue f.name) := by
  obtain ⟨snap, h1, e0, _, _, e3, _, _, _, _, _⟩ := pending_run hv
  obtain ⟨_, _, _, _, i5, i6, i7⟩ := snapshot_loop_maps _ _ _ _ _ h1
  obtain ⟨hent, hval⟩ := snapshot_loop_entry _ _ _ _ _ f h1 hnd hf hns
  have hreg : (objGet f.name snap.store.fieldsMeta).isSome :=
    i5 (by simp [objKeys]) _ ((i7 _).2 (Or.inr ⟨f, hf, rfl, hns⟩))
  refine ⟨⟨snap, h1, e0, hent⟩, ?_, ?_⟩
  · rw [e0, setFields_objGet _ _ _ (i6 (by simp [objKeys])), if_pos hreg, hent]
    rfl
  · rw [e3, objGet_map_key f.name (fun k _ => st1.getFieldValue k), hval]
    rfl

/-- Witness of C5 on the worked run, for the field `x`. -/
theorem snapshot_commits_entering_fields_witness :
    (∃ snap, forEachE (snapshotField ({} : ValidateOptions).force (some "onChange"))
        { store := exStore } [exFieldX, exFieldY] = .ok snap ∧
      exSnapshotStore = setFields snap.store snap.allFields ∧
      objGet exFieldX.name snap.allFields = some
        { exFieldX with errors := none, validating := some true, dirty := some true }) ∧
    objGet exFieldX.name exSnapshotStore.fields = some
      { exFieldX with errors := none, validating := some true, dirty := some true } ∧
    objGet exFieldX.name exRun.allValues = some (exSnapshotStore.getFieldValue exFieldX.name) :=
  snapshot_commits_entering_fields
    (show validateFieldsInternal exStore [exFieldX, exFieldY] none (some "onChange") {} true =
      .ok (exSnapshotStore, .pending exRun) from by rfl)
    (show ([exFieldX, exFieldY].map Field.name).Nodup from by decide)
    exFieldX (by simp) (by decide)

theorem errorsOrNull_eq_none_iff (g : EProps) : errorsOrNull g = none ↔ g = [] := by
  cases g with
  | nil => simp [errorsOrNull, isEmptyObject]
  | cons a b => simp [errorsOrNull, isEmptyObject]

theorem ne_nil_of_getE_some {g : EProps} {p : List String} {v : ErrTree} (hp : p ≠ [])
    (h : getE g p = .ok (some v)) : g ≠ [] := by
  intro e
  subst e
  cases p with
  | nil => exact hp rfl
  | cons k rest => rw [getE_nil_cons] at h; simp at h

/-- C6. At both callback sites of `validateFieldsInternal` the first argument is
`null` exactly when there is no error at all: at the synchronous exit, when no
skipped field carried prior errors; at validator completion, when moreover the
validator returned no record and no validated name expired.  Otherwise it is an
errors object with at least one key. -/
theorem callback_errors_null_iff {st0 st1 : FieldsStore} {fields : List Field}
    {fieldNames : Option (List String)} {action : Option String} {options : ValidateOptions}
    {hasCallback : Bool} {out : Outcome}
    (hv : validateFieldsInternal st0 fields fieldNames action options hasCallback =
      .ok (st1, out)) :
    (∀ cb, out = .done (some cb) →
      (cb.errors = none ↔ ∀ f ∈ fields, skipped options.force f → f.errors = none) ∧
      (∀ g, cb.errors = some g → g ≠ [])) ∧
    (∀ run, out = .pending run →
      ∀ (st st' : FieldsStore) (errors : Option (List ErrRec)) (cb : CallbackArgs),
        complete st run errors = .ok (st', some cb) →
        (cb.errors = none ↔
          (∀ f ∈ fields, skipped options.force f → f.errors = none) ∧
          errors.getD [] = [] ∧
          ∀ x ∈ objKeys run.allRules, (st.getField x).jsValue = run.validated x) ∧
        (∀ g, cb.errors = some g → g ≠ [])) := by
  obtain ⟨snap, h1, h2, h3⟩ := validateFieldsInternal_inv hv
  have hnil := snapshot_loop_errors_nil _ _ _ _ _ h1
  simp only [true_and] at hnil
  have hsome : ∀ (g g' : EProps), errorsOrNull g = some g' → g' ≠ [] := by
    intro g g' h
    have := errorsOrNull_eq_some h
    subst this
    intro e
    subst e
    simp [errorsOrNull, isEmptyObject] at h
  constructor
  · intro cb hcb
    rcases h3 with ⟨_, _, h4⟩ | ⟨_, h4⟩
    · rw [h4] at hcb
      simp only [Outcome.done.injEq, Option.some.injEq] at hcb
      subst hcb
      exact ⟨by rw [errorsOrNull_eq_none_iff, hnil], hsome _⟩
    · rw [h4] at hcb; simp at hcb
  · intro run hrun st st' errors cb hc
    rcases h3 with ⟨_, _, h4⟩ | ⟨_, h4⟩
    · rw [h4] at hrun; simp at hrun
    · rw [h4] at hrun
      simp only [Outcome.pending.injEq] at hrun
      obtain ⟨g, r, hg, hr, _, hcb1, hcb2⟩ := complete_inv hc
      cases hb : run.hasCallback with
      | false => have := hcb2 hb; simp at this
      | true =>
        obtain ⟨g2, hx2, hcbe⟩ := hcb1 hb
        simp only [Option.some.injEq] at hcbe
        obtain ⟨hexp, _, _, _⟩ := reconcile_loop_spec st run.allValues g _ _ _ hr
        simp only [List.nil_append] at hexp
        have hgn := groupErrors_eq_nil (errors.getD []) run.alreadyErrors g hg
        have hae : run.alreadyErrors = snap.alreadyErrors := by rw [← hrun]
        refine ⟨?_, by rw [hcbe]; exact hsome _⟩
        rw [hcbe]
        show errorsOrNull g2 = none ↔ _
        rw [errorsOrNull_eq_none_iff, expire_eq_nil hx2, hgn, hae, hnil, hexp,
          List.filter_eq_nil_iff]
        simp only [Run.validated, decide_eq_true_eq, not_not, and_assoc]

/-- Witness of C6 on the worked run: `x` expired, so the callback gets an errors
object. -/
theorem callback_errors_null_iff_witness :
    (exCallback.errors = none ↔
      (∀ f ∈ [exFieldX, exFieldY], skipped ({} : ValidateOptions).force f → f.errors = none) ∧
      exErrors.getD [] = [] ∧
      ∀ x ∈ objKeys exRun.allRules, (exEdited.getField x).jsValue = exRun.validated x) ∧
    (∀ g, exCallback.errors = some g → g ≠ []) :=
  (callback_errors_null_iff
    (show validateFieldsInternal exStore [exFieldX, exFieldY] none (some "onChange") {} true =
      .ok (exSnapshotStore, .pending exRun) from by rfl)).2 exRun rfl
    exEdited exDone exErrors exCallback (by rfl)

theorem pending_values_keys {st st1 : FieldsStore} {fields : List Field}
    {fieldNames : Option (List String)} {action : Option String} {options : ValidateOptions}
    {hasCallback : Bool} {run : Run}
    (h : validateFieldsInternal st fields fieldNames action options hasCallback =
      .ok (st1, .pending run)) : objKeys run.allValues = objKeys run.allRules := by
  obtain ⟨snap, h1, _, _, _, e3, _, _, _, e7, _⟩ := pending_run h
  obtain ⟨_, _, _, i4, _, _, _⟩ := snapshot_loop_maps _ _ _ _ _ h1
  rw [e7, e3, ← i4 rfl]
  simp [objKeys, List.map_map, Function.comp]

theorem skipped_iff (force : Option Bool) (f : Field) :
    skipped force f ↔ ¬ (force = some true ∨ f.dirty ≠ some false) := by
  unfold skipped
  constructor
  · rintro ⟨a, b⟩ (c | c)
    · exact a c
    · exact c b
  · intro h
    exact ⟨fun c => h (Or.inl c), by_contra fun c => h (Or.inr c)⟩

/-- C4 as stated fails: a field whose dirty flag is absent enters validation in
a run that is not forced. -/
theorem untouched_field_enters_validation :
    validateFieldsInternal exStore [exUntouched] none none {} true =
      .ok ({ fields := [("x", snapshotOf exUntouched), ("y", exFieldY)]
             fieldsMeta := [("x", exMeta), ("y", exMeta)] },
           .pending { alreadyErrors := []
                      allRules := [("x", [{ descr := "required" }])]
                      allValues := [("x", .num 1)]
                      fieldNames := none
                      options := {}
                      hasCallback := true }) ∧
    ¬ (("x" ∈ objKeys [("x", [({ descr := "required" } : Rule)])]) ↔
      (({} : ValidateOptions).force = some true ∨ exUntouched.dirty = some true)) := by
  constructor
  · rfl
  · decide

/-- C4, amended. In a run of `validateFieldsInternal` over prefix-free names, a
field enters validation (its name gets a rule set and a snapshot value) if and
only if the run is forced or the field's dirty flag is not `false` (it is `true`
or absent).  A skipped field is written neither by the snapshot commit nor by
the completion handler, and when it carries errors the node `{errors: ...}` with
those errors stands at its dotted path in the errors structure of either
callback site.  The statements about the completion handler are for a validator
that reports only fields it was given. -/
theorem skipped_fields_are_preserved {st0 st1 : FieldsStore} {fields : List Field}
    {fieldNames : Option (List String)} {action : Option String} {options : ValidateOptions}
    {hasCallback : Bool} {out : Outcome}
    (hv : validateFieldsInternal st0 fields fieldNames action options hasCallback =
      .ok (st1, out))
    (hpf : PrefixFree (fields.map Field.name)) (f : Field) (hf : f ∈ fields) :
    ((∀ run, out = .pending run →
        ((f.name ∈ objKeys run.allRules ∧ f.name ∈ objKeys run.allValues) ↔
          (options.force = some true ∨ f.dirty ≠ some false))) ∧
      (∀ cb, out = .done cb → ¬ (options.force = some true ∨ f.dirty ≠ some false))) ∧
    (¬ (options.force = some true ∨ f.dirty ≠ some false) →
      objGet f.name st1.fields = objGet f.name st0.fields ∧
      (∀ run, out = .pending run →
        ∀ (st st' : FieldsStore) (errors : Option (List ErrRec)) (cb : Option CallbackArgs),
          (∀ r ∈ errors.getD [], r.field ∈ objKeys run.allRules) →
          complete st run errors = .ok (st', cb) →
          objGet f.name st'.fields = objGet f.name st.fields) ∧
      ∀ e, f.errors = some e →
        (∀ cb, out = .done (some cb) →
          ∃ g, cb.errors = some g ∧
            getE g (toPath f.name) = .ok (some (.obj [("errors", e)]))) ∧
        (∀ run, out = .pending run →
          ∀ (st st' : FieldsStore) (errors : Option (List ErrRec)) (cb : CallbackArgs),
            (∀ r ∈ errors.getD [], r.field ∈ objKeys run.allRules) →
            complete st run errors = .ok (st', some cb) →
            ∃ g2, cb.errors = some g2 ∧
              getE g2 (toPath f.name) = .ok (some (.obj [("errors", e)])))) := by
  have hnd := prefixFree_nodup hpf
  obtain ⟨snap, h1, h2, h3⟩ := validateFieldsInternal_inv hv
  obtain ⟨i1, _, _, _, _, i6, i7⟩ := snapshot_loop_maps _ _ _ _ _ h1
  have hsame : ∀ f' ∈ fields, f'.name = f.name → f' = f :=
    fun f' hf' hn => List.inj_on_of_nodup_map hnd hf' hf hn
  have hkey : ∀ run, out = .pending run →
      (f.name ∈ objKeys run.allRules ↔ ¬ skipped options.force f) := by
    intro run hrun
    subst hrun
    obtain ⟨_, _, _, _, _, _, _, _, _, _, e8⟩ := pending_run hv
    rw [e8]
    constructor
    · rintro ⟨f', hf', hn, hns⟩
      exact (hsame f' hf' hn) ▸ hns
    · intro hns
      exact ⟨f, hf, rfl, hns⟩
  refine ⟨⟨?_, ?_⟩, ?_⟩
  · intro run hrun
    have hvk : objKeys run.allValues = objKeys run.allRules := by
      subst hrun
      exact pending_values_keys hv
    have hk := hkey run hrun
    have hsk := skipped_iff options.force f
    rw [hvk]
    constructor
    · rintro ⟨a, _⟩
      by_contra hno
      exact hk.1 a (hsk.2 hno)
    · intro hyes
      have hns : ¬ skipped options.force f := fun hs => hsk.1 hs hyes
      exact ⟨hk.2 hns, hk.2 hns⟩
  · intro cb hcb
    rw [← skipped_iff]
    rcases h3 with ⟨_, hemp, _⟩ | ⟨_, h4⟩
    · by_contra hns
      have := (i7 f.name).2 (Or.inr ⟨f, hf, rfl, hns⟩)
      rw [hemp] at this
      simp [objKeys] at this
    · rw [h4] at hcb; simp at hcb
  · intro hsk
    rw [← skipped_iff] at hsk
    have hun := snapshot_loop_untouched _ _ _ f.name _ _ h1
      (fun f' hf' hn => (hsame f' hf' hn) ▸ hsk)
    refine ⟨?_, ?_, ?_⟩
    · rw [h2, setFields_objGet _ _ _ (i6 (by simp [objKeys])), hun.1, i1]
      by_cases hreg : (objGet f.name snap.store.fieldsMeta).isSome <;> simp [hreg, objGet]
    · intro run hrun st st' errors cb _ hc
      obtain ⟨g, r, _, hr, hst, _, _⟩ := complete_inv hc
      obtain ⟨_, r2, _, r4⟩ := reconcile_loop_spec st run.allValues g _ _ _ hr
      have hnk : f.name ∉ objKeys run.allRules := fun hk => (hkey run hrun).1 hk hsk
      have hnone : objGet f.name r.nowAllFields = none := by
        rw [r2 f.name (Or.inl hnk)]
        rfl
      rw [hst, setFields_objGet st r.nowAllFields f.name (r4 (by simp [objKeys])), hnone]
      by_cases hreg : (objGet f.name st.fieldsMeta).isSome <;> simp [hreg]
    · intro e he
      constructor
      · intro cb hcb
        rcases h3 with ⟨_, _, h4⟩ | ⟨_, h4⟩
        · rw [h4] at hcb
          simp only [Outcome.done.injEq, Option.some.injEq] at hcb
          subst hcb
          have hnode := snapshot_loop_errors_self _ _ _ _ _ f e h1 hpf hf hsk he
          exact ⟨snap.alreadyErrors,
            errorsOrNull_of_ne_nil (ne_nil_of_getE_some (toPath_ne_nil _) hnode), hnode⟩
        · rw [h4] at hcb; simp at hcb
      · intro run hrun st st' errors cb hrec hc
        subst hrun
        obtain ⟨g, r, g2, hg, hr, hx2, _, _, _, h7⟩ := complete_spec hv hpf st errors hrec
        have heq := complete_eq hg hr hx2
        rw [hc] at heq
        have hnode : getE g2 (toPath f.name) = .ok (some (.obj [("errors", e)])) := by
          rw [h7 f hf hsk, he]
          rfl
        refine ⟨g2, ?_, hnode⟩
        cases hb : run.hasCallback with
        | false => rw [hb] at heq; simp at heq
        | true =>
          rw [hb] at heq
          simp only [if_true, Except.ok.injEq, Prod.mk.injEq, Option.some.injEq] at heq
          rw [heq.2]
          exact errorsOrNull_of_ne_nil (ne_nil_of_getE_some (toPath_ne_nil _) hnode)

/-- Witness of the amended C4 on the second worked run, for the skipped field
`z.w`. -/
theorem skipped_fields_are_preserved_witness :
    ((∀ run, Outcome.pending exRun2 = .pending run →
        ((exFieldZ.name ∈ objKeys run.allRules ∧ exFieldZ.name ∈ objKeys run.allValues) ↔
          (({} : ValidateOptions).force = some true ∨ exFieldZ.dirty ≠ some false))) ∧
      (∀ cb, Outcome.pending exRun2 = .done cb →
        ¬ (({} : ValidateOptions).force = some true ∨ exFieldZ.dirty ≠ some false))) ∧
    (¬ (({} : ValidateOptions).force = some true ∨ exFieldZ.dirty ≠ some false) →
      objGet exFieldZ.name exSnapshotStore2.fields = objGet exFieldZ.name exStore2.fields ∧
      (∀ run, Outcome.pending exRun2 = .pending run →
        ∀ (st st' : FieldsStore) (errors : Option (List ErrRec)) (cb : Option CallbackArgs),
          (∀ r ∈ errors.getD [], r.field ∈ objKeys run.allRules) →
          complete st run errors = .ok (st', cb) →
          objGet exFieldZ.name st'.fields = objGet exFieldZ.name st.fields) ∧
      ∀ e, exFieldZ.errors = some e →
        (∀ cb, Outcome.pending exRun2 = .done (some cb) →
          ∃ g, cb.errors = some g ∧
            getE g (toPath exFieldZ.name) = .ok (some (.obj [("errors", e)]))) ∧
        (∀ run, Outcome.pending exRun2 = .pending run →
          ∀ (st st' : FieldsStore) (errors : Option (List ErrRec)) (cb : CallbackArgs),
            (∀ r ∈ errors.getD [], r.field ∈ objKeys run.allRules) →
            complete st run errors = .ok (st', some cb) →
            ∃ g2, cb.errors = some g2 ∧
              getE g2 (toPath exFieldZ.name) = .ok (some (.obj [("errors", e)])))) :=
  skipped_fields_are_preserved
    (show validateFieldsInternal exStore2 [exFieldX, exFieldZ] none (some "onChange") {} true =
      .ok (exSnapshotStore2, .pending exRun2) from by rfl)
    (show PrefixFree ([exFieldX, exFieldZ].map Field.name) from by decide)
    exFieldZ (by simp)

/-- The prior errors of a skipped field are lost when the names collide: `a.b`
is skipped with an error of an earlier validation, `a` is validated and edited
while the validator runs; the expired node of `a` replaces the object that held
the errors of `a.b`. -/
theorem skipped_errors_lost_under_prefix :
    ∃ st1 run st' cb g2,
      validateFieldsInternal exStoreSkipped [exSkippedAB, exFieldA] none (some "onChange") {}
        true = .ok (st1, .pending run) ∧
      getE run.alreadyErrors (toPath "a.b") = .ok (some (.obj
        [("errors", .errs [{ message := "a.b is required", field := "a.b" }])])) ∧
      complete exEditedSkipped run none = .ok (st', some cb) ∧
      cb.errors = some g2 ∧
      getE g2 (toPath "a.b") = .ok none :=
  ⟨_, _, _, _, _, rfl, rfl, rfl, rfl, rfl⟩

/-- C10. For a run with a callback over prefix-free names and a validator result
that names only validated fields, the completion handler ends and calls back
with `null` for an empty and else the errors structure, in which every
validated name that did not expire has
the node `{errors: records}` of exactly the records naming it, in the
validator's order (no node when there is no such record), and every skipped
field has the node `{errors: ...}` of its prior errors (no node when it had
none). -/
theorem aggregated_errors_by_field {st0 st1 : FieldsStore} {fields : List Field}
    {fieldNames : Option (List String)} {action : Option String} {options : ValidateOptions}
    {run : Run}
    (hv : validateFieldsInternal st0 fields fieldNames action options true =
      .ok (st1, .pending run))
    (hpf : PrefixFree (fields.map Field.name)) (st : FieldsStore)
    (errors : Option (List ErrRec))
    (hrec : ∀ e ∈ errors.getD [], e.field ∈ objKeys run.allRules) :
    ∃ st' g2 values,
      complete st run errors =
        .ok (st', some { errors := errorsOrNull g2, values := values }) ∧
      (∀ x ∈ objKeys run.allRules, (st.getField x).jsValue = run.validated x →
        getE g2 (toPath x) = .ok
          (if recordsFor x (errors.getD []) = [] then none
           else some (.obj [("errors", .errs (recordsFor x (errors.getD [])))]))) ∧
      (∀ f ∈ fields, skipped options.force f →
        getE g2 (toPath f.name) = .ok (f.errors.map (fun e => .obj [("errors", e)]))) := by
  obtain ⟨g, r, g2, hg, hr, hx2, _, _, h6, h7⟩ := complete_spec hv hpf st errors hrec
  obtain ⟨_, _, _, _, _, _, ecb, _, _, _, _⟩ := pending_run hv
  refine ⟨setFields st r.nowAllFields, g2,
    (setFields st r.nowAllFields).getFieldsValue run.fieldNames, ?_, ?_, ?_⟩
  · rw [complete_eq hg hr hx2, ecb]
    simp only [if_true]
  · intro x hx hs
    rw [h6 x hx hs]
    rfl
  · intro f hf hs
    rw [h7 f hf hs]
    rfl

/-- Witness of C10 on the second worked run: two records for `x`, prior errors
at `z.w`. -/
theorem aggregated_errors_by_field_witness :
    ∃ st' g2 values,
      complete exSnapshotStore2 exRun2 exErrors2 =
        .ok (st', some { errors := errorsOrNull g2, values := values }) ∧
      (∀ x ∈ objKeys exRun2.allRules,
        (exSnapshotStore2.getField x).jsValue = exRun2.validated x →
        getE g2 (toPath x) = .ok
          (if recordsFor x (exErrors2.getD []) = [] then none
           else some (.obj [("errors", .errs (recordsFor x (exErrors2.getD [])))]))) ∧
      (∀ f ∈ [exFieldX, exFieldZ], skipped ({} : ValidateOptions).force f →
        getE g2 (toPath f.name) = .ok (f.errors.map (fun e => .obj [("errors", e)]))) :=
  aggregated_errors_by_field
    (show validateFieldsInternal exStore2 [exFieldX, exFieldZ] none (some "onChange") {} true =
      .ok (exSnapshotStore2, .pending exRun2) from by rfl)
    (show PrefixFree ([exFieldX, exFieldZ].map Field.name) from by decide)
    exSnapshotStore2 exErrors2 (by decide)

theorem flattenArray_eq {α : Type} (xs : List (List α)) (init : List α) :
    xs.foldl (fun acc x => acc ++ x) init = init ++ xs.flatten := by
  induction xs generalizing init with
  | nil => simp
  | cons x rest ih => simp [ih]

theorem rulesOfEntries_none (items : List ValidateItem) :
    rulesOfEntries none items = (items.map (fun item => item.rules)).flatten := by
  induction items with
  | nil => rfl
  | cons item rest ih => simp [rulesOfEntries, ih]

theorem rulesOfEntries_some (a : String) (items : List ValidateItem) :
    rulesOfEntries (some a) items =
      ((items.filter (fun item => item.trigger.contains a)).map
        (fun item => item.rules)).flatten := by
  induction items with
  | nil => rfl
  | cons item rest ih =>
    by_cases h : a ∈ item.trigger
    · simp [rulesOfEntries, List.filter_cons, h, ih]
    · simp [rulesOfEntries, List.filter_cons, h, ih]

/-- C9. `getRules(fieldMeta, action)` returns, in metadata order, the
concatenation of the rule lists of exactly the entries of `fieldMeta.validate`
whose trigger set contains `action`, and of all entries when no action is given;
an empty action string is no action (`!action`). -/
theorem getRules_selects_by_trigger (fieldMeta : FieldMeta) (items : List ValidateItem)
    (action : Option String) :
    getRules { fieldMeta with validate := some items } action =
      .ok (rulesOfEntries (if action = some "" then none else action) items) := by
  unfold getRules flattenArray
  simp only
  rw [flattenArray_eq]
  cases action with
  | none => simp [actionFalsy, rulesOfEntries_none]
  | some a =>
    by_cases ha : a = ""
    · subst ha
      simp [actionFalsy, rulesOfEntries_none]
    · have hb : (a == "") = false := by simp [ha]
      simp [actionFalsy, ha, hb, rulesOfEntries_some]

theorem mem_objKeys_iff_isSome {α : Type} (k : String) (o : List (String × α)) :
    k ∈ objKeys o ↔ (objGet k o).isSome := by
  rw [← not_iff_not, ← objGet_eq_none_iff]
  cases objGet k o <;> simp

theorem registered_of_target (st : FieldsStore) (names : Option (List String)) (name : String)
    (h : name ∈ targetNames st names) : ∃ m, objGet name st.fieldsMeta = some m := by
  have hv : name ∈ st.getValidFieldsName := by
    cases names with
    | none => exact h
    | some ns => exact (List.mem_filter.1 h).1
  unfold FieldsStore.getValidFieldsName objKeys at hv
  obtain ⟨kv, hkv, hk⟩ := List.mem_map.1 hv
  have hmem : name ∈ objKeys st.fieldsMeta :=
    List.mem_map.2 ⟨kv, (List.mem_filter.1 hkv).1, hk⟩
  exact Option.isSome_iff_exists.1 ((mem_objKeys_iff_isSome _ _).1 hmem)

theorem ruledNames_of_no_rules (st : FieldsStore) (l : List String) :
    ∀ (acc : List String),
      (∀ name ∈ l, ∃ m, objGet name st.fieldsMeta = some m ∧ hasRules m.validate = false) →
      l.foldl
        (fun acc name =>
          ((acc.1.getFieldMeta name).2,
            if hasRules (acc.1.getFieldMeta name).1.validate then acc.2 ++ [name] else acc.2))
        (st, acc) = (st, acc) := by
  induction l with
  | nil => intro acc _; rfl
  | cons name rest ih =>
    intro acc h
    obtain ⟨m, hm, hr⟩ := h name (List.mem_cons_self _ _)
    simp only [List.foldl_cons, getFieldMeta_of_registered st name m hm, hr]
    exact ih acc (fun n hn => h n (List.mem_cons_of_mem _ hn))

/-- C7 as stated fails: with one registered field that has a value and no rule,
the callback gets the value mapping `{a: 1}`, not `{}`. -/
theorem validateFields_without_rules_passes_values :
    (∀ name ∈ targetNames exPlain none,
      hasRules (exPlain.getFieldMeta name).1.validate = false) ∧
    validateFields exPlain none {} true =
      .ok (exPlain, .done (some { errors := none, values := [("a", .leaf (.num 1))] })) ∧
    ([("a", ValTree.leaf (.num 1))] : VProps) ≠ [] := by
  refine ⟨by decide, by rfl, by simp⟩

/-- C7, amended. When no target field has rules, `validateFields` with a
callback returns without starting the rule validator and without changing the
store, having called the callback once with `null` and the nested mapping of the
current values of the target names, which is `{}` when there is no target name. -/
theorem validateFields_without_rules (st : FieldsStore) (names : Option (List String))
    (options : ValidateOptions)
    (h : ∀ name ∈ targetNames st names, hasRules (st.getFieldMeta name).1.validate = false) :
    validateFields st names options true =
      .ok (st, .done (some
        { errors := none, values := st.getFieldsValue (some (targetNames st names)) })) ∧
    (targetNames st names = [] →
      st.getFieldsValue (some (targetNames st names)) = []) := by
  have hr : ruledNames st (targetNames st names) = (st, []) := by
    apply ruledNames_of_no_rules
    intro name hn
    obtain ⟨m, hm⟩ := registered_of_target st names name hn
    refine ⟨m, hm, ?_⟩
    have := h name hn
    rw [getFieldMeta_of_registered st name m hm] at this
    exact this
  constructor
  · unfold validateFields
    simp only [hr]
    simp
  · intro he
    rw [he]
    rfl

/-- Witness of the amended C7 on the store with the single rule-less field `a`. -/
theorem validateFields_without_rules_witness :
    validateFields exPlain none {} true =
      .ok (exPlain, .done (some
        { errors := none, values := exPlain.getFieldsValue (some (targetNames exPlain none)) })) ∧
    (targetNames exPlain none = [] →
      exPlain.getFieldsValue (some (targetNames exPlain none)) = []) :=
  validateFields_without_rules exPlain none {} (by decide)

/-- C8 fails on the code: `a` is registered with a rule, then registered again
with an empty rule list; the `onChange` prop of the second registration is the
cached validating handler of the first, and calling it writes `a` to the store
with `validating = true` although `a` now carries zero rules. -/
theorem rebound_trigger_validates_ruleless_field :
    ∃ props1 form1 props2 form2 h form3 run,
      getFieldProps {} {} "a" { rules := some [{ descr := "required" }] } = .ok (props1, form1) ∧
      getFieldProps {} form1 "a" { rules := some [] } = .ok (props2, form2) ∧
      hasRules ((objGet "a" form2.fieldsStore.fieldsMeta).bind FieldMeta.validate) = false ∧
      objGet "onChange" props2 = some (.handler h) ∧
      h.fn = .onCollectValidate ∧
      invokeHandler form2 h (.str "v") = .ok (form3, .pending run) ∧
      run.allRules = [("a", [])] ∧
      (form3.fieldsStore.getField "a").validating = some true :=
  ⟨_, _, _, _, _, _, _, rfl, rfl, rfl, rfl, rfl, rfl, rfl, rfl⟩

/-! ## Detachment and recovery -/

theorem objGet_objDel_self {α : Type} (k : String) (o : List (String × α)) :
    objGet k (objDel k o) = none := by
  induction o with
  | nil => rfl
  | cons kv rest ih =>
    obtain ⟨k', v'⟩ := kv
    by_cases h : k' = k
    · simp [objDel, h, ih]
    · simp [objDel, objGet, h, ih]

theorem objGet_objDel_ne {α : Type} {k k' : String} (h : k' ≠ k) (o : List (String × α)) :
    objGet k' (objDel k o) = objGet k' o := by
  induction o with
  | nil => rfl
  | cons kv rest ih =>
    obtain ⟨k2, v2⟩ := kv
    by_cases h2 : k2 = k
    · subst h2
      have h3 : ¬ k2 = k' := fun e => h e.symm
      simp [objDel, objGet, h3, ih]
    · by_cases h3 : k2 = k'
      · subst h3
        simp [objDel, objGet, h2]
      · simp [objDel, objGet, h2, h3, ih]

theorem getField_name (st : FieldsStore) (name : String) : (st.getField name).name = name := by
  unfold FieldsStore.getField
  cases objGet name st.fields <;> rfl

theorem getField_of_objGet {st : FieldsStore} {name : String} {f : Field}
    (h : objGet name st.fields = some f) (hn : f.name = name) : st.getField name = f := by
  unfold FieldsStore.getField
  rw [h]
  cases f
  simp only at hn
  subst hn
  rfl

theorem getFieldMeta_other (st : FieldsStore) {name other : String} (h : other ≠ name) :
    objGet other (st.getFieldMeta name).2.fieldsMeta = objGet other st.fieldsMeta := by
  unfold FieldsStore.getFieldMeta
  cases objGet name st.fieldsMeta with
  | none => exact objGet_objSet_ne h _ _
  | some m => rfl

theorem saveRef_null_eq (form : Form) (name : String) :
    saveRef form name none =
      .ok { form with
            clearedFieldMetaCache :=
              objSet name (form.fieldsStore.getField name, (form.fieldsStore.getFieldMeta name).1)
                form.clearedFieldMetaCache
            fieldsStore := (form.fieldsStore.getFieldMeta name).2.clearField name
            instances := objDel name form.instances
            cachedBind := objDel name form.cachedBind } := rfl

/-- C11. Round trip of detach and re-attach: after `saveRef(name, null)` on a
registered name and a later `saveRef(name, component)` that finds the cache entry
of the detachment still in place (nothing else was done to that name), the store
holds for `name` the field state (every attribute) and the metadata it held
before the detachment, and the cleared-field cache has no entry for `name`. -/
theorem detach_reattach_round_trip (form form1 mid form2 : Form) (name c : String)
    (m : FieldMeta) (hreg : objGet name form.fieldsStore.fieldsMeta = some m)
    (h1 : saveRef form name none = .ok form1)
    (hmid : objGet name mid.clearedFieldMetaCache = objGet name form1.clearedFieldMetaCache)
    (h2 : saveRef mid name (some c) = .ok form2) :
    form2.fieldsStore.getField name = form.fieldsStore.getField name ∧
    objGet name form2.fieldsStore.fields = some (form.fieldsStore.getField name) ∧
    objGet name form2.fieldsStore.fieldsMeta = some m ∧
    objGet name form2.clearedFieldMetaCache = none ∧
    objGet name form2.instances = some c := by
  rw [saveRef_null_eq] at h1
  simp only [Except.ok.injEq] at h1
  subst h1
  simp only [objGet_objSet_self, getFieldMeta_of_registered _ _ _ hreg] at hmid
  have hrec : recoverClearedField mid name =
      { mid with
        fieldsStore := (mid.fieldsStore.setFields
          [(name, form.fieldsStore.getField name)]).setFieldMeta name m
        clearedFieldMetaCache := objDel name mid.clearedFieldMetaCache } := by
    simp only [recoverClearedField, hmid]
  have hmeta : objGet name (recoverClearedField mid name).fieldsStore.fieldsMeta = some m := by
    rw [hrec]
    exact objGet_objSet_self _ _ _
  have hfield : objGet name (recoverClearedField mid name).fieldsStore.fields =
      some (form.fieldsStore.getField name) := by
    rw [hrec]
    exact objGet_objSet_self _ _ _
  have hcache : objGet name (recoverClearedField mid name).clearedFieldMetaCache = none := by
    rw [hrec]
    exact objGet_objDel_self _ _
  simp only [saveRef, getFieldMeta_of_registered _ _ _ hmeta] at h2
  have hform2 : form2 = { recoverClearedField mid name with
      instances := objSet name c (recoverClearedField mid name).instances } := by
    cases hr : m.ref with
    | none =>
      rw [hr] at h2
      simp only [Except.ok.injEq] at h2
      exact h2.symm
    | some r =>
      rw [hr] at h2
      cases r with
      | named s => simp at h2
      | callback =>
        simp only [Except.ok.injEq] at h2
        exact h2.symm
  subst hform2
  refine ⟨getField_of_objGet hfield (getField_name _ _), hfield, hmeta, hcache, ?_⟩
  exact objGet_objSet_self _ _ _

/-- Witness of C11: `z.w`, with a value, a lowered dirty flag and an error, is
detached and attached again. -/
theorem detach_reattach_round_trip_witness :
    exReattached.fieldsStore.getField "z.w" = exForm.fieldsStore.getField "z.w" ∧
    objGet "z.w" exReattached.fieldsStore.fields = some (exForm.fieldsStore.getField "z.w") ∧
    objGet "z.w" exReattached.fieldsStore.fieldsMeta = some exMeta ∧
    objGet "z.w" exReattached.clearedFieldMetaCache = none ∧
    objGet "z.w" exReattached.instances = some "input-2" :=
  detach_reattach_round_trip exForm exDetached exDetached exReattached "z.w" "input-2" exMeta
    (by rfl) (by rfl) rfl (by rfl)

/-- C12. The call `saveRef(name, null)` returns normally; it stores under `name`
in the cleared-field cache the pair of the field and the metadata that the store
held for `name` just before, removes `name` from both maps of the store, from
the instances and from the handler cache, and leaves every other name's cache
entry, instance, handler bindings, field state and metadata as they were. -/
theorem saveRef_null_effects (form : Form) (name : String) :
    ∃ form', saveRef form name none = .ok form' ∧
      objGet name form'.clearedFieldMetaCache =
        some (form.fieldsStore.getField name, (form.fieldsStore.getFieldMeta name).1) ∧
      objGet name form'.fieldsStore.fields = none ∧
      objGet name form'.fieldsStore.fieldsMeta = none ∧
      objGet name form'.instances = none ∧
      objGet name form'.cachedBind = none ∧
      ∀ other, other ≠ name →
        objGet other form'.clearedFieldMetaCache = objGet other form.clearedFieldMetaCache ∧
        objGet other form'.fieldsStore.fields = objGet other form.fieldsStore.fields ∧
        objGet other form'.fieldsStore.fieldsMeta = objGet other form.fieldsStore.fieldsMeta ∧
        objGet other form'.instances = objGet other form.instances ∧
        objGet other form'.cachedBind = objGet other form.cachedBind := by
  refine ⟨_, saveRef_null_eq form name, objGet_objSet_self _ _ _, ?_, ?_, ?_, ?_, ?_⟩
  · exact objGet_objDel_self _ _
  · exact objGet_objDel_self _ _
  · exact objGet_objDel_self _ _
  · exact objGet_objDel_self _ _
  · intro other hne
    refine ⟨objGet_objSet_ne hne _ _, ?_, ?_, objGet_objDel_ne hne _, objGet_objDel_ne hne _⟩
    · show objGet other (objDel name (form.fieldsStore.getFieldMeta name).2.fields) = _
      rw [objGet_objDel_ne hne, getFieldMeta_fields]
    · show objGet other (objDel name (form.fieldsStore.getFieldMeta name).2.fieldsMeta) = _
      rw [objGet_objDel_ne hne, getFieldMeta_other _ hne]

/-- C13 fails on the code: `a` is registered, detached, and then the `onChange`
handler that the registration returned is called.  `onCollectCommon` creates
metadata for `a` and `onCollect` writes its field state, while the cleared-field
cache still holds the entry of the detachment. -/
theorem stale_handler_revives_detached_field :
    ∃ props form1 h form2 form3,
      getFieldProps {} {} "a" {} = .ok (props, form1) ∧
      objGet "onChange" props = some (.handler h) ∧
      saveRef form1 "a" none = .ok form2 ∧
      (objGet "a" form2.clearedFieldMetaCache).isSome = true ∧
      objGet "a" form2.fieldsStore.fieldsMeta = none ∧
      invokeHandler form2 h (.str "v") = .ok (form3, .done none) ∧
      (objGet "a" form3.clearedFieldMetaCache).isSome = true ∧
      (objGet "a" form3.fieldsStore.fieldsMeta).isSome = true ∧
      (objGet "a" form3.fieldsStore.fields).isSome = true :=
  ⟨_, _, _, _, _, rfl, rfl, rfl, rfl, rfl, rfl, rfl, rfl, rfl⟩

/-! ## Reset -/

theorem objGet_foldl_objSet_names {α : Type} (f : String → α) (k : String)
    (names : List String) :
    ∀ (init : List (String × α)),
      objGet k (names.foldl (fun acc name => objSet name (f name) acc) init) =
        if k ∈ names then some (f k) else objGet k init := by
  induction names with
  | nil => intro init; rfl
  | cons n rest ih =>
    intro init
    simp only [List.foldl_cons]
    rw [ih]
    by_cases hk : k ∈ rest
    · simp [hk]
    · by_cases hn : k = n
      · subst hn
        simp [hk, objGet_objSet_self]
      · simp [hk, hn, objGet_objSet_ne hn]

theorem objKeys_foldl_objSet_names_nodup {α : Type} (f : String → α) (names : List String) :
    ∀ (init : List (String × α)), (objKeys init).Nodup →
      (objKeys (names.foldl (fun acc name => objSet name (f name) acc) init)).Nodup := by
  induction names with
  | nil => intro init h; exact h
  | cons n rest ih =>
    intro init h
    exact ih _ (objKeys_objSet_nodup _ _ h)

theorem objGet_foldl_objDel {α : Type} (k : String) (names : List String) :
    ∀ (cache : List (String × α)),
      objGet k (names.foldl (fun cache name => objDel name cache) cache) =
        if k ∈ names then none else objGet k cache := by
  induction names with
  | nil => intro cache; rfl
  | cons n rest ih =>
    intro cache
    simp only [List.foldl_cons]
    rw [ih]
    by_cases hk : k ∈ rest
    · simp [hk]
    · by_cases hn : k = n
      · subst hn
        simp [hk, objGet_objDel_self]
      · simp [hk, hn, objGet_objDel_ne hn]

theorem setFields_nil (st : FieldsStore) : setFields st [] = st := rfl

theorem resetFields_payload (st : FieldsStore) (name : String) :
    objGet name (st.resetFields none) =
      (objGet name st.fieldsMeta).map
        (fun m => ({ name := name, value := m.initialValue } : Field)) := by
  unfold FieldsStore.resetFields
  rw [objGet_foldl_objSet_names
    (fun name => ({ name := name
                    value := (objGet name st.fieldsMeta).bind FieldMeta.initialValue } : Field))]
  cases hm : objGet name st.fieldsMeta with
  | none =>
    have : name ∉ objKeys st.fieldsMeta := (objGet_eq_none_iff _ _).1 hm
    simp [List.mem_filter, this, objGet]
  | some m =>
    have : name ∈ objKeys st.fieldsMeta := by
      rw [mem_objKeys_iff_isSome, hm]; rfl
    simp [List.mem_filter, this, hm, objGet]

/-- C14. The call `resetFields()` writes to the store the reset payload of all
registered names, so that every registered field's state becomes the record
holding only its declared initial value (no value when none is declared), the
metadata and the state of unregistered names being untouched, and it leaves the
cleared-field cache empty.  The call `resetFields(names)` leaves in the cache
exactly the entries of the names not given. -/
theorem resetFields_effects (form : Form) :
    ((resetFields form none).fieldsStore =
        setFields form.fieldsStore (form.fieldsStore.resetFields none) ∧
      (∀ name m, objGet name form.fieldsStore.fieldsMeta = some m →
        objGet name (resetFields form none).fieldsStore.fields =
          some { name := name, value := m.initialValue }) ∧
      (∀ name, objGet name form.fieldsStore.fieldsMeta = none →
        objGet name (resetFields form none).fieldsStore.fields =
          objGet name form.fieldsStore.fields) ∧
      (resetFields form none).fieldsStore.fieldsMeta = form.fieldsStore.fieldsMeta ∧
      (resetFields form none).clearedFieldMetaCache = []) ∧
    (∀ names name,
      objGet name (resetFields form (some names)).clearedFieldMetaCache =
        if name ∈ names then none else objGet name form.clearedFieldMetaCache) := by
  have hstore : (resetFields form none).fieldsStore =
      setFields form.fieldsStore (form.fieldsStore.resetFields none) := by
    unfold resetFields
    simp only
    by_cases hlen : (form.fieldsStore.resetFields none).length > 0
    · rw [if_pos hlen]
    · rw [if_neg hlen]
      have : form.fieldsStore.resetFields none = [] := by
        cases hp : form.fieldsStore.resetFields none with
        | nil => rfl
        | cons a b => rw [hp] at hlen; simp at hlen
      rw [this]
      rfl
  have hnd : (objKeys (form.fieldsStore.resetFields none)).Nodup := by
    unfold FieldsStore.resetFields
    exact objKeys_foldl_objSet_names_nodup _ _ _ (by simp [objKeys])
  refine ⟨⟨hstore, ?_, ?_, ?_, rfl⟩, ?_⟩
  · intro name m hm
    rw [hstore, setFields_objGet _ _ _ hnd, resetFields_payload, hm]
    rfl
  · intro name hm
    rw [hstore, setFields_objGet _ _ _ hnd, hm]
    rfl
  · rw [hstore]
    rfl
  · intro names name
    exact objGet_foldl_objDel name names _

/-! ## The handler cache -/

theorem getCacheBind_hit {form : Form} {name action : String} {h : Handler}
    (hc : cachedHandler form name action = some h) (fn : HandlerFn) :
    getCacheBind form name action fn = (h, form) := by
  unfold cachedHandler at hc
  cases hn : objGet name form.cachedBind with
  | none => rw [hn] at hc; simp at hc
  | some cache =>
    rw [hn] at hc
    change objGet action cache = some h at hc
    simp only [getCacheBind, hn, Option.getD_some, hc]

theorem getCacheBind_cached (form : Form) (name action : String) (fn : HandlerFn) :
    cachedHandler (getCacheBind form name action fn).2 name action =
      some (getCacheBind form name action fn).1 := by
  cases hc : cachedHandler form name action with
  | some h => rw [getCacheBind_hit hc]; exact hc
  | none =>
    unfold cachedHandler at hc
    cases hn : objGet name form.cachedBind with
    | none =>
      simp [getCacheBind, cachedHandler, hn, objGet_objSet_self, objGet]
    | some cache =>
      rw [hn] at hc
      change objGet action cache = none at hc
      simp [getCacheBind, cachedHandler, hn, hc, objGet_objSet_self]

theorem getCacheBind_keeps (form : Form) (name action : String) (fn : HandlerFn)
    {n a : String} {h : Handler} (hc : cachedHandler form n a = some h) :
    cachedHandler (getCacheBind form name action fn).2 n a = some h := by
  cases hc2 : cachedHandler form name action with
  | some h2 => rw [getCacheBind_hit hc2]; exact hc
  | none =>
    by_cases hnn : n = name
    · subst hnn
      have hna : a ≠ action := by
        intro e; subst e; rw [hc] at hc2; simp at hc2
      unfold cachedHandler at hc hc2 ⊢
      cases hn : objGet n form.cachedBind with
      | none => rw [hn] at hc; simp at hc
      | some cache =>
        rw [hn] at hc hc2
        change objGet a cache = some h at hc
        change objGet action cache = none at hc2
        simp [getCacheBind, hn, hc2, objGet_objSet_self, objGet_objSet_ne hna, hc]
    · unfold cachedHandler at hc hc2 ⊢
      cases hn : objGet name form.cachedBind with
      | none =>
        simp only [getCacheBind, hn, objGet_objSet_self, Option.getD_some, objGet]
        rw [objGet_objSet_ne hnn, objGet_objSet_ne hnn]
        exact hc
      | some cache =>
        rw [hn] at hc2
        change objGet action cache = none at hc2
        simp only [getCacheBind, hn, Option.getD_some, hc2]
        rw [objGet_objSet_ne hnn]
        exact hc

theorem getCacheBind_store (form : Form) (name action : String) (fn : HandlerFn) :
    (getCacheBind form name action fn).2.fieldsStore = form.fieldsStore ∧
    (getCacheBind form name action fn).2.clearedFieldMetaCache = form.clearedFieldMetaCache ∧
    (getCacheBind form name action fn).2.instances = form.instances := by
  unfold getCacheBind
  simp only
  split <;> exact ⟨rfl, rfl, rfl⟩

theorem handlersCached_objSet_bound {name : String} {props : List (String × PropVal)}
    {form : Form} (hinv : HandlersCached name props form) (action : String) (fn : HandlerFn) :
    HandlersCached name
      (objSet action (.handler (getCacheBind form name action fn).1) props)
      (getCacheBind form name action fn).2 := by
  intro k h hk hget
  by_cases hka : k = action
  · subst hka
    rw [objGet_objSet_self] at hget
    simp only [Option.some.injEq, PropVal.handler.injEq] at hget
    subst hget
    exact getCacheBind_cached _ _ _ _
  · rw [objGet_objSet_ne hka] at hget
    exact getCacheBind_keeps _ _ _ _ (hinv k h hk hget)

theorem handlersCached_objSet_other {name : String} {props : List (String × PropVal)}
    {form : Form} (hinv : HandlersCached name props form) (p : String) (v : PropVal)
    (hv : ∀ h, v ≠ .handler h) : HandlersCached name (objSet p v props) form := by
  intro k h hk hget
  by_cases hkp : k = p
  · subst hkp
    rw [objGet_objSet_self] at hget
    simp only [Option.some.injEq] at hget
    exact absurd hget (hv h)
  · rw [objGet_objSet_ne hkp] at hget
    exact hinv k h hk hget

theorem bindValidateTriggers_spec (name : String) (triggers : List String) :
    ∀ (props : List (String × PropVal)) (form : Form),
      (bindValidateTriggers name triggers (props, form)).2.fieldsStore = form.fieldsStore ∧
      (bindValidateTriggers name triggers (props, form)).2.clearedFieldMetaCache =
        form.clearedFieldMetaCache ∧
      (∀ n a h, cachedHandler form n a = some h →
        cachedHandler (bindValidateTriggers name triggers (props, form)).2 n a = some h) ∧
      (HandlersCached name props form →
        HandlersCached name (bindValidateTriggers name triggers (props, form)).1
          (bindValidateTriggers name triggers (props, form)).2) := by
  induction triggers with
  | nil =>
    intro props form
    exact ⟨rfl, rfl, fun _ _ _ h => h, fun h => h⟩
  | cons action rest ih =>
    intro props form
    by_cases ht : propTruthy (objGet action props) = true
    · simp only [bindValidateTriggers, ht, if_true]
      exact ih props form
    · simp only [bindValidateTriggers, ht, Bool.false_eq_true, if_false]
      obtain ⟨i1, i2, i3, i4⟩ := ih
        (objSet action (.handler (getCacheBind form name action .onCollectValidate).1) props)
        (getCacheBind form name action .onCollectValidate).2
      obtain ⟨s1, s2, _⟩ := getCacheBind_store form name action .onCollectValidate
      refine ⟨i1.trans s1, i2.trans s2, ?_, ?_⟩
      · intro n a h hc
        exact i3 n a h (getCacheBind_keeps _ _ _ _ hc)
      · intro hinv
        exact i4 (handlersCached_objSet_bound hinv action .onCollectValidate)

/-! ## Registration -/

theorem getFieldProps_eq (opt : CreateOption) (form : Form) {name : String}
    (hname : name ≠ "") (o : FieldMeta) :
    getFieldProps opt form name o =
      .ok (regProps opt form name o,
        { (regCollected opt form name o).2 with
          fieldsStore := (regCollected opt form name o).2.fieldsStore.setFieldMeta name
            (regMeta form name o) }) := by
  unfold getFieldProps
  rw [if_neg hname]
  rfl

theorem cachedHandler_congr {form form' : Form} (h : form'.cachedBind = form.cachedBind)
    (n a : String) : cachedHandler form' n a = cachedHandler form n a := by
  unfold cachedHandler
  rw [h]

theorem regInitialProps_no_handler (opt : CreateOption) (form : Form) (name : String)
    (o : FieldMeta) (form' : Form) :
    HandlersCached name (regInitialProps opt form name o) form' := by
  have base : HandlersCached name
      (objSet "ref" (.handler (regRefBound form name o).1)
        (objSet ((registrationOption name o).valuePropName.getD "value")
          (.value (match ((regStore form name o).getField name).value with
            | some v => v
            | none => (registrationOption name o).initialValue.getD Val.undefined)) []))
      form' := by
    intro k h hk hget
    rw [objGet_objSet_ne hk] at hget
    by_cases hv : k = (registrationOption name o).valuePropName.getD "value"
    · subst hv
      rw [objGet_objSet_self] at hget
      simp at hget
    · rw [objGet_objSet_ne hv] at hget
      simp [objGet] at hget
  unfold regInitialProps
  simp only
  cases opt.fieldNameProp with
  | none => exact base
  | some p => exact handlersCached_objSet_other base p _ (by simp)

theorem regCollected_spec (opt : CreateOption) (form : Form) (name : String) (o : FieldMeta) :
    (∀ n a h, cachedHandler form n a = some h →
      cachedHandler (regCollected opt form name o).2 n a = some h) ∧
    HandlersCached name (regCollected opt form name o).1 (regCollected opt form name o).2 ∧
    (regCollected opt form name o).2.fieldsStore = regStore form name o ∧
    (regCollected opt form name o).2.clearedFieldMetaCache =
      objDel name form.clearedFieldMetaCache := by
  have href : ∀ n a h, cachedHandler form n a = some h →
      cachedHandler (regRefBound form name o).2 n a = some h := by
    intro n a h hc
    exact getCacheBind_keeps _ _ _ _ hc
  obtain ⟨r1, r2, _⟩ := getCacheBind_store
    { form with
      clearedFieldMetaCache := objDel name form.clearedFieldMetaCache
      fieldsStore := regStore form name o } name (name ++ "__ref") .saveRef
  obtain ⟨b1, b2, b3, b4⟩ := bindValidateTriggers_spec name
    (getValidateTriggers (registrationRules name o))
    (regInitialProps opt form name o) (regRefBound form name o).2
  have hb : HandlersCached name (regBound opt form name o).1 (regBound opt form name o).2 :=
    b4 (regInitialProps_no_handler opt form name o _)
  have hbk : ∀ n a h, cachedHandler form n a = some h →
      cachedHandler (regBound opt form name o).2 n a = some h :=
    fun n a h hc => b3 n a h (href n a h hc)
  have hbs : (regBound opt form name o).2.fieldsStore = regStore form name o := b1.trans r1
  have hbc : (regBound opt form name o).2.clearedFieldMetaCache =
      objDel name form.clearedFieldMetaCache := b2.trans r2
  unfold regCollected
  cases (registrationOption name o).trigger with
  | none => exact ⟨hbk, hb, hbs, hbc⟩
  | some t =>
    simp only
    by_cases hc : t ≠ "" ∧ ¬ t ∈ getValidateTriggers (registrationRules name o)
    · rw [if_pos hc]
      obtain ⟨s1, s2, _⟩ := getCacheBind_store (regBound opt form name o).2 name t .onCollect
      refine ⟨?_, handlersCached_objSet_bound hb t .onCollect, s1.trans hbs, s2.trans hbc⟩
      intro n a h hch
      exact getCacheBind_keeps _ _ _ _ (hbk n a h hch)
    · rw [if_neg hc]
      exact ⟨hbk, hb, hbs, hbc⟩

theorem getFieldProps_cache {opt : CreateOption} {form form' : Form} {name : String}
    {o : FieldMeta} {props : List (String × PropVal)}
    (h : getFieldProps opt form name o = .ok (props, form')) :
    (∀ n a hd, cachedHandler form n a = some hd → cachedHandler form' n a = some hd) ∧
    HandlersCached name props form' := by
  by_cases hname : name = ""
  · unfold getFieldProps at h
    rw [if_pos hname] at h
    simp at h
  · rw [getFieldProps_eq opt form hname o] at h
    simp only [Except.ok.injEq, Prod.mk.injEq] at h
    obtain ⟨hp, hf⟩ := h
    obtain ⟨c1, c2, _, _⟩ := regCollected_spec opt form name o
    have hcb : ∀ n a, cachedHandler form' n a =
        cachedHandler (regCollected opt form name o).2 n a := by
      intro n a
      rw [← hf]
      rfl
    constructor
    · intro n a hd hc
      rw [hcb]
      exact c1 n a hd hc
    · have hfinal : HandlersCached name (regProps opt form name o)
          (regCollected opt form name o).2 := by
        unfold regProps
        simp only
        have h2 : HandlersCached name
            (match opt.fieldMetaProp with
              | some p => objSet p (.meta (regMeta form name o)) (regCollected opt form name o).1
              | none => (regCollected opt form name o).1)
            (regCollected opt form name o).2 := by
          cases opt.fieldMetaProp with
          | none => exact c2
          | some p => exact handlersCached_objSet_other c2 p _ (by simp)
        cases opt.fieldDataProp with
        | none => exact h2
        | some p => exact handlersCached_objSet_other h2 p _ (by simp)
      rw [← hp]
      intro k hd hk hget
      rw [hcb]
      exact hfinal k hd hk hget

/-- C15. Handler memoization.  Once `getCacheBind(name, action, fn)` has returned
a handler, every later call for the same `(name, action)` made while the cache
still holds that binding (no detachment of `name` in between) returns the
identical handler, the same bound function, and binds nothing.  Two
`getFieldProps` calls for the same name, with every binding of the first still
cached at the second, return under every trigger key they both bind the
identical handler. -/
theorem handlers_are_memoized :
    (∀ (form later : Form) (name action : String) (fn fn' : HandlerFn),
      cachedHandler later name action =
        cachedHandler (getCacheBind form name action fn).2 name action →
      getCacheBind later name action fn' = ((getCacheBind form name action fn).1, later)) ∧
    (∀ (opt : CreateOption) (form form1 later form2 : Form) (name : String)
      (o1 o2 : FieldMeta) (props1 props2 : List (String × PropVal)),
      getFieldProps opt form name o1 = .ok (props1, form1) →
      (∀ a h, cachedHandler form1 name a = some h → cachedHandler later name a = some h) →
      getFieldProps opt later name o2 = .ok (props2, form2) →
      ∀ k h1 h2, k ≠ "ref" →
        objGet k props1 = some (.handler h1) → objGet k props2 = some (.handler h2) →
        h1 = h2) := by
  constructor
  · intro form later name action fn fn' hlater
    rw [getCacheBind_cached] at hlater
    exact getCacheBind_hit hlater fn'
  · intro opt form form1 later form2 name o1 o2 props1 props2 hg1 hkeep hg2 k h1 h2 hk hp1 hp2
    obtain ⟨_, c1⟩ := getFieldProps_cache hg1
    obtain ⟨k2, c2⟩ := getFieldProps_cache hg2
    have e1 := k2 name k h1 (hkeep k h1 (c1 k h1 hk hp1))
    have e2 := c2 k h2 hk hp2
    rw [e1] at e2
    exact Option.some.inj e2

/-- Witness of C15: the `onChange` binding of `a` bound twice, and `a`
registered twice. -/
theorem handlers_are_memoized_witness :
    getCacheBind (getCacheBind {} "a" "onChange" .onCollect).2 "a" "onChange" .onCollect =
      ((getCacheBind {} "a" "onChange" .onCollect).1,
        (getCacheBind {} "a" "onChange" .onCollect).2) ∧
    (∀ k h1 h2, k ≠ "ref" →
      objGet k exRegisteredProps = some (.handler h1) →
      objGet k exRegisteredAgainProps = some (.handler h2) → h1 = h2) :=
  ⟨handlers_are_memoized.1 {} (getCacheBind {} "a" "onChange" .onCollect).2 "a" "onChange"
      .onCollect .onCollect rfl,
    handlers_are_memoized.2 {} {} exRegistered exRegistered exRegisteredAgain "a" {} exRequired
      exRegisteredProps exRegisteredAgainProps (by rfl) (fun _ _ h => h) (by rfl)⟩

/-- C16 fails on the code: `a` is registered without rules and then again with
the rule `required`.  `onChange` is now a validate trigger, but the props of the
second registration hold under `onChange` the cached plain collecting handler of
the first, and calling it starts no validation. -/
theorem added_rules_keep_plain_handler :
    ∃ props1 form1 props2 form2 h form3,
      getFieldProps {} {} "a" {} = .ok (props1, form1) ∧
      getFieldProps {} form1 "a" exRequired = .ok (props2, form2) ∧
      getValidateTriggers (registrationRules "a" exRequired) = ["onChange"] ∧
      (objGet "a" form2.fieldsStore.fieldsMeta).bind FieldMeta.validate =
        some [{ trigger := ["onChange"], rules := [{ descr := "required" }] }] ∧
      objGet "onChange" props2 = some (.handler h) ∧
      h = { fn := .onCollect, name := "a", action := "onChange", id := 1 } ∧
      invokeHandler form2 h (.str "v") = .ok (form3, .done none) ∧
      (form3.fieldsStore.getField "a").validating = none :=
  ⟨_, _, _, _, _, _, rfl, rfl, rfl, rfl, rfl, rfl, rfl, rfl⟩

/-- C17. The call `getFieldProps(name, options)` throws if and only if the name
is missing or empty; it then throws 'Must call `getFieldProps` with valid name
string!' before any write, so the form (store metadata, cleared-field cache,
handler cache) is the one it was called on.  Any other name, also one that
collides by prefix with a registered name, makes it return. -/
theorem getFieldProps_throws_iff (opt : CreateOption) (form : Form) (name : Option String)
    (o : FieldMeta) :
    ((∃ e, getFieldPropsArg opt form name o = .error e) ↔ (name = none ∨ name = some "")) ∧
    (∀ e, getFieldPropsArg opt form name o = .error e →
      e = .thrown "Must call `getFieldProps` with valid name string!" ∧
      formAfterGetFieldProps opt form name o = form) ∧
    (∀ n, name = some n → n ≠ "" →
      ∃ props form', getFieldPropsArg opt form name o = .ok (props, form')) := by
  have hok : ∀ n, name = some n → n ≠ "" →
      ∃ props form', getFieldPropsArg opt form name o = .ok (props, form') := by
    intro n hn hne
    subst hn
    exact ⟨_, _, getFieldProps_eq opt form hne o⟩
  have hbad : (name = none ∨ name = some "") →
      getFieldPropsArg opt form name o =
        .error (.thrown "Must call `getFieldProps` with valid name string!") := by
    intro h
    have : name.getD "" = "" := by
      rcases h with h | h <;> subst h <;> rfl
    unfold getFieldPropsArg getFieldProps
    rw [if_pos this]
  refine ⟨⟨?_, fun h => ⟨_, hbad h⟩⟩, ?_, hok⟩
  · rintro ⟨e, he⟩
    cases name with
    | none => exact Or.inl rfl
    | some n =>
      by_cases hn : n = ""
      · subst hn; exact Or.inr rfl
      · obtain ⟨props, form', h2⟩ := hok n rfl hn
        rw [h2] at he
        simp at he
  · intro e he
    have hcase : name = none ∨ name = some "" := by
      cases name with
      | none => exact Or.inl rfl
      | some n =>
        by_cases hn : n = ""
        · subst hn; exact Or.inr rfl
        · obtain ⟨props, form', h2⟩ := hok n rfl hn
          rw [h2] at he
          simp at he
    have h3 := hbad hcase
    rw [h3] at he
    simp only [Except.error.injEq] at he
    refine ⟨he.symm, ?_⟩
    unfold formAfterGetFieldProps
    rw [h3]

theorem regPrevMeta_overlay (form : Form) (name : String) (o : FieldMeta) :
    overlay (regPrevMeta form name o) (registrationOption name o) =
      overlay (form.fieldsStore.getFieldMeta name).1 (registrationOption name o) := by
  unfold regPrevMeta
  cases h : (registrationOption name o).initialValue with
  | none => rfl
  | some v => simp [overlay, h]

/-- C19. After `getFieldProps(name, options)` the metadata stored for `name` is
the previous metadata overlaid key by key with the registration options, which
are the defaults `name`, `trigger = 'onChange'`, `valuePropName = 'value'`
overlaid with the caller's options, except for `validate`, which is the rule
list normalized from the options of this call alone, whatever was registered
before. -/
theorem getFieldProps_stores_overlaid_metadata (opt : CreateOption) (form form' : Form)
    (name : String) (o : FieldMeta) (props : List (String × PropVal))
    (h : getFieldProps opt form name o = .ok (props, form')) :
    objGet name form'.fieldsStore.fieldsMeta = some
      { overlay (form.fieldsStore.getFieldMeta name).1
          (overlay
            { name := some name, trigger := some "onChange", valuePropName := some "value"
              validate := some [] } o) with
        validate := some (registrationRules name o) } ∧
    (objGet name form'.fieldsStore.fieldsMeta).bind FieldMeta.validate =
      some (normalizeValidateRules ((registrationOption name o).validate.getD [])
        (registrationOption name o).rules
        (registrationTrigger (registrationOption name o))) := by
  have key : objGet name form'.fieldsStore.fieldsMeta = some
      { overlay (form.fieldsStore.getFieldMeta name).1 (registrationOption name o) with
        validate := some (registrationRules name o) } := by
    by_cases hname : name = ""
    · unfold getFieldProps at h
      rw [if_pos hname] at h
      simp at h
    · rw [getFieldProps_eq opt form hname o] at h
      simp only [Except.ok.injEq, Prod.mk.injEq] at h
      rw [← h.2]
      show objGet name (objSet name (regMeta form name o) _) = _
      rw [objGet_objSet_self]
      unfold regMeta
      rw [regPrevMeta_overlay]
  refine ⟨key, ?_⟩
  rw [key]
  rfl

/-- Witness of C19: `a`, registered without rules, is registered again with the
rule `required`. -/
theorem getFieldProps_stores_overlaid_metadata_witness :
    objGet "a" exRegisteredAgain.fieldsStore.fieldsMeta = some
      { overlay (exRegistered.fieldsStore.getFieldMeta "a").1
          (overlay
            { name := some "a", trigger := some "onChange", valuePropName := some "value"
              validate := some [] } exRequired) with
        validate := some (registrationRules "a" exRequired) } ∧
    (objGet "a" exRegisteredAgain.fieldsStore.fieldsMeta).bind FieldMeta.validate =
      some (normalizeValidateRules ((registrationOption "a" exRequired).validate.getD [])
        (registrationOption "a" exRequired).rules
        (registrationTrigger (registrationOption "a" exRequired))) :=
  getFieldProps_stores_overlaid_metadata {} exRegistered exRegisteredAgain "a" exRequired
    exRegisteredAgainProps (by rfl)

/-! ## Bulk value setting -/

theorem mem_objSet {α : Type} {k : String} {v : α} {o : List (String × α)} {x : String × α}
    (h : x ∈ objSet k v o) : x = (k, v) ∨ x ∈ o := by
  induction o with
  | nil => simp [objSet] at h; exact Or.inl h
  | cons kv rest ih =>
    obtain ⟨k', v'⟩ := kv
    by_cases hk : k' = k
    · simp only [objSet, hk, if_true, List.mem_cons] at h
      rcases h with h | h
      · exact Or.inl h
      · exact Or.inr (List.mem_cons_of_mem _ h)
    · simp only [objSet, hk, if_false, List.mem_cons] at h
      rcases h with h | h
      · exact Or.inr (h ▸ List.mem_cons_self _ _)
      · rcases ih h with e | e
        · exact Or.inl e
        · exact Or.inr (List.mem_cons_of_mem _ e)

theorem mem_of_objGet {α : Type} {k : String} {v : α} {o : List (String × α)}
    (h : objGet k o = some v) : (k, v) ∈ o := by
  induction o with
  | nil => simp [objGet] at h
  | cons kv rest ih =>
    obtain ⟨k', v'⟩ := kv
    by_cases hk : k' = k
    · simp only [objGet, hk, if_true, Option.some.injEq] at h
      subst hk; subst h
      exact List.mem_cons_self _ _
    · simp only [objGet, hk, if_false] at h
      exact List.mem_cons_of_mem _ (ih h)

theorem mem_foldl_objSet_if {α β : Type} (c : String × β → Bool) (g : String × β → α)
    (l : List (String × β)) :
    ∀ (acc : List (String × α)) (x : String × α),
      x ∈ l.foldl (fun acc kv => if c kv then objSet kv.1 (g kv) acc else acc) acc →
      x ∈ acc ∨ ∃ kv ∈ l, c kv = true ∧ x = (kv.1, g kv) := by
  induction l with
  | nil => intro acc x h; exact Or.inl h
  | cons kv rest ih =>
    intro acc x h
    simp only [List.foldl_cons] at h
    rcases ih _ x h with h1 | ⟨kv2, hm, hc, hx⟩
    · by_cases hc : c kv = true
      · rw [if_pos hc] at h1
        rcases mem_objSet h1 with e | e
        · exact Or.inr ⟨kv, List.mem_cons_self _ _, hc, e⟩
        · exact Or.inl e
      · rw [if_neg hc] at h1
        exact Or.inl h1
    · exact Or.inr ⟨kv2, List.mem_cons_of_mem _ hm, hc, hx⟩

theorem objGet_foldl_objSet_other {α : Type} (name : String) (upd : List (String × α)) :
    ∀ (base : List (String × α)), (∀ kv ∈ upd, kv.1 ≠ name) →
      objGet name (upd.foldl (fun acc kv => objSet kv.1 kv.2 acc) base) = objGet name base := by
  induction upd with
  | nil => intro base _; rfl
  | cons kv rest ih =>
    intro base h
    simp only [List.foldl_cons]
    rw [ih _ (fun x hx => h x (List.mem_cons_of_mem _ hx))]
    exact objGet_objSet_ne (fun e => h kv (List.mem_cons_self _ _) e.symm) _ _

theorem setFields_objGet_unregistered (st : FieldsStore) (upd : List (String × Field))
    (name : String) (h : objGet name st.fieldsMeta = none) :
    objGet name (setFields st upd).fields = objGet name st.fields := by
  simp only [setFields, FieldsStore.setFields, FieldsStore.flattenRegisteredFields]
  apply objGet_foldl_objSet_other
  intro kv hkv e
  have := (List.mem_filter.1 hkv).2
  rw [e, h] at this
  simp at this

/-- C18. For every nested mapping passed to `setFieldsValue`, the update built
for the store has entries only for registered names, each a record holding
nothing but the value supplied for that name's dotted path; the call returns,
the field state of every unregistered name and all metadata being as before. -/
theorem setFieldsValue_writes_registered_values (box : VProps → Val) (form : Form)
    (changedValues : ValTree) :
    (setFieldsValue box form changedValues).fieldsStore =
      setFields form.fieldsStore (valueUpdate box form.fieldsStore changedValues) ∧
    (∀ name f, objGet name (valueUpdate box form.fieldsStore changedValues) = some f →
      (objGet name form.fieldsStore.fieldsMeta).isSome = true ∧
      ∃ t, (name, t) ∈ form.fieldsStore.walkValues "" changedValues ∧
        f = { name := name
              value := some (match t with
                | .leaf v => v
                | .obj props => box props) }) ∧
    (∀ name, objGet name form.fieldsStore.fieldsMeta = none →
      objGet name (setFieldsValue box form changedValues).fieldsStore.fields =
        objGet name form.fieldsStore.fields) ∧
    (setFieldsValue box form changedValues).fieldsStore.fieldsMeta =
      form.fieldsStore.fieldsMeta ∧
    (setFieldsValue box form changedValues).clearedFieldMetaCache =
      form.clearedFieldMetaCache := by
  refine ⟨rfl, ?_, ?_, rfl, rfl⟩
  · intro name f hget
    have hmem := mem_of_objGet hget
    unfold valueUpdate at hmem
    have hcases := mem_foldl_objSet_if
      (fun (kv : String × ValTree) => (objGet kv.1 form.fieldsStore.fieldsMeta).isSome)
      (fun (kv : String × ValTree) =>
        (Field.mk kv.1 (some (match kv.2 with
          | .leaf v => v
          | .obj props => box props)) none none none none []))
      _ _ _ hmem
    rcases hcases with h1 | ⟨kv, hkv, hc, hx⟩
    · simp at h1
    · simp only [Prod.mk.injEq] at hx
      obtain ⟨hn, hf⟩ := hx
      unfold FieldsStore.flattenRegisteredValues at hkv
      rcases mem_foldl_objSet_if (fun (_ : String × ValTree) => true)
          (fun (kv : String × ValTree) => kv.2) _ _ _ hkv with
        h2 | ⟨kv0, hkv0, _, hx0⟩
      · simp at h2
      · have hkk : kv0 = kv := by
          rw [hx0]
        subst hkk
        refine ⟨by rw [hn]; exact hc, kv0.2, ?_, ?_⟩
        · rw [hn]; exact hkv0
        · rw [hf, hn]
  · intro name hm
    exact setFields_objGet_unregistered _ _ _ hm

/-! ## The first-fields option -/

theorem ruledNames_store (st : FieldsStore) (l : List String) :
    ∀ (acc : List String), (∀ name ∈ l, ∃ m, objGet name st.fieldsMeta = some m) →
      (l.foldl
        (fun acc name =>
          ((acc.1.getFieldMeta name).2,
            if hasRules (acc.1.getFieldMeta name).1.validate then acc.2 ++ [name] else acc.2))
        (st, acc)).1 = st := by
  induction l with
  | nil => intro acc _; rfl
  | cons name rest ih =>
    intro acc h
    obtain ⟨m, hm⟩ := h name (List.mem_cons_self _ _)
    simp only [List.foldl_cons, getFieldMeta_of_registered st name m hm]
    exact ih _ (fun n hn => h n (List.mem_cons_of_mem _ hn))

/-- C20. When `validateFields` starts the rule validator, the options it hands
over hold the caller's `firstFields` when the caller gave one, and otherwise the
list, in target order, of the target names whose metadata has `validateFirst`
set; `force` is passed through.  A validation started by the validating handler
`onCollectValidate` uses `firstFields = true` exactly when the field's metadata
has `validateFirst` set, and `false` otherwise. -/
theorem firstFields_option :
    (∀ (st st' : FieldsStore) (names : Option (List String)) (options : ValidateOptions)
      (hasCallback : Bool) (run : Run),
      validateFields st names options hasCallback = .ok (st', .pending run) →
      run.options.firstFields = some
        (match options.firstFields with
          | some given => given
          | none => .names ((targetNames st names).filter
              (fun name => (st.getFieldMeta name).1.validateFirst == some true))) ∧
      run.options.force = options.force) ∧
    (∀ (form form' : Form) (name action : String) (value : Val) (out : Outcome),
      onCollectValidate form name action value = .ok (form', out) →
      ∃ run, out = .pending run ∧
        run.options.firstFields = some
          (.flag ((form.fieldsStore.getFieldMeta name).1.validateFirst == some true))) := by
  constructor
  · intro st st' names options hasCallback run hv
    have hst : (ruledNames st (targetNames st names)).1 = st :=
      ruledNames_store st _ [] (fun name hn => registered_of_target st names name hn)
    unfold validateFields at hv
    simp only [hst] at hv
    split at hv
    · split at hv <;> simp at hv
    · obtain ⟨_, _, _, _, _, _, _, _, eo, _, _⟩ := pending_run hv
      rw [eo]
      cases hff : options.firstFields with
      | some given => simp [hff]
      | none => simp [hff]
  · intro form form' name action value out h
    unfold onCollectValidate at h
    simp only at h
    cases hv : validateFieldsInternal (onCollectCommon form name value).2.2.fieldsStore
        [{ (onCollectCommon form name value).1 with dirty := some true }] none (some action)
        { firstFields := some
            (.flag ((onCollectCommon form name value).2.1.validateFirst == some true)) }
        false with
    | error e => rw [hv] at h; simp [Except.map] at h
    | ok res =>
      rw [hv] at h
      simp only [Except.map, Except.ok.injEq, Prod.mk.injEq] at h
      obtain ⟨st1, out1⟩ := res
      obtain ⟨snap, _, _, h3⟩ := validateFieldsInternal_inv hv
      rcases h3 with ⟨hcb, _⟩ | ⟨_, hout⟩
      · simp at hcb
      · refine ⟨_, by rw [← h.2]; exact hout, rfl⟩

/-- Witness of C20: `validateFields()` and the `onChange` validating handler of
`x` on a store where `x` has `validateFirst` set. -/
theorem firstFields_option_witness :
    (exRunFirst.options.firstFields = some
        (match ({} : ValidateOptions).firstFields with
          | some given => given
          | none => .names ((targetNames exStoreFirst none).filter
              (fun name => (exStoreFirst.getFieldMeta name).1.validateFirst == some true))) ∧
      exRunFirst.options.force = ({} : ValidateOptions).force) ∧
    (∃ run, Outcome.pending exRunCollect = .pending run ∧
      run.options.firstFields = some
        (.flag ((exStoreFirst.getFieldMeta "x").1.validateFirst == some true))) :=
  ⟨firstFields_option.1 exStoreFirst _ none {} true exRunFirst (by rfl),
    firstFields_option.2 { fieldsStore := exStoreFirst } _ "x" "onChange" (.num 3)
      (.pending exRunCollect) (by rfl)⟩

/-! ## Edits during a validation -/

/-- C21. Staleness is decided by the value alone.  The field `a` is validated on
`onBlur` for the value `v`; while the rule validator runs, `a` is edited to `w`
and then back to `v`.  When the validator completes, the run is not marked
expired and its reconciliation commits: `dirty` and `validating` become `false`
on `a`, although `a` was edited after the snapshot. -/
theorem edit_back_commits_in_flight_run :
    ∃ props form1 onChange onBlur form2 form3 run form4 form5 r st,
      getFieldProps {} {} "a" exBlur = .ok (props, form1) ∧
      objGet "onChange" props = some (.handler onChange) ∧
      objGet "onBlur" props = some (.handler onBlur) ∧
      invokeHandler form1 onChange (.str "v") = .ok (form2, .done none) ∧
      invokeHandler form2 onBlur (.str "v") = .ok (form3, .pending run) ∧
      run.validated "a" = .str "v" ∧
      (form3.fieldsStore.getField "a").validating = some true ∧
      invokeHandler form3 onChange (.str "w") = .ok (form4, .done none) ∧
      form4.fieldsStore.getFieldValue "a" = .str "w" ∧
      invokeHandler form4 onChange (.str "v") = .ok (form5, .done none) ∧
      form5.fieldsStore.getFieldValue "a" = .str "v" ∧
      (form5.fieldsStore.getField "a").validating = some true ∧
      (form5.fieldsStore.getField "a").dirty = some true ∧
      reconcile form5.fieldsStore run none = .ok r ∧
      r.expired = [] ∧
      objKeys r.nowAllFields = ["a"] ∧
      complete form5.fieldsStore run none = .ok (st, none) ∧
      (st.getField "a").value = some (.str "v") ∧
      (st.getField "a").dirty = some false ∧
      (st.getField "a").validating = some false :=
  ⟨_, _, _, _, _, _, _, _, _, _, _, rfl, rfl, rfl, rfl, rfl, rfl, rfl, rfl, rfl, rfl, rfl, rfl,
    rfl, rfl, rfl, rfl, rfl, rfl, rfl, rfl⟩

end RcForm

namespace SideEffect

/-! ## The mounted instances -/

theorem indexOfFrom_of_not_mem (x : Nat) (xs : List Nat) (i : Nat) (h : x ∉ xs) :
    indexOfFrom x xs i = -1 := by
  induction xs generalizing i with
  | nil => rfl
  | cons y ys ih =>
    have hy : y ≠ x := fun e => h (by simp [e])
    have hys : x ∉ ys := fun e => h (List.mem_cons_of_mem _ e)
    simp only [indexOfFrom, if_neg hy]
    exact ih _ hys

theorem indexOf_of_not_mem (x : Nat) (xs : List Nat) (h : x ∉ xs) : indexOf xs x = -1 :=
  indexOfFrom_of_not_mem x xs 0 h

/-- The `emitChange()` call stores the reduced state of the instances in the list,
mapped on the server, and leaves the list as it is. -/
theorem emitChange_spec {P S : Type} (args : Args P S) (props : Nat → P) (c : Closure S) :
    (emitChange args props c).mountedInstances = c.mountedInstances ∧
    (emitChange args props c).canUseDOM = c.canUseDOM ∧
    (emitChange args props c).state =
      some (stateOf args c.canUseDOM props c.mountedInstances) := by
  unfold emitChange stateOf
  cases hc : c.canUseDOM with
  | true => simp
  | false =>
    cases hm : args.mapStateOnServer with
    | none => simp
    | some f => simp

/-- Unmounting an instance that is not in the list, as is one mounted before the
last rewind, removes the last instance of the list. -/
theorem componentWillUnmount_of_not_mounted {P S : Type} (args : Args P S) (props : Nat → P)
    (c : Closure S) (inst : Nat) (h : inst ∉ c.mountedInstances) :
    (componentWillUnmount args props c inst).mountedInstances = c.mountedInstances.dropLast := by
  unfold componentWillUnmount
  simp only [(emitChange_spec args props _).1, indexOf_of_not_mem inst _ h, splice]
  rw [if_pos (by decide)]
  have e : ((c.mountedInstances.length : Int) + -1).toNat = c.mountedInstances.length - 1 := by
    omega
  rw [e, List.dropLast_eq_take]
  have hd : List.drop (c.mountedInstances.length - 1 + 1) c.mountedInstances = [] := by
    apply List.drop_eq_nil_of_le
    omega
  rw [hd, List.append_nil]

theorem indexOfFrom_of_mem (x : Nat) (xs : List Nat) (i : Nat) (h : x ∈ xs) :
    indexOfFrom x xs i = ((i + xs.indexOf x : Nat) : Int) := by
  induction xs generalizing i with
  | nil => simp at h
  | cons y ys ih =>
    by_cases hy : y = x
    · subst hy
      simp [indexOfFrom]
    · have hys : x ∈ ys := by
        rcases List.mem_cons.1 h with e | e
        · exact absurd e.symm hy
        · exact e
      simp only [indexOfFrom, if_neg hy]
      rw [ih _ hys, List.indexOf_cons_ne _ hy]
      congr 1
      omega

theorem take_drop_indexOf (x : Nat) (xs : List Nat) (h : x ∈ xs) :
    xs.take (xs.indexOf x) ++ xs.drop (xs.indexOf x + 1) = xs.erase x := by
  induction xs with
  | nil => simp at h
  | cons y ys ih =>
    by_cases hy : y = x
    · subst hy
      simp
    · have hys : x ∈ ys := by
        rcases List.mem_cons.1 h with e | e
        · exact absurd e.symm hy
        · exact e
      rw [List.indexOf_cons_ne _ hy, List.erase_cons_tail (by simpa using hy)]
      simp only [List.take_succ_cons, List.drop_succ_cons, List.cons_append]
      rw [ih hys]

theorem splice_indexOf_of_mem (x : Nat) (xs : List Nat) (h : x ∈ xs) :
    splice xs (indexOf xs x) 1 = xs.erase x := by
  unfold indexOf splice
  rw [indexOfFrom_of_mem x xs 0 h]
  have hlt : xs.indexOf x < xs.length := List.indexOf_lt_length.2 h
  simp only [Nat.zero_add]
  rw [if_neg (by omega)]
  simp only [Int.toNat_ofNat]
  rw [Nat.min_eq_left (le_of_lt hlt)]
  exact take_drop_indexOf x xs h

/-- Unmounting an instance that is in the list removes that instance, at its
first position, and no other. -/
theorem componentWillUnmount_of_mounted {P S : Type} (args : Args P S) (props : Nat → P)
    (c : Closure S) (inst : Nat) (h : inst ∈ c.mountedInstances) :
    (componentWillUnmount args props c inst).mountedInstances = c.mountedInstances.erase inst := by
  unfold componentWillUnmount
  simp only [(emitChange_spec args props _).1]
  exact splice_indexOf_of_mem inst _ h

/-- One event on the server that does not unmount an instance missing from the
list changes the list as the claim says. -/
theorem step_of_live {P S : Type} (args : Args P S) (w : World P S) (e : Event P)
    (hs : w.closure.canUseDOM = false)
    (he : match e with
      | .unmount inst => inst ∈ w.closure.mountedInstances
      | _ => True) :
    (step args w e).closure.mountedInstances = liveStep w.closure.mountedInstances e ∧
    (step args w e).closure.canUseDOM = false := by
  cases e with
  | mount inst p =>
    simp only [step, componentWillMount, liveStep]
    exact ⟨(emitChange_spec args _ _).1, by rw [(emitChange_spec args _ _).2.1]; exact hs⟩
  | update inst p =>
    simp only [step, componentDidUpdate, liveStep]
    exact ⟨(emitChange_spec args _ _).1, by rw [(emitChange_spec args _ _).2.1]; exact hs⟩
  | unmount inst =>
    simp only [step, liveStep]
    refine ⟨componentWillUnmount_of_mounted args _ _ inst he, ?_⟩
    unfold componentWillUnmount
    rw [(emitChange_spec args _ _).2.1]
    exact hs
  | rewind =>
    simp only [step, rewind, hs, liveStep]
    exact ⟨rfl, rfl⟩

/-- On the server, as long as no instance is unmounted that is missing from the
list, the list of mounted instances follows the claim. -/
theorem run_of_unmountsLive {P S : Type} (args : Args P S) (events : List (Event P)) :
    ∀ (w : World P S), w.closure.canUseDOM = false →
      UnmountsLive w.closure.mountedInstances events →
      (run args w events).closure.mountedInstances =
        events.foldl liveStep w.closure.mountedInstances ∧
      (run args w events).closure.canUseDOM = false := by
  induction events with
  | nil => intro w hs _; exact ⟨rfl, hs⟩
  | cons e es ih =>
    intro w hs hl
    obtain ⟨he, hrest⟩ := hl
    obtain ⟨h1, h2⟩ := step_of_live args w e hs he
    have := ih (step args w e) h2 (by rw [h1]; exact hrest)
    simp only [run, List.foldl_cons] at this ⊢
    rw [← h1]
    exact this

/-- C22 fails on the code.  On the server an instance `1` is mounted, the state
is rewound, an instance `2` is mounted, and `1` is unmounted.  Instance `2` is
mounted and not unmounted since the rewind, but the list of mounted instances
is empty and the stored state is the one of no instance: `indexOf` gives `-1`
for `1`, and `splice(-1, 1)` removes the last instance, which is `2`.  Right
after the rewind the stored state is `undefined`. -/
theorem unmount_after_rewind_removes_other_instance :
    (run exArgs exServer [.mount 1 "a", .rewind]).closure.mountedInstances = [] ∧
    peek (run exArgs exServer [.mount 1 "a", .rewind]).closure = none ∧
    (run exArgs exServer [.mount 1 "a", .rewind, .mount 2 "b"]).closure.mountedInstances = [2] ∧
    peek (run exArgs exServer [.mount 1 "a", .rewind, .mount 2 "b"]).closure = some ["b"] ∧
    indexOf [2] 1 = -1 ∧
    splice [2] (-1) 1 = ([] : List Nat) ∧
    mountedSinceRewind exEvents = [2] ∧
    (run exArgs exServer exEvents).closure.mountedInstances = [] ∧
    peek (run exArgs exServer exEvents).closure = some [] ∧
    stateOf exArgs false (run exArgs exServer exEvents).props (mountedSinceRewind exEvents) =
      ["b"] := by
  refine ⟨rfl, rfl, rfl, rfl, rfl, rfl, rfl, rfl, rfl, rfl⟩

end SideEffect
